import Mathlib

/-!
The character-level context model of `tinySLM3.c`, with escape sampling.

Shallow embedding of the context store, the trainer and the sampler of
`tinySLM3.c`.

* Characters are `U8` values, held as `Nat`; counters are `U32` values, held as
  `Nat` with an explicit reduction modulo `2 ^ 32` at every increment.
* `count_table` is the list of `CountEntry` records in the order of the
  `hh.next` chain (insertion order), `total_table` the list of `TotalEntry`
  records.
* A context is a C string: the bytes of the buffer before its first NUL.
* `rand()` is a stream `rnd : Nat → Nat` read at a cursor. `World` holds the three
  globals with the stream and its cursor; `sample_character_st` is the sampler as a
  transformer of that state.
* The escape test is a comparison of doubles; it is a parameter `esc` of the sampler.
  The value the code gives it is `esc_double`, computed from `escape_prob` over `F64`,
  binary64 arithmetic in round-to-nearest-even on the non-negative values that occur.
* The key handed to `HASH_FIND` on `count_table` covers the bytes of `context`,
  `next_char`, the padding and `count`; in `update_model` the last two are never
  written in the key. What the lookup returns is therefore a parameter of
  `update_model` (a `Pick`), restricted to what a byte-wise comparison of the key
  allows: an entry with the same context string and the same `next_char`, or
  nothing.
-/

namespace TinySLM

/-! ## Constants -/

/-- `#define ASCII_START 32` -/
def ASCII_START : Nat := 32

/-- `#define ASCII_END 126` -/
def ASCII_END : Nat := 126

/-- `#define MAX_ORDER 4` -/
def MAX_ORDER : Nat := 4

/-- `#define MAX_CONTEXT_LEN MAX_ORDER` -/
def MAX_CONTEXT_LEN : Nat := MAX_ORDER

/-- Number of values of a `U32` counter. -/
def U32_MOD : Nat := 4294967296

/-! ## Data model -/

/-- `CountEntry`: context string, next character, occurrence counter. -/
structure CountEntry where
  context : List Nat
  next_char : Nat
  count : Nat
deriving DecidableEq, Repr

/-- `TotalEntry`: context string and total number of occurrences. -/
structure TotalEntry where
  context : List Nat
  total : Nat
deriving DecidableEq, Repr

/-- The three globals `count_table`, `total_table` and `history`. -/
structure Model where
  count_table : List CountEntry
  total_table : List TotalEntry
  history : List Nat
deriving DecidableEq, Repr

/-- The globals at program start: both tables `NULL`, `history` zero-filled. -/
def empty_model : Model := ⟨[], [], List.replicate MAX_ORDER 0⟩

/-- `memset(history, ' ', MAX_ORDER)` -/
def init_model (m : Model) : Model :=
  { m with history := List.replicate MAX_ORDER 32 }

/-- The string held by a NUL-terminated buffer: its bytes before the first NUL. -/
def cstr (buf : List Nat) : List Nat := buf.takeWhile (fun b => b != 0)

/-- `get_context_str(order, out)`: `out[i] = history[MAX_ORDER - order + i]` for
`i < order`, then `out[order] = 0`; the result is the string held by `out`. -/
def get_context_str (history : List Nat) (order : Nat) : List Nat :=
  cstr ((List.range order).map (fun i => history.getD (MAX_ORDER - order + i) 0) ++ [0])

/-- `normalize_char` -/
def normalize_char (ch : Int) : Int :=
  if ch < ASCII_START ∨ ch > ASCII_END then
    if ch = 10 ∨ ch = 9 then 32 else -1
  else ch

/-! ## Trainer -/

/-- Result of the `HASH_FIND` calls of one `update_model` call on `count_table`:
for each order, the position in the `hh.next` chain of the entry returned, if any. -/
abbrev Pick := Nat → Option Nat

/-- `HASH_FIND(hh, count_table, &key, ...)` (macro of `uthash.h`, which is not among
the sources). The key spans bytes of `key` that `update_model` leaves uninitialised,
so whether an entry compares equal is not fixed by the table and the key; `hit`
proposes the outcome. An entry can only be returned when its key bytes equal those of
`key`, hence when its context string and `next_char` are those of the key. -/
def HASH_FIND_count (tbl : List CountEntry) (ctx : List Nat) (ch : Nat)
    (hit : Option Nat) : Option Nat :=
  match hit with
  | none => none
  | some i =>
    match tbl.get? i with
    | none => none
    | some e => if e.context = ctx ∧ e.next_char = ch then some i else none

/-- Modelled from the spec: the macro `HASH_ADD` of `uthash.h`, which is not among the
sources. Entries are created on first observation and never deleted; the new entry
is added to the table, last in the `hh.next` chain. -/
def HASH_ADD (tbl : List CountEntry) (entry : CountEntry) : List CountEntry :=
  tbl ++ [entry]

/-- `entry->count++` on the entry at position `i`. -/
def bump_count : List CountEntry → Nat → List CountEntry
  | [], _ => []
  | e :: es, 0 => { e with count := (e.count + 1) % U32_MOD } :: es
  | e :: es, i + 1 => e :: bump_count es i

/-- The "Update count" block of `update_model`. -/
def update_count (tbl : List CountEntry) (ctx : List Nat) (ch : Nat)
    (hit : Option Nat) : List CountEntry :=
  match HASH_FIND_count tbl ctx ch hit with
  | some i => bump_count tbl i
  | none => HASH_ADD tbl ⟨ctx, ch, 1⟩

/-- Modelled from the spec: the macro `HASH_FIND_STR` of `uthash.h`, which is not
among the sources. It returns the entry of the table whose context string is `ctx`,
or signals that no entry exists. -/
def HASH_FIND_STR (tbl : List TotalEntry) (ctx : List Nat) : Option TotalEntry :=
  tbl.find? (fun t => decide (t.context = ctx))

/-- Modelled from the spec: the macro `HASH_ADD_STR` of `uthash.h`, which is not among
the sources. The new entry is added to the table. -/
def HASH_ADD_STR (tbl : List TotalEntry) (total : TotalEntry) : List TotalEntry :=
  tbl ++ [total]

/-- `total->total++` on the entry that `HASH_FIND_STR` returns for `ctx`. -/
def bump_total : List TotalEntry → List Nat → List TotalEntry
  | [], _ => []
  | t :: ts, ctx =>
    if t.context = ctx then { t with total := (t.total + 1) % U32_MOD } :: ts
    else t :: bump_total ts ctx

/-- The "Update total" block of `update_model`. -/
def update_total (tbl : List TotalEntry) (ctx : List Nat) : List TotalEntry :=
  match HASH_FIND_STR tbl ctx with
  | some _ => bump_total tbl ctx
  | none => HASH_ADD_STR tbl ⟨ctx, 1⟩

/-- Body of the `for (order ...)` loop of `update_model`. -/
def record_order (ch : Nat) (pick : Pick) (m : Model) (order : Nat) : Model :=
  let ctx := get_context_str m.history order
  { m with
    count_table := update_count m.count_table ctx ch (pick order)
    total_table := update_total m.total_table ctx }

/-- `memmove(history, history + 1, n)`: `history[i] = old history[i + 1]` for `i < n`. -/
def memmove_left (history : List Nat) (n : Nat) : List Nat :=
  (List.range n).foldl (fun acc i => acc.set i (history.getD (i + 1) 0)) history

/-- `update_model(ch)` -/
def update_model (m : Model) (ch : Nat) (pick : Pick) : Model :=
  let m1 := (List.range (MAX_ORDER + 1)).foldl (record_order ch pick) m
  { m1 with history := (memmove_left m1.history (MAX_ORDER - 1)).set (MAX_ORDER - 1) ch }

/-- A sequence of `update_model` calls; `picks` gives the lookup results of each call. -/
def updates : Model → List Nat → (Nat → Pick) → Model
  | m, [], _ => m
  | m, c :: cs, picks => updates (update_model m c (picks 0)) cs (fun i => picks (i + 1))

/-- One action of the program on the model: a call `update_model(ch)`, with the
results of its count-table lookups, or the `memset(history, ' ', MAX_ORDER)` that
`generate_response` starts with. -/
inductive Step where
  | update (ch : Nat) (pick : Pick)
  | reset

/-- The effect of one action. -/
def step (m : Model) : Step → Model
  | .update ch pick => update_model m ch pick
  | .reset => init_model m

/-- The state after a sequence of actions. -/
def run (m : Model) (steps : List Step) : Model := steps.foldl step m

/-- The characters handed to `update_model` by a sequence of actions. -/
def fed : List Step → List Nat
  | [] => []
  | .update ch _ :: ss => ch :: fed ss
  | .reset :: ss => fed ss

/-- The actions of a sequence of `update_model` calls. -/
def update_steps : List Nat → (Nat → Pick) → List Step
  | [], _ => []
  | c :: cs, picks => .update c (picks 0) :: update_steps cs (fun i => picks (i + 1))

/-- The cast `(U8)ch`. -/
def toU8 (ch : Int) : Nat := (ch % 256).toNat

/-- The byte loop of `train_model`: `ch = normalize_char(b); if (ch < 0) continue;
update_model((U8)ch)`. -/
def train_model : Model → List Int → (Nat → Pick) → Model
  | m, [], _ => m
  | m, b :: bs, picks =>
    let ch := normalize_char b
    if ch < 0 then train_model m bs picks
    else train_model (update_model m (toU8 ch) (picks 0)) bs (fun i => picks (i + 1))

/-- The prompt loop of `generate_response`, after the `memset`:
`for (i = 0; prompt[i]; i++) { ch = normalize_char(prompt[i]);
if (ch >= 0) update_model((U8)ch); }`. The list holds the bytes at `prompt`; the loop
ends at the first NUL (or with the list). -/
def feed_prompt : Model → List Int → (Nat → Pick) → Model
  | m, [], _ => m
  | m, b :: bs, picks =>
    if b = 0 then m
    else
      let ch := normalize_char b
      if ch ≥ 0 then
        feed_prompt (update_model m (toU8 ch) (picks 0)) bs (fun i => picks (i + 1))
      else feed_prompt m bs picks

/-! ## Sampler -/

/-- The string `fallback` of `sample_character`, as character codes. -/
def fallback : List Nat :=
  "etaoinshrdlcumwfgypbvkjxqz ETAOINSHRDLCUMWFGYPBVKJXQZ.,!?;:".toList.map Char.toNat

/-- The cumulative walk over the `hh.next` chain: entries whose context is `ctx`
add their count to `cumulative` (a `U32`), the first one that brings it above `r`
gives the character; `none` when the chain ends first. -/
def sample_walk : List CountEntry → List Nat → Nat → Nat → Option Nat
  | [], _, _, _ => none
  | e :: es, ctx, r, cumulative =>
    if e.context = ctx then
      if r < (cumulative + e.count) % U32_MOD then some e.next_char
      else sample_walk es ctx r ((cumulative + e.count) % U32_MOD)
    else sample_walk es ctx r cumulative

/-- Where `sample_character` took its result from. -/
inductive Sampled where
  | walk (order : Nat) (ch : Nat)
  | alphabet (ch : Nat)
deriving DecidableEq, Repr

/-- The character of a sampling result. -/
def Sampled.char : Sampled → Nat
  | .walk _ ch => ch
  | .alphabet ch => ch

/-- The loop of `sample_character` with `n` orders left (the current order is
`n - 1`), followed by the fallback draw. `esc order total v` is the outcome of
`(double)v / RAND_MAX < 0.1 + (0.2 * order) / (total + 1)`. Returns the result and
the cursor in `rnd` after the call. -/
def sample_orders (esc : Nat → Nat → Nat → Bool) (m : Model) (rnd : Nat → Nat) :
    Nat → Nat → Sampled × Nat
  | 0, pos => (.alphabet (fallback.getD (rnd pos % fallback.length) 0), pos + 1)
  | order + 1, pos =>
    let ctx := get_context_str m.history order
    match HASH_FIND_STR m.total_table ctx with
    | none => sample_orders esc m rnd order pos
    | some total =>
      if total.total = 0 then sample_orders esc m rnd order pos
      else if order > 0 ∧ esc order total.total (rnd pos) = true then
        sample_orders esc m rnd order (pos + 1)
      else
        let pos1 := if order > 0 then pos + 1 else pos
        match sample_walk m.count_table ctx (rnd pos1 % total.total) 0 with
        | some ch => (.walk order ch, pos1 + 1)
        | none => sample_orders esc m rnd order (pos1 + 1)

/-- `sample_character()` with its source: orders `MAX_ORDER` down to 0. -/
def sample_trace (esc : Nat → Nat → Nat → Bool) (m : Model) (rnd : Nat → Nat)
    (pos : Nat) : Sampled × Nat :=
  sample_orders esc m rnd (MAX_ORDER + 1) pos

/-- `sample_character()`: the character returned. -/
def sample_character (esc : Nat → Nat → Nat → Bool) (m : Model) (rnd : Nat → Nat)
    (pos : Nat) : Nat :=
  (sample_trace esc m rnd pos).1.char

/-! ## Quantities the properties are stated with -/

/-- Sum of the counts of the entries whose (context, next character) satisfies `p`. -/
def sumBy (p : List Nat → Nat → Bool) (tbl : List CountEntry) : Nat :=
  ((tbl.filter (fun e => p e.context e.next_char)).map (fun e => e.count)).sum

/-- Accumulated count of `(ctx, c)`: sum over the entries with that context and
next character. -/
def accCount (tbl : List CountEntry) (ctx : List Nat) (c : Nat) : Nat :=
  sumBy (fun x y => decide (x = ctx) && decide (y = c)) tbl

/-- Sum of the counts of all entries whose context is `ctx`. -/
def ctxSum (tbl : List CountEntry) (ctx : List Nat) : Nat :=
  sumBy (fun x _ => decide (x = ctx)) tbl

/-- The total recorded for `ctx` in a total table, when it has an entry. -/
def tot (tbl : List TotalEntry) (ctx : List Nat) : Option Nat :=
  (HASH_FIND_STR tbl ctx).map (fun t => t.total)

/-- The total recorded for `ctx`, when it has a `TotalEntry`. -/
def total_for (m : Model) (ctx : List Nat) : Option Nat :=
  tot m.total_table ctx

/-- The contexts of orders 0 to `MAX_ORDER` derived from a history. -/
def contexts (history : List Nat) : List (List Nat) :=
  (List.range (MAX_ORDER + 1)).map (get_context_str history)

/-- The history after `update_model(ch)`. -/
def slide (history : List Nat) (ch : Nat) : List Nat :=
  (memmove_left history (MAX_ORDER - 1)).set (MAX_ORDER - 1) ch

/-- The accepted bytes of a stream, each replaced by its normalized character. -/
def accepted (stream : List Int) : List Int :=
  (stream.filter (fun b => decide (0 ≤ normalize_char b))).map normalize_char

/-- The accepted bytes of a stream as the characters handed to `update_model`. -/
def accepted_chars (stream : List Int) : List Nat := (accepted stream).map toU8

/-- The bytes of a C string: those before the first NUL. -/
def prompt_str (stream : List Int) : List Int := stream.takeWhile (fun b => b != 0)

/-! ## Events and invariants used in the proofs -/

/-- The (context, next character) events recorded by a sequence of `update_model`
calls that starts with the given history, in the order they are recorded. -/
def evs : List Nat → List Nat → List (List Nat × Nat)
  | _, [] => []
  | h, c :: cs => (contexts h).map (fun ctx => (ctx, c)) ++ evs (slide h c) cs

/-- Number of events recorded for the context `ctx`. -/
def seen (E : List (List Nat × Nat)) (ctx : List Nat) : Nat :=
  E.countP (fun ev => decide (ev.1 = ctx))

/-- Number of events selected by a predicate on (context, next character). -/
def hits (p : List Nat → Nat → Bool) (E : List (List Nat × Nat)) : Nat :=
  E.countP (fun ev => p ev.1 ev.2)

/-- The total table agrees with a list of events: a context has an entry exactly
when it was recorded, and its total is the number of its events modulo `2 ^ 32`. -/
def TAgree (tbl : List TotalEntry) (E : List (List Nat × Nat)) : Prop :=
  ∀ ctx, tot tbl ctx = if seen E ctx = 0 then none else some (seen E ctx % U32_MOD)

/-- The count table agrees with a list of events: every sum of counts is the number
of events it selects. -/
def CAgree (tbl : List CountEntry) (E : List (List Nat × Nat)) : Prop :=
  ∀ p, sumBy p tbl = hits p E

/-- The tables are those a list of events accounts for, up to the wrap of the `U32`
counters: the totals as in `TAgree`, every sum of counts congruent modulo `2 ^ 32`
to the number of events it selects. -/
def Acct (m : Model) : Prop :=
  ∃ E, TAgree m.total_table E ∧ ∀ p, sumBy p m.count_table % U32_MOD = hits p E % U32_MOD

/-- No entry of the count table is without a total for its context. -/
def NoOrphan (m : Model) : Prop :=
  ∀ e ∈ m.count_table, (tot m.total_table e.context).isSome = true

/-- The state is the one a list of events accounts for, each context having at most
`n` events and the context "" exactly `n`, and the history holds `MAX_ORDER` non-NUL
characters. -/
def Good (n : Nat) (m : Model) : Prop :=
  m.history.length = MAX_ORDER ∧ (∀ b ∈ m.history, b ≠ 0) ∧
    ∃ E, TAgree m.total_table E ∧ CAgree m.count_table E ∧
      (∀ ctx, seen E ctx ≤ n) ∧ seen E [] = n

/-! ## Instances -/

/-- Character codes of a string literal. -/
def codes (s : String) : List Nat := s.toList.map Char.toNat

/-- The bytes of a string literal, as the `int` values read from a `char` buffer. -/
def char_bytes (s : String) : List Int := s.toList.map (fun c => (c.toNat : Int))

/-- Lookup results under which `HASH_FIND` on `count_table` never returns an entry. -/
def missAll : Nat → Pick := fun _ _ => none

/-- The state after `init_model` and `train_model` on the bytes of `s`. -/
def trained (s : String) (picks : Nat → Pick) : Model :=
  train_model (init_model empty_model) (char_bytes s) picks

/-- A state whose counters for the context "" and the character 'a' hold the
largest `U32` value; the history is the initial one. -/
def saturated : Model :=
  ⟨[⟨[], 97, 4294967295⟩], [⟨[], 4294967295⟩], [32, 32, 32, 32]⟩

/-! ## The type `double` and the escape probability -/

/-- What ended the sampling loop: `i < 500` false, `generated < 300` false, the
`break` at a sentence end, or the `break` at a sentence of more than 200
characters (after which a "." is printed). -/
inductive Stop where
  | iterations
  | generated
  | sentence_end
  | sentence_cap
deriving DecidableEq, Repr

/-- State of the sampling loop: the model, the cursor in the `rand()` stream, the
locals `generated` and `sentence_len`, and for the properties: the number of loop
bodies run, the characters printed by `printf("%c", next)` and the number of times
the range check took the `continue`. -/
structure Gen where
  model : Model
  pos : Nat
  generated : Nat
  sentence_len : Nat
  iters : Nat
  sampled : List Nat
  skipped : Nat
deriving DecidableEq, Repr

/-- The sampling loop `for (int i = 0; i < 500 && generated < 300; i++)` of
`generate_response`, with `fuel = 500 - i` iterations left. `picks j` gives the results
of the count-table lookups of the `update_model` call number `j` of the loop. -/
def gen_loop (esc : Nat → Nat → Nat → Bool) (rnd : Nat → Nat) (picks : Nat → Pick) :
    Nat → Gen → Gen × Stop
  | 0, g => (g, .iterations)
  | fuel + 1, g =>
    if ¬ g.generated < 300 then (g, .generated)
    else
      let s := sample_trace esc g.model rnd g.pos
      let next := s.1.char
      if next < ASCII_START ∨ next > ASCII_END then
        gen_loop esc rnd picks fuel
          { g with pos := s.2, iters := g.iters + 1, skipped := g.skipped + 1 }
      else
        let m1 := update_model g.model next (picks g.generated)
        let punct := (next = 46 ∨ next = 63 ∨ next = 33) ∧ g.sentence_len > 20
        let pos1 := if punct then s.2 + 1 else s.2
        if punct ∧ rnd s.2 % 3 = 0 then
          ({ g with model := m1, pos := pos1, generated := g.generated + 1,
                    iters := g.iters + 1, sampled := g.sampled ++ [next] }, .sentence_end)
        else if g.sentence_len + 1 > 200 then
          ({ g with model := m1, pos := pos1, generated := g.generated + 1,
                    sentence_len := g.sentence_len + 1, iters := g.iters + 1,
                    sampled := g.sampled ++ [next] }, .sentence_cap)
        else
          gen_loop esc rnd picks fuel
            { g with model := m1, pos := pos1, generated := g.generated + 1,
                     sentence_len := g.sentence_len + 1, iters := g.iters + 1,
                     sampled := g.sampled ++ [next] }

/-- The loop state at `int generated = 0, sentence_len = 0;`. -/
def gen_start (m : Model) (pos : Nat) : Gen :=
  ⟨m, pos, 0, 0, 0, [], 0⟩

/-- `generate_response(prompt)`: the `memset`, the prompt loop, then the sampling
loop. `picks1` serves the `update_model` calls of the prompt loop, `picks2` those of
the sampling loop. -/
def generate_response (esc : Nat → Nat → Nat → Bool) (rnd : Nat → Nat)
    (picks1 picks2 : Nat → Pick) (m : Model) (prompt : List Int) (pos : Nat) : Gen × Stop :=
  gen_loop esc rnd picks2 500 (gen_start (feed_prompt (init_model m) prompt picks1) pos)

/-- The model after one body of the sampling loop on the sampled character `next`:
unchanged when the range check takes the `continue`, else after `update_model(next)`. -/
def feed_sample (m : Model) (next : Nat) (pick : Pick) : Model :=
  if next < ASCII_START ∨ next > ASCII_END then m else update_model m next pick

/-- The states the program passes through: the state after `init_model`, and from a
state the program passes through, the state after one byte of `train_model` or of the
prompt loop, after the `memset` of `generate_response`, and after one body of the
sampling loop. -/
inductive Reach : Model → Prop where
  | init : Reach (init_model empty_model)
  | byte (m : Model) (b : Int) (picks : Nat → Pick) :
      Reach m → Reach (train_model m [b] picks)
  | reset (m : Model) : Reach m → Reach (init_model m)
  | sample (m : Model) (esc : Nat → Nat → Nat → Bool) (rnd : Nat → Nat) (pos : Nat)
      (pick : Pick) :
      Reach m → Reach (feed_sample m (sample_character esc m rnd pos) pick)

/-- The history holds `MAX_ORDER` characters, and every character of the history and
every `next_char` of the count table lies in `[ASCII_START, ASCII_END]`. -/
def InRange (m : Model) : Prop :=
  m.history.length = MAX_ORDER ∧
    (∀ b ∈ m.history, ASCII_START ≤ b ∧ b ≤ ASCII_END) ∧
    ∀ e ∈ m.count_table, ASCII_START ≤ e.next_char ∧ e.next_char ≤ ASCII_END

/-! ## Order selection, in the words of the specification -/

/-- The total of the context of order `k` of the current history, 0 when that context
has no `TotalEntry`. -/
def order_total (m : Model) (k : Nat) : Nat :=
  (total_for m (get_context_str m.history k)).getD 0

/-- Number of the orders `j` with `k < j < n` whose context has a non-zero total: the
escape draws made before order `k` is examined when all those orders escape. -/
def draws_above (m : Model) (n k : Nat) : Nat :=
  ((List.range n).filter (fun j => decide (k < j) && decide (0 < order_total m j))).length

/-- Order `k` is taken by a scan of the orders below `n` that starts at cursor `pos`:
its context has a non-zero total and, when `k > 0`, its escape draw is not below
`p_escape`. -/
def takes (esc : Nat → Nat → Nat → Bool) (m : Model) (rnd : Nat → Nat) (pos n k : Nat) :
    Prop :=
  0 < order_total m k ∧
    ¬ (k > 0 ∧ esc k (order_total m k) (rnd (pos + draws_above m n k)) = true)

/-- The Count/Total invariant as the `U32` total holds it: the total of every context
that has a `TotalEntry` is the sum of the counts of its entries modulo `2 ^ 32`. -/
def TotalInv (m : Model) : Prop :=
  ∀ ctx T, total_for m ctx = some T → T = ctxSum m.count_table ctx % U32_MOD

/-- Number of the orders below `n` whose context has a non-zero total: the escape draws
made by a scan in which every such order escapes. -/
def draws_all (m : Model) (n : Nat) : Nat :=
  ((List.range n).filter (fun j => decide (0 < order_total m j))).length

/-- Lookup results under which only the lookup of order 0 of the second
`update_model` call returns an entry, the first of the table. -/
def hitSecond : Nat → Pick :=
  fun call order => if call = 1 ∧ order = 0 then some 0 else none

/-- The (context, next character) pairs of the entries of a count table, in table
order. -/
def keys (tbl : List CountEntry) : List (List Nat × Nat) :=
  tbl.map (fun e => (e.context, e.next_char))

/-- The (context, next character) events recorded by a sequence of actions that starts
with the given history, in the order they are recorded. -/
def run_events : List Nat → List Step → List (List Nat × Nat)
  | _, [] => []
  | h, .update ch _ :: ss => (contexts h).map (fun ctx => (ctx, ch)) ++ run_events (slide h ch) ss
  | _, .reset :: ss => run_events (List.replicate MAX_ORDER 32) ss

/-- Sum of the totals of the entries of a total table whose context satisfies `p`. -/
def sumT (p : List Nat → Bool) (tbl : List TotalEntry) : Nat :=
  ((tbl.filter (fun t => p t.context)).map (fun t => t.total)).sum

/-- Sum of the totals of all contexts of length `k`. -/
def order_sum (m : Model) (k : Nat) : Nat :=
  sumT (fun x => decide (x.length = k)) m.total_table

/-! ## The sampler as a state transformer -/

/-- The program state `sample_character` runs in: the globals `count_table`,
`total_table` and `history`, and the state of `rand()` (the stream of the values it
returns and the number of calls made so far). -/
structure World where
  model : Model
  rnd : Nat → Nat
  pos : Nat

/-- `rand()`: returns the next value of the stream and advances it by one call. -/
def rand (w : World) : Nat × World :=
  (w.rnd w.pos, { w with pos := w.pos + 1 })

/-- The loop of `sample_character` with `n` orders left (the current order is
`n - 1`), followed by the fallback draw, as a transformer of the program state: every
read of `history`, `total_table` and `count_table` is made in the state current at
that point, and the state after the function is returned with the character.
`rand()` is called for the escape test only when `order > 0`. -/
def sample_orders_st (esc : Nat → Nat → Nat → Bool) : Nat → World → Nat × World
  | 0, w =>
    let r := rand w
    (fallback.getD (r.1 % fallback.length) 0, r.2)
  | order + 1, w =>
    let ctx := get_context_str w.model.history order
    match HASH_FIND_STR w.model.total_table ctx with
    | none => sample_orders_st esc order w
    | some total =>
      if total.total = 0 then sample_orders_st esc order w
      else
        let v := if order > 0 then rand w else (0, w)
        if order > 0 ∧ esc order total.total v.1 = true then sample_orders_st esc order v.2
        else
          let r := rand v.2
          match sample_walk r.2.model.count_table ctx (r.1 % total.total) 0 with
          | some ch => (ch, r.2)
          | none => sample_orders_st esc order r.2

/-- `sample_character()` as a transformer of the program state. -/
def sample_character_st (esc : Nat → Nat → Nat → Bool) (w : World) : Nat × World :=
  sample_orders_st esc (MAX_ORDER + 1) w

/-! ## Strings, contexts and the history -/

theorem list_len_four {α : Type} (l : List α) (h : l.length = 4) :
    ∃ a b c d, l = [a, b, c, d] := by
  match l, h with
  | [a, b, c, d], _ => exact ⟨a, b, c, d, rfl⟩

theorem cstr_append_nul (l : List Nat) : cstr (l ++ [0]) = cstr l := by
  induction l with
  | nil => simp [cstr]
  | cons a l ih =>
    unfold cstr at ih ⊢
    by_cases ha : a = 0
    · subst ha; simp
    · simp [List.takeWhile_cons, ha, ih]

theorem get_context_str_eq (h : List Nat) (hl : h.length = MAX_ORDER) (k : Nat)
    (hk : k ≤ MAX_ORDER) : get_context_str h k = cstr (h.drop (MAX_ORDER - k)) := by
  obtain ⟨a, b, c, d, rfl⟩ := list_len_four h hl
  unfold get_context_str
  rw [cstr_append_nul]
  have hk4 : k ≤ 4 := hk
  interval_cases k <;> rfl

theorem get_context_str_zero (h : List Nat) : get_context_str h 0 = [] := rfl

theorem contexts_four (a b c d : Nat) (ha : a ≠ 0) (hb : b ≠ 0) (hc : c ≠ 0) (hd : d ≠ 0) :
    contexts [a, b, c, d] = [[], [d], [c, d], [b, c, d], [a, b, c, d]] := by
  simp [contexts, get_context_str, cstr, List.range_succ, MAX_ORDER, List.takeWhile_cons,
    ha, hb, hc, hd]

theorem contexts_eq_drop (h : List Nat) (hl : h.length = MAX_ORDER) (hnz : ∀ b ∈ h, b ≠ 0) :
    contexts h = (List.range (MAX_ORDER + 1)).map (fun k => h.drop (MAX_ORDER - k)) := by
  obtain ⟨a, b, c, d, rfl⟩ := list_len_four h hl
  rw [contexts_four a b c d (hnz a (by simp)) (hnz b (by simp)) (hnz c (by simp))
    (hnz d (by simp))]
  rfl

theorem contexts_nodup (h : List Nat) (hl : h.length = MAX_ORDER) (hnz : ∀ b ∈ h, b ≠ 0) :
    (contexts h).Nodup := by
  obtain ⟨a, b, c, d, rfl⟩ := list_len_four h hl
  rw [contexts_four a b c d (hnz a (by simp)) (hnz b (by simp)) (hnz c (by simp))
    (hnz d (by simp))]
  simp

theorem nil_mem_contexts (h : List Nat) : [] ∈ contexts h := by
  unfold contexts
  exact List.mem_map.mpr ⟨0, by simp, rfl⟩

theorem mem_contexts_suffix (h : List Nat) (hl : h.length = MAX_ORDER) (hnz : ∀ b ∈ h, b ≠ 0)
    (ctx : List Nat) (hm : ctx ∈ contexts h) : ctx <:+ h := by
  rw [contexts_eq_drop h hl hnz] at hm
  obtain ⟨k, _, rfl⟩ := List.mem_map.mp hm
  exact List.drop_suffix _ _

theorem drop_mem_contexts (h : List Nat) (hl : h.length = MAX_ORDER) (hnz : ∀ b ∈ h, b ≠ 0)
    (k : Nat) (hk : k ≤ MAX_ORDER) : h.drop (MAX_ORDER - k) ∈ contexts h := by
  rw [contexts_eq_drop h hl hnz]
  exact List.mem_map.mpr ⟨k, List.mem_range.mpr (by omega), rfl⟩

theorem slide_eq (h : List Nat) (ch : Nat) (hl : h.length = MAX_ORDER) :
    slide h ch = h.drop 1 ++ [ch] := by
  obtain ⟨a, b, c, d, rfl⟩ := list_len_four h hl
  rfl

theorem slide_length (h : List Nat) (ch : Nat) (hl : h.length = MAX_ORDER) :
    (slide h ch).length = MAX_ORDER := by
  obtain ⟨a, b, c, d, rfl⟩ := list_len_four h hl
  rfl

theorem slide_nonzero (h : List Nat) (ch : Nat) (hl : h.length = MAX_ORDER)
    (hnz : ∀ b ∈ h, b ≠ 0) (hch : ch ≠ 0) : ∀ b ∈ slide h ch, b ≠ 0 := by
  rw [slide_eq h ch hl]
  intro b hb
  rcases List.mem_append.mp hb with h1 | h1
  · exact hnz b (List.mem_of_mem_drop h1)
  · rw [List.mem_singleton.mp h1]; exact hch

theorem init_history : (init_model empty_model).history = [32, 32, 32, 32] := rfl

theorem init_nonzero : ∀ b ∈ (init_model empty_model).history, b ≠ 0 := by
  intro b hb
  rw [init_history] at hb
  simp at hb
  omega

/-! ## The count table -/

theorem sumBy_nil (p : List Nat → Nat → Bool) : sumBy p [] = 0 := rfl

theorem sumBy_cons (p : List Nat → Nat → Bool) (e : CountEntry) (es : List CountEntry) :
    sumBy p (e :: es) = (if p e.context e.next_char then e.count else 0) + sumBy p es := by
  unfold sumBy
  by_cases h : p e.context e.next_char = true <;> simp [List.filter_cons, h]

theorem sumBy_append (p : List Nat → Nat → Bool) (a b : List CountEntry) :
    sumBy p (a ++ b) = sumBy p a + sumBy p b := by
  unfold sumBy
  simp [List.filter_append]

theorem sumBy_perm (p : List Nat → Nat → Bool) (a b : List CountEntry) (h : a.Perm b) :
    sumBy p a = sumBy p b := by
  unfold sumBy
  exact ((h.filter _).map _).sum_eq

theorem ctxSum_cons (e : CountEntry) (es : List CountEntry) (ctx : List Nat) :
    ctxSum (e :: es) ctx = (if e.context = ctx then e.count else 0) + ctxSum es ctx := by
  unfold ctxSum
  rw [sumBy_cons]
  simp

theorem accCount_cons (e : CountEntry) (es : List CountEntry) (ctx : List Nat) (c : Nat) :
    accCount (e :: es) ctx c =
      (if e.context = ctx ∧ e.next_char = c then e.count else 0) + accCount es ctx c := by
  unfold accCount
  rw [sumBy_cons]
  simp

theorem count_le_sumBy (p : List Nat → Nat → Bool) (tbl : List CountEntry) (e : CountEntry)
    (he : e ∈ tbl) (hp : p e.context e.next_char = true) : e.count ≤ sumBy p tbl := by
  induction tbl with
  | nil => simp at he
  | cons a as ih =>
    rw [sumBy_cons]
    rcases List.mem_cons.mp he with h | h
    · subst h; simp [hp]
    · have := ih h; omega

theorem sumBy_bump (p : List Nat → Nat → Bool) (tbl : List CountEntry) (i : Nat)
    (e : CountEntry) (hget : tbl.get? i = some e) (hc : e.count + 1 < U32_MOD) :
    sumBy p (bump_count tbl i) = sumBy p tbl + (if p e.context e.next_char then 1 else 0) := by
  induction tbl generalizing i with
  | nil => simp at hget
  | cons a as ih =>
    cases i with
    | zero =>
      simp at hget
      subst hget
      simp only [bump_count, sumBy_cons]
      rw [Nat.mod_eq_of_lt hc]
      split <;> omega
    | succ j =>
      simp at hget
      simp only [bump_count, sumBy_cons]
      rw [ih j (by simpa using hget)]
      omega

theorem mem_bump (tbl : List CountEntry) (i : Nat) (x : CountEntry)
    (hx : x ∈ bump_count tbl i) :
    x ∈ tbl ∨ ∃ e, tbl.get? i = some e ∧ x.context = e.context ∧ x.next_char = e.next_char := by
  induction tbl generalizing i with
  | nil => simp [bump_count] at hx
  | cons a as ih =>
    cases i with
    | zero =>
      simp only [bump_count, List.mem_cons] at hx
      rcases hx with h | h
      · right; exact ⟨a, by simp, by rw [h], by rw [h]⟩
      · left; exact List.mem_cons_of_mem _ h
    | succ j =>
      simp only [bump_count, List.mem_cons] at hx
      rcases hx with h | h
      · left; rw [h]; exact List.mem_cons_self _ _
      · rcases ih j h with h1 | ⟨e, h1, h2, h3⟩
        · left; exact List.mem_cons_of_mem _ h1
        · right; exact ⟨e, by simpa using h1, h2, h3⟩

theorem find_count_some (tbl : List CountEntry) (ctx : List Nat) (ch : Nat)
    (hit : Option Nat) (i : Nat) (h : HASH_FIND_count tbl ctx ch hit = some i) :
    ∃ e, tbl.get? i = some e ∧ e.context = ctx ∧ e.next_char = ch := by
  unfold HASH_FIND_count at h
  cases hit with
  | none => simp at h
  | some j =>
    simp only at h
    cases hj : tbl.get? j with
    | none => rw [hj] at h; simp at h
    | some e =>
      rw [hj] at h
      simp only at h
      split at h
      · rename_i hc
        have hji : j = i := by simpa using h
        subst hji
        exact ⟨e, hj, hc.1, hc.2⟩
      · simp at h

/-- Every entry of the table after the "Update count" block was there before or
carries the recorded context and character. -/
theorem mem_update_count (tbl : List CountEntry) (ctx : List Nat) (ch : Nat)
    (hit : Option Nat) (x : CountEntry) (hx : x ∈ update_count tbl ctx ch hit) :
    x ∈ tbl ∨ (x.context = ctx ∧ x.next_char = ch) := by
  unfold update_count at hx
  cases hf : HASH_FIND_count tbl ctx ch hit with
  | none =>
    rw [hf] at hx
    simp only [HASH_ADD, List.mem_append, List.mem_singleton] at hx
    rcases hx with h | h
    · left; exact h
    · right; rw [h]; exact ⟨rfl, rfl⟩
  | some i =>
    rw [hf] at hx
    obtain ⟨e, hget, hc, hn⟩ := find_count_some tbl ctx ch hit i hf
    rcases mem_bump tbl i x hx with h | ⟨e2, hget2, h2, h3⟩
    · left; exact h
    · right
      rw [hget] at hget2
      have : e = e2 := by simpa using hget2
      subst this
      exact ⟨h2.trans hc, h3.trans hn⟩

/-- One "Update count" block adds exactly one to the sums that select the recorded
pair, when no counter at its maximum carries that pair. -/
theorem sumBy_update_count (p : List Nat → Nat → Bool) (tbl : List CountEntry)
    (ctx : List Nat) (ch : Nat) (hit : Option Nat)
    (hb : HASH_FIND_count tbl ctx ch hit = none ∨
      ∀ e ∈ tbl, e.context = ctx → e.next_char = ch → e.count + 1 < U32_MOD) :
    sumBy p (update_count tbl ctx ch hit) = sumBy p tbl + (if p ctx ch then 1 else 0) := by
  unfold update_count
  cases hf : HASH_FIND_count tbl ctx ch hit with
  | none =>
    simp only [HASH_ADD]
    rw [sumBy_append, sumBy_cons, sumBy_nil]
    simp
  | some i =>
    simp only
    obtain ⟨e, hget, hc, hn⟩ := find_count_some tbl ctx ch hit i hf
    have hmem : e ∈ tbl := List.get?_mem hget
    rcases hb with hb | hb
    · rw [hf] at hb; simp at hb
    · rw [sumBy_bump p tbl i e hget (hb e hmem hc hn), hc, hn]

theorem seen_append (E F : List (List Nat × Nat)) (ctx : List Nat) :
    seen (E ++ F) ctx = seen E ctx + seen F ctx := by
  simp [seen, List.countP_append]

theorem hits_append (p : List Nat → Nat → Bool) (E F : List (List Nat × Nat)) :
    hits p (E ++ F) = hits p E + hits p F := by
  simp [hits, List.countP_append]

theorem hits_key_map (l : List (List Nat)) (ctx : List Nat) (c : Nat) :
    hits (fun x y => decide (x = ctx) && decide (y = c)) (l.map (fun x => (x, c))) =
      seen (l.map (fun x => (x, c))) ctx := by
  unfold hits seen
  apply List.countP_congr
  intro ev hev
  obtain ⟨x, _, rfl⟩ := List.mem_map.mp hev
  simp

theorem hits_key_zero (E : List (List Nat × Nat)) (ctx : List Nat) (c : Nat)
    (h : ∀ ev ∈ E, ev.2 ≠ c) :
    hits (fun x y => decide (x = ctx) && decide (y = c)) E = 0 := by
  unfold hits
  rw [List.countP_eq_zero]
  intro ev hev
  simp [h ev hev]

theorem sumBy_bump_mod (p : List Nat → Nat → Bool) (tbl : List CountEntry) (i : Nat)
    (e : CountEntry) (hget : tbl.get? i = some e) :
    sumBy p (bump_count tbl i) % U32_MOD =
      (sumBy p tbl + (if p e.context e.next_char then 1 else 0)) % U32_MOD := by
  induction tbl generalizing i with
  | nil => simp at hget
  | cons a as ih =>
    cases i with
    | zero =>
      simp at hget
      subst hget
      simp only [bump_count, sumBy_cons]
      unfold U32_MOD
      split <;> omega
    | succ j =>
      simp at hget
      simp only [bump_count, sumBy_cons]
      have := ih j (by simpa using hget)
      unfold U32_MOD at this ⊢
      omega

/-- One "Update count" block adds one, modulo `2 ^ 32`, to the sums that select the
recorded pair, whatever the lookup returns. -/
theorem sumBy_update_count_mod (p : List Nat → Nat → Bool) (tbl : List CountEntry)
    (ctx : List Nat) (ch : Nat) (hit : Option Nat) :
    sumBy p (update_count tbl ctx ch hit) % U32_MOD =
      (sumBy p tbl + (if p ctx ch then 1 else 0)) % U32_MOD := by
  unfold update_count
  cases hf : HASH_FIND_count tbl ctx ch hit with
  | none =>
    simp only [HASH_ADD]
    rw [sumBy_append, sumBy_cons, sumBy_nil]
    simp
  | some i =>
    simp only
    obtain ⟨e, hget, hc, hn⟩ := find_count_some tbl ctx ch hit i hf
    rw [sumBy_bump_mod p tbl i e hget, hc, hn]

theorem sumBy_fold_mod (p : List Nat → Nat → Bool) (ch : Nat) (pick : Pick)
    (cx : Nat → List Nat) (ks : List Nat) (tbl : List CountEntry) :
    sumBy p (ks.foldl (fun t k => update_count t (cx k) ch (pick k)) tbl) % U32_MOD =
      (sumBy p tbl + hits p (ks.map (fun k => (cx k, ch)))) % U32_MOD := by
  induction ks generalizing tbl with
  | nil => simp [hits]
  | cons k ks ih =>
    rw [List.foldl_cons, ih]
    have h1 := sumBy_update_count_mod p tbl (cx k) ch (pick k)
    simp only [hits, List.map_cons, List.countP_cons] at h1 ⊢
    unfold U32_MOD at h1 ⊢
    by_cases hp : p (cx k) ch = true
    · rw [if_pos hp] at h1 ⊢; omega
    · rw [if_neg hp] at h1 ⊢; omega

theorem sumBy_fold_nodup (p : List Nat → Nat → Bool) (ch : Nat) (pick : Pick)
    (cx : Nat → List Nat) (ks : List Nat) (tbl : List CountEntry)
    (hnd : (ks.map cx).Nodup)
    (hb : ∀ k ∈ ks, ∀ e ∈ tbl, e.context = cx k → e.next_char = ch →
      e.count + 1 < U32_MOD) :
    sumBy p (ks.foldl (fun t k => update_count t (cx k) ch (pick k)) tbl) =
      sumBy p tbl + hits p (ks.map (fun k => (cx k, ch))) := by
  induction ks generalizing tbl with
  | nil => simp [hits]
  | cons k ks ih =>
    rw [List.map_cons, List.nodup_cons] at hnd
    rw [List.foldl_cons, ih _ hnd.2, sumBy_update_count p tbl (cx k) ch (pick k)]
    · simp only [hits, List.map_cons, List.countP_cons]
      split <;> omega
    · right
      exact hb k (List.mem_cons_self _ _)
    · intro k2 hk2 e he hc hn
      rcases mem_update_count tbl (cx k) ch (pick k) e he with h | ⟨h, _⟩
      · exact hb k2 (List.mem_cons_of_mem _ hk2) e h hc hn
      · exfalso
        apply hnd.1
        rw [← h, hc]
        exact List.mem_map_of_mem cx hk2

theorem sumBy_fold_miss (p : List Nat → Nat → Bool) (ch : Nat) (pick : Pick)
    (cx : Nat → List Nat) (ks : List Nat) (tbl : List CountEntry)
    (hmiss : ∀ k, pick k = none) :
    sumBy p (ks.foldl (fun t k => update_count t (cx k) ch (pick k)) tbl) =
      sumBy p tbl + hits p (ks.map (fun k => (cx k, ch))) := by
  induction ks generalizing tbl with
  | nil => simp [hits]
  | cons k ks ih =>
    rw [List.foldl_cons, ih, sumBy_update_count p tbl (cx k) ch (pick k)]
    · simp only [hits, List.map_cons, List.countP_cons]
      split <;> omega
    · left
      rw [hmiss k]
      rfl

/-! ## The total table -/

theorem update_total_nil (ctx : List Nat) : update_total [] ctx = [⟨ctx, 1⟩] := rfl

theorem update_total_cons (t : TotalEntry) (ts : List TotalEntry) (ctx : List Nat) :
    update_total (t :: ts) ctx =
      if t.context = ctx then { t with total := (t.total + 1) % U32_MOD } :: ts
      else t :: update_total ts ctx := by
  unfold update_total HASH_FIND_STR
  by_cases h : t.context = ctx
  · simp [List.find?_cons, h, bump_total]
  · simp only [List.find?_cons, h, decide_False, if_false, bump_total]
    cases hf : List.find? (fun t => decide (t.context = ctx)) ts with
    | none => simp [HASH_ADD_STR]
    | some x => simp

theorem tot_update_total (tbl : List TotalEntry) (ctx ctx2 : List Nat) :
    tot (update_total tbl ctx) ctx2 =
      if ctx2 = ctx then
        some (match tot tbl ctx with
          | none => 1
          | some t => (t + 1) % U32_MOD)
      else tot tbl ctx2 := by
  induction tbl with
  | nil =>
    rw [update_total_nil]
    by_cases h : ctx2 = ctx
    · subst h; simp [tot, HASH_FIND_STR]
    · have h2 : ¬ ctx = ctx2 := fun e => h e.symm
      simp [tot, HASH_FIND_STR, h, h2]
  | cons t ts ih =>
    rw [update_total_cons]
    by_cases ht : t.context = ctx
    · rw [if_pos ht]
      by_cases h : ctx2 = ctx
      · subst h; simp [tot, HASH_FIND_STR, ht]
      · have h2 : ¬ t.context = ctx2 := fun e => h (e.symm.trans ht)
        simp [tot, HASH_FIND_STR, h, h2]
    · rw [if_neg ht]
      by_cases h2 : t.context = ctx2
      · have h : ¬ ctx2 = ctx := fun e => ht (h2.trans e)
        simp [tot, HASH_FIND_STR, h, h2]
      · have e1 : tot (t :: update_total ts ctx) ctx2 = tot (update_total ts ctx) ctx2 := by
          simp [tot, HASH_FIND_STR, h2]
        have e2 : tot (t :: ts) ctx2 = tot ts ctx2 := by
          simp [tot, HASH_FIND_STR, h2]
        have e3 : tot (t :: ts) ctx = tot ts ctx := by
          simp [tot, HASH_FIND_STR, ht]
        rw [e1, e2, e3, ih]

theorem tot_some_mem (tbl : List TotalEntry) (ctx : List Nat) (t : Nat)
    (h : tot tbl ctx = some t) : ∃ x ∈ tbl, x.context = ctx ∧ x.total = t := by
  unfold tot HASH_FIND_STR at h
  cases hf : tbl.find? (fun t => decide (t.context = ctx)) with
  | none => rw [hf] at h; simp at h
  | some x =>
    rw [hf] at h
    refine ⟨x, List.mem_of_find?_eq_some hf, ?_, by simpa using h⟩
    simpa using List.find?_some hf

theorem tot_fold_of_not_mem (cx : Nat → List Nat) (ks : List Nat) (tbl : List TotalEntry)
    (ctx : List Nat) (hn : ctx ∉ ks.map cx) :
    tot (ks.foldl (fun t k => update_total t (cx k)) tbl) ctx = tot tbl ctx := by
  induction ks generalizing tbl with
  | nil => rfl
  | cons k ks ih =>
    rw [List.map_cons, List.mem_cons, not_or] at hn
    rw [List.foldl_cons, ih _ hn.2, tot_update_total, if_neg hn.1]

theorem tot_fold_of_mem (cx : Nat → List Nat) (ks : List Nat) (tbl : List TotalEntry)
    (ctx : List Nat) (hnd : (ks.map cx).Nodup) (hm : ctx ∈ ks.map cx) :
    tot (ks.foldl (fun t k => update_total t (cx k)) tbl) ctx =
      some (match tot tbl ctx with
        | none => 1
        | some t => (t + 1) % U32_MOD) := by
  induction ks generalizing tbl with
  | nil => simp at hm
  | cons k ks ih =>
    rw [List.map_cons, List.nodup_cons] at hnd
    rw [List.map_cons, List.mem_cons] at hm
    rw [List.foldl_cons]
    by_cases hk : ctx = cx k
    · rw [tot_fold_of_not_mem cx ks _ ctx (hk ▸ hnd.1), tot_update_total, if_pos hk, hk]
    · rcases hm with h1 | h1
      · exact absurd h1 hk
      · rw [ih _ hnd.2 h1, tot_update_total, if_neg hk]

theorem total_for_none (m : Model) (ctx : List Nat) (h : total_for m ctx = none) :
    HASH_FIND_STR m.total_table ctx = none := by
  unfold total_for tot at h
  simpa using h

theorem total_for_some (m : Model) (ctx : List Nat) (T : Nat) (h : total_for m ctx = some T) :
    ∃ t, HASH_FIND_STR m.total_table ctx = some t ∧ t.total = T := by
  unfold total_for tot at h
  cases hf : HASH_FIND_STR m.total_table ctx with
  | none => rw [hf] at h; simp at h
  | some t => rw [hf] at h; exact ⟨t, rfl, by simpa using h⟩

theorem TAgree_step (tbl : List TotalEntry) (E : List (List Nat × Nat)) (ctx : List Nat)
    (ch : Nat) (h : TAgree tbl E) : TAgree (update_total tbl ctx) (E ++ [(ctx, ch)]) := by
  intro ctx2
  rw [tot_update_total, seen_append]
  by_cases hc : ctx2 = ctx
  · subst hc
    rw [if_pos rfl, h ctx2]
    have h1 : seen [(ctx2, ch)] ctx2 = 1 := by simp [seen]
    rw [h1, if_neg (Nat.succ_ne_zero _)]
    by_cases hz : seen E ctx2 = 0
    · simp [hz, U32_MOD]
    · simp only [hz, if_false]
      congr 1
      exact Nat.mod_add_mod _ _ _
  · rw [if_neg hc, h ctx2]
    have h1 : seen [(ctx, ch)] ctx2 = 0 := by
      have : ¬ ctx = ctx2 := fun e => hc e.symm
      simp [seen, this]
    rw [h1, Nat.add_zero]

theorem TAgree_fold (ch : Nat) (cx : Nat → List Nat) (ks : List Nat)
    (tbl : List TotalEntry) (E : List (List Nat × Nat)) (h : TAgree tbl E) :
    TAgree (ks.foldl (fun t k => update_total t (cx k)) tbl)
      (E ++ ks.map (fun k => (cx k, ch))) := by
  induction ks generalizing tbl E with
  | nil => simpa using h
  | cons k ks ih =>
    rw [List.foldl_cons, List.map_cons]
    have := ih _ _ (TAgree_step tbl E (cx k) ch h)
    simpa [List.append_assoc] using this

theorem CAgree_nil : CAgree [] [] := fun _ => rfl

theorem TAgree_nil : TAgree [] [] := fun _ => rfl

/-! ## One call of `update_model` -/

theorem foldl_congr_mem {α β : Type} (f g : α → β → α) (l : List β) (a : α)
    (h : ∀ x ∈ l, ∀ y, f y x = g y x) : l.foldl f a = l.foldl g a := by
  induction l generalizing a with
  | nil => rfl
  | cons x xs ih =>
    rw [List.foldl_cons, List.foldl_cons, h x (List.mem_cons_self _ _),
      ih _ (fun z hz => h z (List.mem_cons_of_mem _ hz))]

theorem history_fold (ch : Nat) (pick : Pick) (ks : List Nat) (m : Model) :
    (ks.foldl (record_order ch pick) m).history = m.history := by
  induction ks generalizing m with
  | nil => rfl
  | cons k ks ih => rw [List.foldl_cons, ih]; rfl

theorem count_fold (ch : Nat) (pick : Pick) (ks : List Nat) (m : Model) :
    (ks.foldl (record_order ch pick) m).count_table =
      ks.foldl (fun t k => update_count t (get_context_str m.history k) ch (pick k))
        m.count_table := by
  induction ks generalizing m with
  | nil => rfl
  | cons k ks ih => rw [List.foldl_cons, ih]; rfl

theorem total_fold (ch : Nat) (pick : Pick) (ks : List Nat) (m : Model) :
    (ks.foldl (record_order ch pick) m).total_table =
      ks.foldl (fun t k => update_total t (get_context_str m.history k)) m.total_table := by
  induction ks generalizing m with
  | nil => rfl
  | cons k ks ih => rw [List.foldl_cons, ih]; rfl

theorem update_model_count_table (m : Model) (ch : Nat) (pick : Pick) :
    (update_model m ch pick).count_table =
      (List.range (MAX_ORDER + 1)).foldl
        (fun t k => update_count t (get_context_str m.history k) ch (pick k)) m.count_table := by
  rw [← count_fold]
  rfl

theorem update_model_total_table (m : Model) (ch : Nat) (pick : Pick) :
    (update_model m ch pick).total_table =
      (List.range (MAX_ORDER + 1)).foldl
        (fun t k => update_total t (get_context_str m.history k)) m.total_table := by
  rw [← total_fold]
  rfl

theorem update_model_slide (m : Model) (ch : Nat) (pick : Pick) :
    (update_model m ch pick).history = slide m.history ch := by
  unfold update_model slide
  simp only [history_fold]

theorem update_model_history (m : Model) (ch : Nat) (pick : Pick)
    (hl : m.history.length = MAX_ORDER) :
    (update_model m ch pick).history = m.history.drop 1 ++ [ch] := by
  unfold update_model
  simp only [history_fold]
  obtain ⟨a, b, c, d, h⟩ := list_len_four m.history hl
  rw [h]
  rfl

theorem events_eq (h : List Nat) (ch : Nat) :
    (List.range (MAX_ORDER + 1)).map (fun k => (get_context_str h k, ch)) =
      (contexts h).map (fun ctx => (ctx, ch)) := by
  simp [contexts]

theorem seen_map_of_not_mem (l : List (List Nat)) (c : Nat) (ctx : List Nat)
    (hn : ctx ∉ l) : seen (l.map (fun x => (x, c))) ctx = 0 := by
  unfold seen
  rw [List.countP_eq_zero]
  intro ev hev
  obtain ⟨x, hx, rfl⟩ := List.mem_map.mp hev
  simp only [decide_eq_true_eq]
  intro e
  exact hn (e ▸ hx)

theorem seen_map_le_one (l : List (List Nat)) (c : Nat) (ctx : List Nat) (hnd : l.Nodup) :
    seen (l.map (fun x => (x, c))) ctx ≤ 1 := by
  induction l with
  | nil => simp [seen]
  | cons a as ih =>
    rw [List.nodup_cons] at hnd
    by_cases h : a = ctx
    · subst h
      have h0 := seen_map_of_not_mem as c a hnd.1
      unfold seen at h0 ⊢
      simp only [List.map_cons, List.countP_cons, h0]
      simp
    · have h1 := ih hnd.2
      unfold seen at h1 ⊢
      rw [List.map_cons, List.countP_cons, if_neg (by simpa using h)]
      exact h1

theorem seen_map_of_mem (l : List (List Nat)) (c : Nat) (ctx : List Nat) (hnd : l.Nodup)
    (hm : ctx ∈ l) : seen (l.map (fun x => (x, c))) ctx = 1 := by
  have h1 := seen_map_le_one l c ctx hnd
  have h2 : 0 < seen (l.map (fun x => (x, c))) ctx := by
    unfold seen
    rw [List.countP_pos_iff]
    exact ⟨(ctx, c), List.mem_map.mpr ⟨ctx, hm, rfl⟩, by simp⟩
  omega

/-- The effect of one `update_model` call on the sums of counts, for a history of
non-NUL characters. -/
theorem sumBy_update_model (p : List Nat → Nat → Bool) (m : Model) (ch : Nat) (pick : Pick)
    (hl : m.history.length = MAX_ORDER) (hnz : ∀ b ∈ m.history, b ≠ 0)
    (hb : ∀ e ∈ m.count_table, e.context ∈ contexts m.history → e.next_char = ch →
      e.count + 1 < U32_MOD) :
    sumBy p (update_model m ch pick).count_table =
      sumBy p m.count_table + hits p ((contexts m.history).map (fun ctx => (ctx, ch))) := by
  rw [update_model_count_table, sumBy_fold_nodup p ch pick (get_context_str m.history), events_eq]
  · exact contexts_nodup m.history hl hnz
  · intro k hk e he hc hn
    apply hb e he _ hn
    rw [hc]
    exact List.mem_map_of_mem _ hk

theorem sumBy_update_model_miss (p : List Nat → Nat → Bool) (m : Model) (ch : Nat)
    (pick : Pick) (hmiss : ∀ k, pick k = none) :
    sumBy p (update_model m ch pick).count_table =
      sumBy p m.count_table + hits p ((contexts m.history).map (fun ctx => (ctx, ch))) := by
  rw [update_model_count_table, sumBy_fold_miss p ch pick (get_context_str m.history) _ _ hmiss,
    events_eq]

theorem sumBy_update_model_mod (p : List Nat → Nat → Bool) (m : Model) (ch : Nat)
    (pick : Pick) :
    sumBy p (update_model m ch pick).count_table % U32_MOD =
      (sumBy p m.count_table + hits p ((contexts m.history).map (fun ctx => (ctx, ch))))
        % U32_MOD := by
  rw [update_model_count_table, sumBy_fold_mod p ch pick (get_context_str m.history),
    events_eq]

theorem TAgree_update_model (m : Model) (ch : Nat) (pick : Pick)
    (E : List (List Nat × Nat)) (h : TAgree m.total_table E) :
    TAgree (update_model m ch pick).total_table
      (E ++ (contexts m.history).map (fun ctx => (ctx, ch))) := by
  rw [update_model_total_table, ← events_eq]
  exact TAgree_fold ch (get_context_str m.history) _ _ E h

theorem NoOrphan_record (ch : Nat) (pick : Pick) (m : Model) (k : Nat) (h : NoOrphan m) :
    NoOrphan (record_order ch pick m k) := by
  intro e he
  simp only [record_order] at he ⊢
  rw [tot_update_total]
  by_cases hc : e.context = get_context_str m.history k
  · rw [if_pos hc]; rfl
  · rw [if_neg hc]
    rcases mem_update_count _ _ _ _ e he with h1 | ⟨h1, _⟩
    · exact h e h1
    · exact absurd h1 hc

theorem NoOrphan_fold (ch : Nat) (pick : Pick) (ks : List Nat) (m : Model) (h : NoOrphan m) :
    NoOrphan (ks.foldl (record_order ch pick) m) := by
  induction ks generalizing m with
  | nil => exact h
  | cons k ks ih => exact ih _ (NoOrphan_record ch pick m k h)

theorem NoOrphan_update_model (m : Model) (ch : Nat) (pick : Pick) (h : NoOrphan m) :
    NoOrphan (update_model m ch pick) :=
  NoOrphan_fold ch pick _ m h

/-! ## Sequences of `update_model` calls -/

theorem updates_history (cs : List Nat) (m : Model) (picks : Nat → Pick) :
    (updates m cs picks).history = cs.foldl slide m.history := by
  induction cs generalizing m picks with
  | nil => rfl
  | cons c cs ih => rw [updates, ih, update_model_slide]; rfl

/-- A run on non-NUL characters keeps the history at its length and free of NUL. -/
theorem updates_history_ok (cs : List Nat) (m : Model) (picks : Nat → Pick)
    (hl : m.history.length = MAX_ORDER) (hnz : ∀ b ∈ m.history, b ≠ 0)
    (hcs : ∀ c ∈ cs, c ≠ 0) :
    (updates m cs picks).history.length = MAX_ORDER ∧
      ∀ b ∈ (updates m cs picks).history, b ≠ 0 := by
  induction cs generalizing m picks with
  | nil => exact ⟨hl, hnz⟩
  | cons c cs ih =>
    rw [updates]
    apply ih
    · rw [update_model_slide]; exact slide_length _ _ hl
    · rw [update_model_slide]
      exact slide_nonzero _ _ hl hnz (hcs c (List.mem_cons_self _ _))
    · exact fun x hx => hcs x (List.mem_cons_of_mem _ hx)

theorem TAgree_updates (cs : List Nat) (m : Model) (picks : Nat → Pick)
    (E : List (List Nat × Nat)) (h : TAgree m.total_table E) :
    TAgree (updates m cs picks).total_table (E ++ evs m.history cs) := by
  induction cs generalizing m picks E with
  | nil => simpa [updates, evs] using h
  | cons c cs ih =>
    rw [updates, evs, ← List.append_assoc]
    have h1 := TAgree_update_model m c (picks 0) E h
    have h2 := ih (update_model m c (picks 0)) (fun i => picks (i + 1)) _ h1
    rw [update_model_slide] at h2
    exact h2

theorem CAgree_updates_miss (cs : List Nat) (m : Model) (E : List (List Nat × Nat))
    (h : CAgree m.count_table E) :
    CAgree (updates m cs missAll).count_table (E ++ evs m.history cs) := by
  induction cs generalizing m E with
  | nil => simpa [updates, evs] using h
  | cons c cs ih =>
    rw [updates, evs, ← List.append_assoc]
    have h1 : CAgree (update_model m c (missAll 0)).count_table
        (E ++ (contexts m.history).map (fun ctx => (ctx, c))) := by
      intro p
      rw [sumBy_update_model_miss p m c (missAll 0) (fun _ => rfl), h p, hits_append]
    have h2 := ih (update_model m c (missAll 0)) _ h1
    rw [update_model_slide] at h2
    exact h2

/-- Counts are exact as long as no context has been recorded `2 ^ 32 - 1` times:
with `n` a bound on the events of every context so far, `cs.length` further calls
on non-NUL characters keep the count table in agreement with the events. -/
theorem CAgree_updates (cs : List Nat) (m : Model) (picks : Nat → Pick)
    (E : List (List Nat × Nat)) (n : Nat)
    (hl : m.history.length = MAX_ORDER) (hnz : ∀ b ∈ m.history, b ≠ 0)
    (hcs : ∀ c ∈ cs, c ≠ 0) (hA : CAgree m.count_table E)
    (hB : ∀ ctx, seen E ctx ≤ n) (hn : n + cs.length < U32_MOD) :
    CAgree (updates m cs picks).count_table (E ++ evs m.history cs) ∧
      ∀ ctx, seen (E ++ evs m.history cs) ctx ≤ n + cs.length := by
  induction cs generalizing m picks E n with
  | nil => simpa [updates, evs] using ⟨hA, hB⟩
  | cons c cs ih =>
    rw [updates, evs, ← List.append_assoc]
    rw [List.length_cons] at hn
    have hnd := contexts_nodup m.history hl hnz
    have h1 : CAgree (update_model m c (picks 0)).count_table
        (E ++ (contexts m.history).map (fun ctx => (ctx, c))) := by
      intro p
      rw [sumBy_update_model p m c (picks 0) hl hnz, hA p, hits_append]
      intro e he _ _
      have h3 := count_le_sumBy (fun x _ => decide (x = e.context)) m.count_table e he
        (by simp)
      rw [hA] at h3
      have h4 : hits (fun x _ => decide (x = e.context)) E = seen E e.context := rfl
      have h5 := hB e.context
      omega
    have h2 : ∀ ctx, seen (E ++ (contexts m.history).map (fun ctx => (ctx, c))) ctx ≤ n + 1 := by
      intro ctx
      rw [seen_append]
      have := seen_map_le_one (contexts m.history) c ctx hnd
      have := hB ctx
      omega
    have h6 := ih (update_model m c (picks 0)) (fun i => picks (i + 1)) _ (n + 1)
      (by rw [update_model_slide]; exact slide_length _ _ hl)
      (by rw [update_model_slide]
          exact slide_nonzero _ _ hl hnz (hcs c (List.mem_cons_self _ _)))
      (fun x hx => hcs x (List.mem_cons_of_mem _ hx)) h1 h2 (by omega)
    rw [update_model_slide] at h6
    have e1 : n + 1 + cs.length = n + (cs.length + 1) := by omega
    rw [e1] at h6
    exact h6

/-- Totals after a run from the initial model: the number of events of the context,
modulo `2 ^ 32`. -/
theorem run_total (cs : List Nat) (picks : Nat → Pick) (ctx : List Nat) :
    total_for (updates (init_model empty_model) cs picks) ctx =
      if seen (evs [32, 32, 32, 32] cs) ctx = 0 then none
      else some (seen (evs [32, 32, 32, 32] cs) ctx % U32_MOD) := by
  have h := TAgree_updates cs (init_model empty_model) picks [] TAgree_nil ctx
  rw [List.nil_append, init_history] at h
  exact h

/-- Sums of counts after a run of fewer than `2 ^ 32` calls on non-NUL characters
from the initial model: the number of events selected. -/
theorem run_counts (cs : List Nat) (picks : Nat → Pick) (hcs : ∀ c ∈ cs, c ≠ 0)
    (hlen : cs.length < U32_MOD) (p : List Nat → Nat → Bool) :
    sumBy p (updates (init_model empty_model) cs picks).count_table =
      hits p (evs [32, 32, 32, 32] cs) := by
  have h := (CAgree_updates cs (init_model empty_model) picks [] 0 rfl init_nonzero hcs
    CAgree_nil (fun _ => Nat.le_refl _) (by omega)).1 p
  rw [List.nil_append, init_history] at h
  exact h

theorem run_counts_miss (cs : List Nat) (p : List Nat → Nat → Bool) :
    sumBy p (updates (init_model empty_model) cs missAll).count_table =
      hits p (evs [32, 32, 32, 32] cs) := by
  have h := CAgree_updates_miss cs (init_model empty_model) [] CAgree_nil p
  rw [List.nil_append, init_history] at h
  exact h

/-- Every call on a non-NUL history records the empty context exactly once. -/
theorem seen_nil_evs (cs : List Nat) (h : List Nat) (hl : h.length = MAX_ORDER)
    (hnz : ∀ b ∈ h, b ≠ 0) (hcs : ∀ c ∈ cs, c ≠ 0) : seen (evs h cs) [] = cs.length := by
  induction cs generalizing h with
  | nil => rfl
  | cons c cs ih =>
    rw [evs, seen_append, seen_map_of_mem _ c [] (contexts_nodup h hl hnz) (nil_mem_contexts h),
      ih (slide h c) (slide_length h c hl)
        (slide_nonzero h c hl hnz (hcs c (List.mem_cons_self _ _)))
        (fun x hx => hcs x (List.mem_cons_of_mem _ hx)), List.length_cons]
    omega

theorem evs_snd_mem (cs : List Nat) (h : List Nat) (ev : List Nat × Nat)
    (hev : ev ∈ evs h cs) : ev.2 ∈ cs := by
  induction cs generalizing h with
  | nil => simp [evs] at hev
  | cons c cs ih =>
    rw [evs, List.mem_append] at hev
    rcases hev with h1 | h1
    · obtain ⟨x, _, rfl⟩ := List.mem_map.mp h1
      exact List.mem_cons_self _ _
    · exact List.mem_cons_of_mem _ (ih _ h1)

/-- The characters of every recorded context come from the starting history or from
the characters fed. -/
theorem evs_ctx_mem (cs : List Nat) (h : List Nat) (hl : h.length = MAX_ORDER)
    (hnz : ∀ b ∈ h, b ≠ 0) (hcs : ∀ c ∈ cs, c ≠ 0) (ev : List Nat × Nat)
    (hev : ev ∈ evs h cs) (b : Nat) (hb : b ∈ ev.1) : b ∈ h ∨ b ∈ cs := by
  induction cs generalizing h with
  | nil => simp [evs] at hev
  | cons c cs ih =>
    rw [evs, List.mem_append] at hev
    rcases hev with h1 | h1
    · obtain ⟨x, hx, rfl⟩ := List.mem_map.mp h1
      left
      exact (mem_contexts_suffix h hl hnz x hx).subset hb
    · have := ih (slide h c) (slide_length h c hl)
        (slide_nonzero h c hl hnz (hcs c (List.mem_cons_self _ _)))
        (fun x hx => hcs x (List.mem_cons_of_mem _ hx)) h1
      rcases this with h2 | h2
      · rw [slide_eq h c hl, List.mem_append] at h2
        rcases h2 with h3 | h3
        · left; exact List.mem_of_mem_drop h3
        · right; rw [List.mem_singleton.mp h3]; exact List.mem_cons_self _ _
      · right; exact List.mem_cons_of_mem _ h2

theorem seen_zero_of_char (cs : List Nat) (h : List Nat) (hl : h.length = MAX_ORDER)
    (hnz : ∀ b ∈ h, b ≠ 0) (hcs : ∀ c ∈ cs, c ≠ 0) (ctx : List Nat) (b : Nat)
    (hb : b ∈ ctx) (h1 : b ∉ h) (h2 : b ∉ cs) : seen (evs h cs) ctx = 0 := by
  unfold seen
  rw [List.countP_eq_zero]
  intro ev hev
  simp only [decide_eq_true_eq]
  intro he
  rcases evs_ctx_mem cs h hl hnz hcs ev hev b (he ▸ hb) with h3 | h3
  · exact h1 h3
  · exact h2 h3

theorem run_update_steps (cs : List Nat) (m : Model) (picks : Nat → Pick) :
    run m (update_steps cs picks) = updates m cs picks := by
  induction cs generalizing m picks with
  | nil => rfl
  | cons c cs ih =>
    rw [update_steps, updates, ← ih]
    rfl

theorem NoOrphan_run (steps : List Step) (m : Model) (h : NoOrphan m) :
    NoOrphan (run m steps) := by
  induction steps generalizing m with
  | nil => exact h
  | cons a ss ih =>
    cases a with
    | update ch pick => exact ih _ (NoOrphan_update_model m ch pick h)
    | reset => exact ih (init_model m) h

theorem Acct_init : Acct (init_model empty_model) :=
  ⟨[], TAgree_nil, fun _ => rfl⟩

theorem Acct_update (m : Model) (ch : Nat) (pick : Pick) (h : Acct m) :
    Acct (update_model m ch pick) := by
  obtain ⟨E, hT, hC⟩ := h
  refine ⟨E ++ (contexts m.history).map (fun ctx => (ctx, ch)),
    TAgree_update_model m ch pick E hT, ?_⟩
  intro p
  rw [sumBy_update_model_mod, hits_append, Nat.add_mod, hC p, ← Nat.add_mod]

theorem Acct_run (steps : List Step) (m : Model) (h : Acct m) : Acct (run m steps) := by
  induction steps generalizing m with
  | nil => exact h
  | cons a ss ih =>
    cases a with
    | update ch pick => exact ih _ (Acct_update m ch pick h)
    | reset => exact ih (init_model m) h

/-- In a state accounted for, the total of a context is the sum of the counts of its
entries modulo `2 ^ 32`. -/
theorem Acct_total (m : Model) (h : Acct m) (ctx : List Nat) (t : Nat)
    (ht : total_for m ctx = some t) : t = ctxSum m.count_table ctx % U32_MOD := by
  obtain ⟨E, hT, hC⟩ := h
  have h1 : total_for m ctx = tot m.total_table ctx := rfl
  rw [h1, hT ctx] at ht
  have hc : ctxSum m.count_table ctx % U32_MOD = seen E ctx % U32_MOD :=
    hC (fun x _ => decide (x = ctx))
  rw [hc]
  split at ht
  · simp at ht
  · simpa using ht.symm

theorem Good_init : Good 0 (init_model empty_model) :=
  ⟨rfl, init_nonzero, [], TAgree_nil, CAgree_nil, fun _ => Nat.le_refl _, rfl⟩

theorem Good_history (n : Nat) (m : Model) (h : List Nat) (hl : h.length = MAX_ORDER)
    (hnz : ∀ b ∈ h, b ≠ 0) (hg : Good n m) : Good n { m with history := h } :=
  ⟨hl, hnz, hg.2.2⟩

theorem Good_reset (n : Nat) (m : Model) (hg : Good n m) : Good n (init_model m) :=
  Good_history n m _ rfl init_nonzero hg

/-- One `update_model` call on a non-NUL character keeps the state accounted for, as
long as no context reaches `2 ^ 32` events. -/
theorem Good_update (n : Nat) (m : Model) (ch : Nat) (pick : Pick) (hg : Good n m)
    (hch : ch ≠ 0) (hn : n + 1 < U32_MOD) : Good (n + 1) (update_model m ch pick) := by
  obtain ⟨hl, hnz, E, hT, hC, hB, hS⟩ := hg
  have hnd := contexts_nodup m.history hl hnz
  refine ⟨?_, ?_, E ++ (contexts m.history).map (fun ctx => (ctx, ch)),
    TAgree_update_model m ch pick E hT, ?_, ?_, ?_⟩
  · rw [update_model_slide]; exact slide_length _ _ hl
  · rw [update_model_slide]; exact slide_nonzero _ _ hl hnz hch
  · intro p
    rw [sumBy_update_model p m ch pick hl hnz, hC p, hits_append]
    intro e he _ _
    have h3 := count_le_sumBy (fun x _ => decide (x = e.context)) m.count_table e he
      (by simp)
    rw [hC] at h3
    have h4 : hits (fun x _ => decide (x = e.context)) E = seen E e.context := rfl
    have h5 := hB e.context
    omega
  · intro ctx
    rw [seen_append]
    have := seen_map_le_one (contexts m.history) ch ctx hnd
    have := hB ctx
    omega
  · rw [seen_append, hS, seen_map_of_mem _ ch [] hnd (nil_mem_contexts _)]

theorem Good_run (steps : List Step) (n : Nat) (m : Model) (hg : Good n m)
    (hcs : ∀ c ∈ fed steps, c ≠ 0) (hn : n + (fed steps).length < U32_MOD) :
    Good (n + (fed steps).length) (run m steps) := by
  induction steps generalizing n m with
  | nil => exact hg
  | cons a ss ih =>
    cases a with
    | update ch pick =>
      rw [fed, List.length_cons] at hn
      have h1 := Good_update n m ch pick hg (hcs ch (by rw [fed]; exact List.mem_cons_self _ _))
        (by omega)
      have h2 := ih (n + 1) (update_model m ch pick) h1
        (fun c hc => hcs c (by rw [fed]; exact List.mem_cons_of_mem _ hc)) (by omega)
      have e1 : n + (fed (Step.update ch pick :: ss)).length = n + 1 + (fed ss).length := by
        rw [fed, List.length_cons]; omega
      rw [e1]
      exact h2
    | reset => exact ih n (init_model m) (Good_reset n m hg) hcs hn

/-- In a state accounted for by fewer than `2 ^ 32` events per context, the total of
a context is the sum of the counts of its entries. -/
theorem Good_total (n : Nat) (m : Model) (hg : Good n m) (hn : n < U32_MOD)
    (ctx : List Nat) (t : Nat) (ht : total_for m ctx = some t) :
    t = ctxSum m.count_table ctx := by
  obtain ⟨_, _, E, hT, hC, hB, _⟩ := hg
  have h1 : total_for m ctx = tot m.total_table ctx := rfl
  rw [h1, hT ctx] at ht
  have hc : ctxSum m.count_table ctx = seen E ctx := hC (fun x _ => decide (x = ctx))
  have hle := hB ctx
  rw [hc]
  split at ht
  · simp at ht
  · have e1 : seen E ctx % U32_MOD = t := by simpa using ht
    rw [← e1, Nat.mod_eq_of_lt (by omega)]

theorem Good_total_nil (n : Nat) (m : Model) (hg : Good n m) (hn : n < U32_MOD)
    (hpos : 0 < n) : total_for m [] = some n := by
  obtain ⟨_, _, E, hT, _, _, hS⟩ := hg
  have h1 : total_for m [] = tot m.total_table [] := rfl
  rw [h1, hT [], hS, if_neg (by omega), Nat.mod_eq_of_lt hn]

/-! ## The cumulative walk and the loop over the orders -/

/-- Every character returned by the walk is the `next_char` of an entry of the
context walked. -/
theorem walk_mem (tbl : List CountEntry) (ctx : List Nat) (r cum c : Nat)
    (h : sample_walk tbl ctx r cum = some c) :
    ∃ e ∈ tbl, e.context = ctx ∧ e.next_char = c := by
  induction tbl generalizing cum with
  | nil => simp [sample_walk] at h
  | cons e es ih =>
    unfold sample_walk at h
    by_cases hc : e.context = ctx
    · rw [if_pos hc] at h
      by_cases hr : r < (cum + e.count) % U32_MOD
      · rw [if_pos hr] at h
        exact ⟨e, List.mem_cons_self _ _, hc, by simpa using h⟩
      · rw [if_neg hr] at h
        obtain ⟨x, hx, h1, h2⟩ := ih _ h
        exact ⟨x, List.mem_cons_of_mem _ hx, h1, h2⟩
    · rw [if_neg hc] at h
      obtain ⟨x, hx, h1, h2⟩ := ih _ h
      exact ⟨x, List.mem_cons_of_mem _ hx, h1, h2⟩

/-- Among the draws `cum + i`, `i` below the sum of the counts of the context, the
walk started at `cum` returns `c` for as many as the accumulated count of `c`. -/
theorem walk_count (tbl : List CountEntry) (ctx : List Nat) (c cum : Nat)
    (hb : cum + ctxSum tbl ctx < U32_MOD) :
    (List.range (ctxSum tbl ctx)).countP
        (fun i => decide (sample_walk tbl ctx (cum + i) cum = some c)) =
      accCount tbl ctx c := by
  induction tbl generalizing cum with
  | nil => rfl
  | cons e es ih =>
    by_cases hc : e.context = ctx
    · rw [ctxSum_cons, if_pos hc] at hb ⊢
      rw [accCount_cons]
      have hmod : (cum + e.count) % U32_MOD = cum + e.count := Nat.mod_eq_of_lt (by omega)
      rw [List.range_add, List.countP_append, List.countP_map]
      have h1 : (List.range e.count).countP
          (fun i => decide (sample_walk (e :: es) ctx (cum + i) cum = some c)) =
          if e.context = ctx ∧ e.next_char = c then e.count else 0 := by
        have hcg : (List.range e.count).countP
            (fun i => decide (sample_walk (e :: es) ctx (cum + i) cum = some c)) =
            (List.range e.count).countP (fun _ => decide (e.next_char = c)) := by
          apply List.countP_congr
          intro i hi
          have hi2 : i < e.count := List.mem_range.mp hi
          simp only [sample_walk, if_pos hc, hmod]
          rw [if_pos (by omega)]
          simp
        rw [hcg]
        by_cases hn : e.next_char = c
        · simp [hn, hc]
        · simp [hn]
      have h2 : (List.range (ctxSum es ctx)).countP
          ((fun i => decide (sample_walk (e :: es) ctx (cum + i) cum = some c)) ∘
            (fun j => e.count + j)) = accCount es ctx c := by
        rw [← ih (cum + e.count) (by omega)]
        apply List.countP_congr
        intro j _
        simp only [Function.comp, sample_walk, if_pos hc, hmod]
        rw [if_neg (by omega), Nat.add_assoc]
      rw [h1, h2]
    · rw [ctxSum_cons, if_neg hc, Nat.zero_add] at hb ⊢
      rw [accCount_cons, if_neg (fun h => hc h.1), Nat.zero_add]
      rw [← ih cum hb]
      apply List.countP_congr
      intro i _
      simp only [sample_walk, if_neg hc]

/-- The walk returns for every draw below the sum of the counts of the context. -/
theorem walk_some (tbl : List CountEntry) (ctx : List Nat) (cum i : Nat)
    (hb : cum + ctxSum tbl ctx < U32_MOD) (hi : i < ctxSum tbl ctx) :
    ∃ c, sample_walk tbl ctx (cum + i) cum = some c := by
  induction tbl generalizing cum i with
  | nil => simp [ctxSum, sumBy] at hi
  | cons e es ih =>
    by_cases hc : e.context = ctx
    · rw [ctxSum_cons, if_pos hc] at hb hi
      have hmod : (cum + e.count) % U32_MOD = cum + e.count := Nat.mod_eq_of_lt (by omega)
      simp only [sample_walk, if_pos hc, hmod]
      by_cases hr : cum + i < cum + e.count
      · rw [if_pos hr]; exact ⟨_, rfl⟩
      · rw [if_neg hr]
        have := ih (cum + e.count) (i - e.count) (by omega) (by omega)
        have e1 : cum + e.count + (i - e.count) = cum + i := by omega
        rw [e1] at this
        exact this
    · rw [ctxSum_cons, if_neg hc, Nat.zero_add] at hb hi
      simp only [sample_walk, if_neg hc]
      exact ih cum i hb hi

/-- In a context whose entries sum to 1 and whose accumulated count for
`c` is 1, the walk returns `c` for the draw 0. -/
theorem walk_single (tbl : List CountEntry) (ctx : List Nat) (c : Nat)
    (hs : ctxSum tbl ctx = 1) (ha : accCount tbl ctx c = 1) :
    sample_walk tbl ctx 0 0 = some c := by
  have h := walk_count tbl ctx c 0 (by rw [hs]; decide)
  rw [hs, ha] at h
  by_contra hne
  have : (List.range 1).countP (fun i => decide (sample_walk tbl ctx (0 + i) 0 = some c)) = 0 := by
    rw [List.countP_eq_zero]
    intro i hi
    have hi0 : i = 0 := by have := List.mem_range.mp hi; omega
    subst hi0
    simpa using hne
  omega

/-- When the context of an order has a non-zero total and the order is not escaped,
`sample_character` returns what the cumulative walk returns, if it returns. -/
theorem sample_orders_commit (esc : Nat → Nat → Nat → Bool) (m : Model) (rnd : Nat → Nat)
    (order pos T c : Nat) (hT : total_for m (get_context_str m.history order) = some T)
    (hpos : 0 < T) (hesc : ¬ (order > 0 ∧ esc order T (rnd pos) = true))
    (hw : sample_walk m.count_table (get_context_str m.history order)
      (rnd (if order > 0 then pos + 1 else pos) % T) 0 = some c) :
    sample_orders esc m rnd (order + 1) pos =
      (.walk order c, (if order > 0 then pos + 1 else pos) + 1) := by
  unfold total_for tot at hT
  cases hf : HASH_FIND_STR m.total_table (get_context_str m.history order) with
  | none => rw [hf] at hT; simp at hT
  | some t =>
    rw [hf] at hT
    have ht : t.total = T := by simpa using hT
    rw [sample_orders]
    simp only [hf, ht]
    rw [if_neg (by omega), if_neg hesc, hw]

theorem sample_orders_empty (esc : Nat → Nat → Nat → Bool) (h : List Nat) (rnd : Nat → Nat)
    (n pos : Nat) :
    sample_orders esc ⟨[], [], h⟩ rnd n pos =
      (.alphabet (fallback.getD (rnd pos % fallback.length) 0), pos + 1) := by
  induction n with
  | zero => rfl
  | succ n ih =>
    rw [sample_orders]
    simp only [HASH_FIND_STR, List.find?_nil]
    exact ih

/-- An order whose context has no total, or the total 0, is passed over without
reading a random value. -/
theorem sample_orders_skip (esc : Nat → Nat → Nat → Bool) (m : Model) (rnd : Nat → Nat)
    (order pos : Nat)
    (h : total_for m (get_context_str m.history order) = none ∨
      total_for m (get_context_str m.history order) = some 0) :
    sample_orders esc m rnd (order + 1) pos = sample_orders esc m rnd order pos := by
  rw [sample_orders]
  rcases h with h | h
  · simp only [total_for_none m _ h]
  · obtain ⟨t, ht, h0⟩ := total_for_some m _ 0 h
    simp only [ht, h0, if_true]

/-- When the order-0 context has a non-zero total equal to the sum of the counts of
its entries, the loop of `sample_character` returns from a walk. -/
theorem sample_orders_walk (esc : Nat → Nat → Nat → Bool) (m : Model) (rnd : Nat → Nat)
    (T0 : Nat) (hT : total_for m [] = some T0) (hpos : 0 < T0)
    (hsum : T0 = ctxSum m.count_table []) (hu : T0 < U32_MOD) (n pos : Nat) (hn : 0 < n) :
    ∃ k c, k < n ∧ (sample_orders esc m rnd n pos).1 = .walk k c ∧
      ∃ e ∈ m.count_table, e.next_char = c ∧ e.context = get_context_str m.history k := by
  induction n generalizing pos with
  | zero => omega
  | succ order ih =>
    have hrec : ∀ q, 0 < order →
        ∃ k c, k < order + 1 ∧ (sample_orders esc m rnd order q).1 = .walk k c ∧
          ∃ e ∈ m.count_table, e.next_char = c ∧
            e.context = get_context_str m.history k := by
      intro q ho
      obtain ⟨k, c, hk, h1, h2⟩ := ih q ho
      exact ⟨k, c, by omega, h1, h2⟩
    rw [sample_orders]
    cases hf : HASH_FIND_STR m.total_table (get_context_str m.history order) with
    | none =>
      simp only
      apply hrec
      rcases Nat.eq_zero_or_pos order with h0 | h0
      · subst h0
        rw [get_context_str_zero] at hf
        unfold total_for tot at hT
        rw [hf] at hT
        simp at hT
      · exact h0
    | some t =>
      simp only
      by_cases hz : t.total = 0
      · rw [if_pos hz]
        apply hrec
        rcases Nat.eq_zero_or_pos order with h0 | h0
        · subst h0
          rw [get_context_str_zero] at hf
          unfold total_for tot at hT
          rw [hf] at hT
          simp at hT
          omega
        · exact h0
      · rw [if_neg hz]
        by_cases he : order > 0 ∧ esc order t.total (rnd pos) = true
        · rw [if_pos he]
          exact hrec _ he.1
        · rw [if_neg he]
          cases hw : sample_walk m.count_table (get_context_str m.history order)
              (rnd (if order > 0 then pos + 1 else pos) % t.total) 0 with
          | some c =>
            simp only
            obtain ⟨e, hmem, hc, hn⟩ := walk_mem _ _ _ _ _ hw
            exact ⟨order, c, by omega, rfl, e, hmem, hn, hc⟩
          | none =>
            simp only
            rcases Nat.eq_zero_or_pos order with h0 | h0
            · exfalso
              subst h0
              rw [get_context_str_zero] at hf hw
              unfold total_for tot at hT
              rw [hf] at hT
              have ht : t.total = T0 := by simpa using hT
              have hlt : rnd pos % t.total < ctxSum m.count_table [] := by
                rw [← hsum, ht]; exact Nat.mod_lt _ hpos
              obtain ⟨c, hc⟩ := walk_some m.count_table [] 0 _ (by omega) hlt
              rw [Nat.zero_add] at hc
              simp at hw
              rw [hw] at hc
              simp at hc
            · exact hrec _ h0

/-- With the total of "" at 0 and no total for any context holding a 'b', sampling on
the history "bbbb" falls through every order to the fallback draw. -/
theorem sample_trace_bbbb (esc : Nat → Nat → Nat → Bool) (m : Model) (rnd : Nat → Nat)
    (pos : Nat) (h0 : total_for m [] = some 0)
    (hb : ∀ ctx, 98 ∈ ctx → total_for m ctx = none) :
    sample_trace esc { m with history := codes "bbbb" } rnd pos =
      (.alphabet (fallback.getD (rnd pos % fallback.length) 0), pos + 1) := by
  unfold sample_trace
  have e4 : get_context_str (codes "bbbb") 4 = [98, 98, 98, 98] := by decide
  have e3 : get_context_str (codes "bbbb") 3 = [98, 98, 98] := by decide
  have e2 : get_context_str (codes "bbbb") 2 = [98, 98] := by decide
  have e1 : get_context_str (codes "bbbb") 1 = [98] := by decide
  have hs : ∀ k, (k = 4 ∨ k = 3 ∨ k = 2 ∨ k = 1) →
      total_for { m with history := codes "bbbb" }
        (get_context_str ({ m with history := codes "bbbb" } : Model).history k) = none := by
    intro k hk
    show total_for m (get_context_str (codes "bbbb") k) = none
    rcases hk with rfl | rfl | rfl | rfl
    · rw [e4]; exact hb _ (by simp)
    · rw [e3]; exact hb _ (by simp)
    · rw [e2]; exact hb _ (by simp)
    · rw [e1]; exact hb _ (by simp)
  show sample_orders esc _ rnd (4 + 1) pos = _
  rw [sample_orders_skip _ _ _ 4 _ (Or.inl (hs 4 (by simp))),
    sample_orders_skip _ _ _ 3 _ (Or.inl (hs 3 (by simp))),
    sample_orders_skip _ _ _ 2 _ (Or.inl (hs 2 (by simp))),
    sample_orders_skip _ _ _ 1 _ (Or.inl (hs 1 (by simp)))]
  have h0b : total_for { m with history := codes "bbbb" }
      (get_context_str ({ m with history := codes "bbbb" } : Model).history 0) = some 0 := h0
  exact (sample_orders_skip esc _ rnd 0 pos (Or.inr h0b)).trans (by rw [sample_orders])

/-! ## Normalization and the byte loops -/

theorem normalize_char_spec (ch : Int) :
    normalize_char ch =
      (if 32 ≤ ch ∧ ch ≤ 126 then ch else if ch = 10 ∨ ch = 9 then 32 else -1) := by
  simp only [normalize_char, ASCII_START, ASCII_END]
  split_ifs <;> omega

theorem normalize_char_range (ch : Int) :
    normalize_char ch = -1 ∨ (32 ≤ normalize_char ch ∧ normalize_char ch ≤ 126) := by
  rw [normalize_char_spec]
  split_ifs <;> omega

theorem normalize_accepted (b : Int) (h : 0 ≤ normalize_char b) :
    normalize_char (normalize_char b) = normalize_char b := by
  rcases normalize_char_range b with h1 | h1
  · omega
  · rw [normalize_char_spec (normalize_char b), if_pos h1]

theorem accepted_cons (b : Int) (bs : List Int) :
    accepted (b :: bs) =
      if 0 ≤ normalize_char b then normalize_char b :: accepted bs else accepted bs := by
  unfold accepted
  by_cases h : 0 ≤ normalize_char b
  · simp [List.filter_cons, h]
  · simp [List.filter_cons, h]

theorem accepted_range (s : List Int) : ∀ c ∈ accepted s, 32 ≤ c ∧ c ≤ 126 := by
  intro c hc
  unfold accepted at hc
  obtain ⟨b, hb, rfl⟩ := List.mem_map.mp hc
  have h0 : 0 ≤ normalize_char b := by simpa using (List.mem_filter.mp hb).2
  rcases normalize_char_range b with h1 | h1
  · omega
  · exact h1

theorem accepted_idem (s : List Int) : accepted (accepted s) = accepted s := by
  induction s with
  | nil => rfl
  | cons b bs ih =>
    rw [accepted_cons]
    by_cases h : 0 ≤ normalize_char b
    · rw [if_pos h, accepted_cons, normalize_accepted b h, if_pos h, ih]
    · rw [if_neg h, ih]

theorem prompt_str_cons (b : Int) (bs : List Int) :
    prompt_str (b :: bs) = if b = 0 then [] else b :: prompt_str bs := by
  unfold prompt_str
  by_cases h : b = 0
  · simp [h]
  · simp [List.takeWhile_cons, h]

theorem prompt_str_accepted (s : List Int) : prompt_str (accepted s) = accepted s := by
  unfold prompt_str
  rw [List.takeWhile_eq_self_iff]
  intro c hc
  have := accepted_range s c hc
  simp only [bne_iff_ne, ne_eq]
  omega

theorem train_model_eq_updates (s : List Int) (m : Model) (picks : Nat → Pick) :
    train_model m s picks = updates m (accepted_chars s) picks := by
  induction s generalizing m picks with
  | nil => rfl
  | cons b bs ih =>
    unfold accepted_chars at ih ⊢
    rw [train_model, accepted_cons]
    by_cases h : normalize_char b < 0
    · simp only [h, if_true]
      rw [if_neg (by omega)]
      exact ih m picks
    · simp only [h, if_false]
      rw [if_pos (by omega), List.map_cons, updates]
      exact ih _ _

theorem feed_prompt_eq_updates (s : List Int) (m : Model) (picks : Nat → Pick) :
    feed_prompt m s picks = updates m (accepted_chars (prompt_str s)) picks := by
  induction s generalizing m picks with
  | nil => rfl
  | cons b bs ih =>
    rw [feed_prompt, prompt_str_cons]
    by_cases hb : b = 0
    · rw [if_pos hb, if_pos hb]; rfl
    · rw [if_neg hb, if_neg hb]
      unfold accepted_chars at ih ⊢
      rw [accepted_cons]
      by_cases h : normalize_char b ≥ 0
      · simp only [h, if_true]
        rw [List.map_cons, updates]
        exact ih _ _
      · simp only [h, if_false]
        exact ih m picks

theorem trained_eq (s : String) (cs : List Nat) (picks : Nat → Pick)
    (h : accepted_chars (char_bytes s) = cs) :
    trained s picks = updates (init_model empty_model) cs picks := by
  unfold trained
  rw [train_model_eq_updates, h]

/-! ## The sampling loop -/

/-- What a run of the sampling loop from `g` to `r` with `fuel` iterations left
keeps: the bounds on `generated` and on the loop bodies, the reason of the stop, and
the characters printed being those handed to `update_model`, in turn. -/
theorem gen_loop_spec (esc : Nat → Nat → Nat → Bool) (rnd : Nat → Nat) (picks : Nat → Pick)
    (fuel : Nat) (g : Gen) (hs : g.sentence_len = g.generated) (hg : g.generated ≤ 200) :
    (gen_loop esc rnd picks fuel g).1.generated ≤ 201 ∧
    (gen_loop esc rnd picks fuel g).2 ≠ Stop.generated ∧
    (gen_loop esc rnd picks fuel g).1.iters ≤ g.iters + fuel ∧
    g.skipped ≤ (gen_loop esc rnd picks fuel g).1.skipped ∧
    ∃ cs, (gen_loop esc rnd picks fuel g).1.sampled = g.sampled ++ cs ∧
      (gen_loop esc rnd picks fuel g).1.generated = g.generated + cs.length ∧
      (gen_loop esc rnd picks fuel g).1.iters + g.skipped =
        g.iters + cs.length + (gen_loop esc rnd picks fuel g).1.skipped ∧
      (gen_loop esc rnd picks fuel g).1.model =
        updates g.model cs (fun j => picks (g.generated + j)) := by
  induction fuel generalizing g with
  | zero =>
    simp only [gen_loop]
    exact ⟨by omega, by decide, by omega, le_refl _, [], by simp, by simp, by simp, rfl⟩
  | succ fuel ih =>
    rw [gen_loop]
    rw [if_neg (by omega)]
    simp only
    by_cases hr : (sample_trace esc g.model rnd g.pos).1.char < ASCII_START ∨
        (sample_trace esc g.model rnd g.pos).1.char > ASCII_END
    · rw [if_pos hr]
      obtain ⟨h1, h2, h3, h4, cs, h5, h6, h7, h8⟩ := ih
        { g with pos := (sample_trace esc g.model rnd g.pos).2, iters := g.iters + 1,
                 skipped := g.skipped + 1 } hs hg
      simp only at h1 h2 h3 h4 h5 h6 h7 h8
      exact ⟨h1, h2, by omega, by omega, cs, h5, h6, by omega, h8⟩
    · rw [if_neg hr]
      have hup : ∀ (m : Model) (c : Nat) (cs : List Nat),
          updates (update_model m c (picks g.generated)) cs
              (fun j => picks (g.generated + 1 + j)) =
            updates m (c :: cs) (fun j => picks (g.generated + j)) := by
        intro m c cs
        rw [updates]
        have e : (fun i => (fun j => picks (g.generated + j)) (i + 1)) =
            (fun j => picks (g.generated + 1 + j)) := by
          funext i
          show picks (g.generated + (i + 1)) = picks (g.generated + 1 + i)
          rw [Nat.add_assoc, Nat.add_comm 1 i]
        rw [e]
        rfl
      by_cases hp : (((sample_trace esc g.model rnd g.pos).1.char = 46 ∨
          (sample_trace esc g.model rnd g.pos).1.char = 63 ∨
          (sample_trace esc g.model rnd g.pos).1.char = 33) ∧ g.sentence_len > 20) ∧
          rnd (sample_trace esc g.model rnd g.pos).2 % 3 = 0
      · rw [if_pos hp]
        refine ⟨by simp only; omega, by simp, by simp only; omega, le_refl _,
          [(sample_trace esc g.model rnd g.pos).1.char], rfl, rfl,
          by simp only [List.length_singleton], ?_⟩
        simp only
        rw [← hup, updates]
      · rw [if_neg hp]
        by_cases hcap : g.sentence_len + 1 > 200
        · rw [if_pos hcap]
          refine ⟨by simp only; omega, by simp, by simp only; omega, le_refl _,
            [(sample_trace esc g.model rnd g.pos).1.char], rfl, rfl,
            by simp only [List.length_singleton], ?_⟩
          simp only
          rw [← hup, updates]
        · rw [if_neg hcap]
          obtain ⟨h1, h2, h3, h4, cs, h5, h6, h7, h8⟩ := ih
            { g with
              model := update_model g.model (sample_trace esc g.model rnd g.pos).1.char
                (picks g.generated)
              pos := if ((sample_trace esc g.model rnd g.pos).1.char = 46 ∨
                  (sample_trace esc g.model rnd g.pos).1.char = 63 ∨
                  (sample_trace esc g.model rnd g.pos).1.char = 33) ∧ g.sentence_len > 20
                then (sample_trace esc g.model rnd g.pos).2 + 1
                else (sample_trace esc g.model rnd g.pos).2
              generated := g.generated + 1
              sentence_len := g.sentence_len + 1
              iters := g.iters + 1
              sampled := g.sampled ++ [(sample_trace esc g.model rnd g.pos).1.char] }
            (by simp only; omega) (by simp only; omega)
          simp only at h1 h2 h3 h4 h5 h6 h7 h8
          refine ⟨h1, h2, by omega, h4,
            (sample_trace esc g.model rnd g.pos).1.char :: cs, ?_, ?_, ?_, ?_⟩
          · rw [h5, List.append_assoc]; rfl
          · rw [h6, List.length_cons]; omega
          · rw [List.length_cons]; omega
          · rw [h8, hup]

/-! ## Characters in range -/

theorem fallback_in_range : ∀ c ∈ fallback, ASCII_START ≤ c ∧ c ≤ ASCII_END := by
  decide

/-- The result of the loop over the orders is the `next_char` of an entry of the count
table or a character of the fallback string. -/
theorem sample_orders_source (esc : Nat → Nat → Nat → Bool) (m : Model) (rnd : Nat → Nat)
    (n pos : Nat) :
    (∃ e ∈ m.count_table, (sample_orders esc m rnd n pos).1.char = e.next_char) ∨
      (sample_orders esc m rnd n pos).1.char ∈ fallback := by
  induction n generalizing pos with
  | zero =>
    right
    rw [sample_orders]
    simp only [Sampled.char]
    have hlt : rnd pos % fallback.length < fallback.length :=
      Nat.mod_lt _ (by decide)
    rw [List.getD_eq_getElem _ _ hlt]
    exact List.getElem_mem _
  | succ order ih =>
    rw [sample_orders]
    cases hf : HASH_FIND_STR m.total_table (get_context_str m.history order) with
    | none => simp only; exact ih pos
    | some t =>
      simp only
      by_cases hz : t.total = 0
      · rw [if_pos hz]; exact ih pos
      · rw [if_neg hz]
        by_cases he : order > 0 ∧ esc order t.total (rnd pos) = true
        · rw [if_pos he]; exact ih _
        · rw [if_neg he]
          cases hw : sample_walk m.count_table (get_context_str m.history order)
              (rnd (if order > 0 then pos + 1 else pos) % t.total) 0 with
          | some c =>
            simp only
            obtain ⟨e, hmem, _, hn⟩ := walk_mem _ _ _ _ _ hw
            left
            exact ⟨e, hmem, hn.symm⟩
          | none => simp only; exact ih _

theorem sample_in_range (esc : Nat → Nat → Nat → Bool) (m : Model) (rnd : Nat → Nat)
    (pos : Nat) (h : InRange m) :
    ASCII_START ≤ sample_character esc m rnd pos ∧
      sample_character esc m rnd pos ≤ ASCII_END := by
  unfold sample_character sample_trace
  rcases sample_orders_source esc m rnd (MAX_ORDER + 1) pos with ⟨e, he, h1⟩ | h1
  · rw [h1]; exact h.2.2 e he
  · exact fallback_in_range _ h1

theorem mem_fold_count (ch : Nat) (pick : Pick) (cx : Nat → List Nat) (ks : List Nat)
    (tbl : List CountEntry) (e : CountEntry)
    (he : e ∈ ks.foldl (fun t k => update_count t (cx k) ch (pick k)) tbl) :
    e ∈ tbl ∨ (e.context ∈ ks.map cx ∧ e.next_char = ch) := by
  induction ks generalizing tbl with
  | nil => left; exact he
  | cons k ks ih =>
    rw [List.foldl_cons] at he
    rcases ih _ he with h1 | ⟨h1, h2⟩
    · rcases mem_update_count _ _ _ _ e h1 with h3 | ⟨h3, h4⟩
      · left; exact h3
      · right; exact ⟨by rw [List.map_cons, h3]; exact List.mem_cons_self _ _, h4⟩
    · right; exact ⟨by rw [List.map_cons]; exact List.mem_cons_of_mem _ h1, h2⟩

theorem InRange_update (m : Model) (ch : Nat) (pick : Pick) (h : InRange m)
    (hch : ASCII_START ≤ ch ∧ ch ≤ ASCII_END) : InRange (update_model m ch pick) := by
  obtain ⟨hl, hh, hc⟩ := h
  refine ⟨?_, ?_, ?_⟩
  · rw [update_model_slide]; exact slide_length _ _ hl
  · rw [update_model_slide, slide_eq _ _ hl]
    intro b hb
    rcases List.mem_append.mp hb with h1 | h1
    · exact hh b (List.mem_of_mem_drop h1)
    · rw [List.mem_singleton.mp h1]; exact hch
  · intro e he
    rw [update_model_count_table] at he
    rcases mem_fold_count ch pick _ _ _ e he with h1 | ⟨_, h1⟩
    · exact hc e h1
    · rw [h1]; exact hch

theorem InRange_init (m : Model) (h : ∀ e ∈ m.count_table,
    ASCII_START ≤ e.next_char ∧ e.next_char ≤ ASCII_END) : InRange (init_model m) := by
  refine ⟨rfl, ?_, h⟩
  intro b hb
  have : b = 32 := List.eq_of_mem_replicate hb
  rw [this]
  decide

theorem toU8_in_range (b : Int) (h : 0 ≤ normalize_char b) :
    ASCII_START ≤ toU8 (normalize_char b) ∧ toU8 (normalize_char b) ≤ ASCII_END := by
  rcases normalize_char_range b with h1 | h1
  · omega
  · unfold toU8 ASCII_START ASCII_END
    omega

theorem InRange_byte (m : Model) (b : Int) (picks : Nat → Pick) (h : InRange m) :
    InRange (train_model m [b] picks) := by
  simp only [train_model]
  by_cases hb : normalize_char b < 0
  · rw [if_pos hb]; exact h
  · rw [if_neg hb]
    exact InRange_update m _ _ h (toU8_in_range b (by omega))

theorem InRange_feed_sample (m : Model) (next : Nat) (pick : Pick) (h : InRange m) :
    InRange (feed_sample m next pick) := by
  unfold feed_sample
  by_cases hr : next < ASCII_START ∨ next > ASCII_END
  · rw [if_pos hr]; exact h
  · rw [if_neg hr]
    exact InRange_update m next pick h (by omega)

theorem Reach_InRange (m : Model) (h : Reach m) : InRange m := by
  induction h with
  | init => exact InRange_init _ (by intro e he; simp [empty_model] at he)
  | byte m b picks _ ih => exact InRange_byte m b picks ih
  | reset m _ ih => exact InRange_init m ih.2.2
  | sample m esc rnd pos pick _ ih => exact InRange_feed_sample m _ pick ih

/-- From a state whose characters are in range the sampling loop never takes the
`continue` of the range check, and it ends in such a state. -/
theorem gen_loop_in_range (esc : Nat → Nat → Nat → Bool) (rnd : Nat → Nat)
    (picks : Nat → Pick) (fuel : Nat) (g : Gen) (h : InRange g.model) :
    (gen_loop esc rnd picks fuel g).1.skipped = g.skipped ∧
      InRange (gen_loop esc rnd picks fuel g).1.model := by
  induction fuel generalizing g with
  | zero => exact ⟨rfl, h⟩
  | succ fuel ih =>
    rw [gen_loop]
    by_cases hg : ¬ g.generated < 300
    · rw [if_pos hg]; exact ⟨rfl, h⟩
    · rw [if_neg hg]
      simp only
      have hr := sample_in_range esc g.model rnd g.pos h
      unfold sample_character at hr
      rw [if_neg (by omega)]
      have hm := InRange_update g.model (sample_trace esc g.model rnd g.pos).1.char
        (picks g.generated) h hr
      split
      · exact ⟨rfl, hm⟩
      · split
        · exact ⟨rfl, hm⟩
        · exact ih _ hm

/-- The states reached by the byte loops and the sampling loop are states the program
passes through. -/
theorem Reach_train_model (s : List Int) (m : Model) (picks : Nat → Pick) (h : Reach m) :
    Reach (train_model m s picks) := by
  induction s generalizing m picks with
  | nil => exact h
  | cons b bs ih =>
    have h1 := Reach.byte m b picks h
    simp only [train_model] at h1 ⊢
    by_cases hb : normalize_char b < 0
    · rw [if_pos hb] at h1 ⊢; exact ih m picks h1
    · rw [if_neg hb] at h1 ⊢; exact ih _ _ h1

theorem Reach_updates_accepted (s : List Int) (m : Model) (picks : Nat → Pick)
    (h : Reach m) : Reach (updates m (accepted_chars s) picks) := by
  rw [← train_model_eq_updates]
  exact Reach_train_model s m picks h

theorem Reach_feed_prompt (s : List Int) (m : Model) (picks : Nat → Pick) (h : Reach m) :
    Reach (feed_prompt m s picks) := by
  rw [feed_prompt_eq_updates]
  exact Reach_updates_accepted _ m picks h

theorem Reach_gen_loop (esc : Nat → Nat → Nat → Bool) (rnd : Nat → Nat)
    (picks : Nat → Pick) (fuel : Nat) (g : Gen) (h : Reach g.model) :
    Reach (gen_loop esc rnd picks fuel g).1.model := by
  induction fuel generalizing g with
  | zero => exact h
  | succ fuel ih =>
    rw [gen_loop]
    by_cases hg : ¬ g.generated < 300
    · rw [if_pos hg]; exact h
    · rw [if_neg hg]
      simp only
      have hs := Reach.sample g.model esc rnd g.pos (picks g.generated) h
      unfold feed_sample sample_character at hs
      by_cases hr : (sample_trace esc g.model rnd g.pos).1.char < ASCII_START ∨
          (sample_trace esc g.model rnd g.pos).1.char > ASCII_END
      · rw [if_pos hr]; exact ih _ h
      · rw [if_neg hr] at hs ⊢
        split
        · exact hs
        · split
          · exact hs
          · exact ih _ hs

/-! ## Determinism of the sampler -/

/-- The loop over `n` orders reads at most `2 * n + 1` random values from its cursor on:
two random streams that agree there give the same result and the same cursor, and the
cursor advances by at least 1 and at most `2 * n + 1`. -/
theorem sample_orders_window (esc : Nat → Nat → Nat → Bool) (m : Model)
    (rnd1 rnd2 : Nat → Nat) (n pos : Nat)
    (h : ∀ i, i < 2 * n + 1 → rnd1 (pos + i) = rnd2 (pos + i)) :
    sample_orders esc m rnd1 n pos = sample_orders esc m rnd2 n pos ∧
      pos < (sample_orders esc m rnd1 n pos).2 ∧
      (sample_orders esc m rnd1 n pos).2 ≤ pos + (2 * n + 1) := by
  induction n generalizing pos with
  | zero =>
    have h0 := h 0 (by omega)
    rw [Nat.add_zero] at h0
    simp only [sample_orders, h0]
    exact ⟨trivial, by omega, by omega⟩
  | succ order ih =>
    have h0 := h 0 (by omega)
    have h1 := h 1 (by omega)
    rw [Nat.add_zero] at h0
    have ih0 := ih pos (fun i hi => h i (by omega))
    have ih1 := ih (pos + 1) (fun i hi => by
      have := h (1 + i) (by omega)
      rwa [← Nat.add_assoc] at this)
    have ih2 := ih (pos + 1 + 1) (fun i hi => by
      have := h (2 + i) (by omega)
      rwa [show pos + (2 + i) = pos + 1 + 1 + i by omega] at this)
    rw [sample_orders, sample_orders]
    cases hf : HASH_FIND_STR m.total_table (get_context_str m.history order) with
    | none => simp only; exact ⟨ih0.1, ih0.2.1, by omega⟩
    | some t =>
      simp only
      by_cases hz : t.total = 0
      · rw [if_pos hz, if_pos hz]; exact ⟨ih0.1, ih0.2.1, by omega⟩
      · rw [if_neg hz, if_neg hz, ← h0]
        by_cases he : order > 0 ∧ esc order t.total (rnd1 pos) = true
        · rw [if_pos he, if_pos he]; exact ⟨ih1.1, by omega, by omega⟩
        · rw [if_neg he, if_neg he]
          by_cases ho : order > 0
          · simp only [ho, if_true, ← h1]
            cases hw : sample_walk m.count_table (get_context_str m.history order)
                (rnd1 (pos + 1) % t.total) 0 with
            | some c => simp only; exact ⟨trivial, by omega, by omega⟩
            | none => simp only; exact ⟨ih2.1, by omega, by omega⟩
          · simp only [ho, if_false, ← h0]
            cases hw : sample_walk m.count_table (get_context_str m.history order)
                (rnd1 pos % t.total) 0 with
            | some c => simp only; exact ⟨trivial, by omega, by omega⟩
            | none => simp only; exact ⟨ih1.1, by omega, by omega⟩

/-! ## Order selection -/

theorem order_total_zero (m : Model) (k : Nat) (h : order_total m k = 0) :
    total_for m (get_context_str m.history k) = none ∨
      total_for m (get_context_str m.history k) = some 0 := by
  unfold order_total at h
  cases hq : total_for m (get_context_str m.history k) with
  | none => left; rfl
  | some t => right; rw [hq] at h; simp at h; rw [h]

theorem order_total_pos (m : Model) (k : Nat) (h : 0 < order_total m k) :
    total_for m (get_context_str m.history k) = some (order_total m k) := by
  unfold order_total at h ⊢
  cases hq : total_for m (get_context_str m.history k) with
  | none => rw [hq] at h; simp at h
  | some t => simp

theorem draws_above_self (m : Model) (k : Nat) : draws_above m (k + 1) k = 0 := by
  unfold draws_above
  rw [List.length_eq_zero, List.filter_eq_nil_iff]
  intro j hj
  have := List.mem_range.mp hj
  simp only [Bool.and_eq_true, decide_eq_true_eq, not_and]
  intro h
  omega

theorem draws_above_succ (m : Model) (j i : Nat) (h : i < j) :
    draws_above m (j + 1) i = draws_above m j i + (if 0 < order_total m j then 1 else 0) := by
  unfold draws_above
  rw [List.range_succ, List.filter_append, List.length_append]
  by_cases hp : 0 < order_total m j
  · simp [List.filter_cons, h, hp]
  · simp [List.filter_cons, h, hp]

/-- An escaped order is passed over at the cost of one random value. -/
theorem sample_orders_escape (esc : Nat → Nat → Nat → Bool) (m : Model) (rnd : Nat → Nat)
    (order pos : Nat) (hpos : 0 < order_total m order)
    (he : order > 0 ∧ esc order (order_total m order) (rnd pos) = true) :
    sample_orders esc m rnd (order + 1) pos = sample_orders esc m rnd order (pos + 1) := by
  obtain ⟨t, ht, hT⟩ := total_for_some m _ _ (order_total_pos m order hpos)
  rw [sample_orders]
  simp only [ht, hT]
  rw [if_neg (by omega), if_pos he]

/-- An order that is taken makes the walk; when the walk returns nothing the scan goes
on below. -/
theorem sample_orders_take (esc : Nat → Nat → Nat → Bool) (m : Model) (rnd : Nat → Nat)
    (order pos : Nat) (hpos : 0 < order_total m order)
    (he : ¬ (order > 0 ∧ esc order (order_total m order) (rnd pos) = true)) :
    sample_orders esc m rnd (order + 1) pos =
      match sample_walk m.count_table (get_context_str m.history order)
          (rnd (if order > 0 then pos + 1 else pos) % order_total m order) 0 with
      | some c => (.walk order c, (if order > 0 then pos + 1 else pos) + 1)
      | none => sample_orders esc m rnd order ((if order > 0 then pos + 1 else pos) + 1) := by
  obtain ⟨t, ht, hT⟩ := total_for_some m _ _ (order_total_pos m order hpos)
  rw [sample_orders]
  simp only [ht, hT]
  rw [if_neg (by omega), if_neg he]

/-- The scan of the orders below `n` reaches the first order that is taken, having
read one random value for each order above it whose context has a non-zero total. -/
theorem sample_orders_first (esc : Nat → Nat → Nat → Bool) (m : Model) (rnd : Nat → Nat)
    (n pos k : Nat) (hk : k < n) (hno : ∀ j, k < j → j < n → ¬ takes esc m rnd pos n j) :
    sample_orders esc m rnd n pos =
      sample_orders esc m rnd (k + 1) (pos + draws_above m n k) := by
  induction n generalizing pos with
  | zero => omega
  | succ j ih =>
    rcases Nat.lt_or_ge k j with hlt | hge
    · have hj := hno j hlt (Nat.lt_succ_self j)
      have hd0 := draws_above_self m j
      by_cases hp : 0 < order_total m j
      · have he : j > 0 ∧ esc j (order_total m j) (rnd pos) = true := by
          unfold takes at hj
          rw [hd0, Nat.add_zero] at hj
          by_contra hc
          exact hj ⟨hp, hc⟩
        rw [sample_orders_escape esc m rnd j pos hp he, draws_above_succ m j k hlt, if_pos hp,
          ih (pos + 1) hlt]
        · rw [Nat.add_assoc, Nat.add_comm 1]
        · intro i hi1 hi2 ht
          apply hno i hi1 (by omega)
          unfold takes at ht ⊢
          rw [draws_above_succ m j i hi2, if_pos hp]
          rw [Nat.add_assoc, Nat.add_comm 1] at ht
          exact ht
      · have hz : order_total m j = 0 := by omega
        rw [sample_orders_skip esc m rnd j pos (order_total_zero m j hz),
          draws_above_succ m j k hlt, if_neg hp, ih pos hlt]
        · rfl
        · intro i hi1 hi2 ht
          apply hno i hi1 (by omega)
          unfold takes at ht ⊢
          rw [draws_above_succ m j i hi2, if_neg hp, Nat.add_zero]
          exact ht
    · have hkj : k = j := by omega
      subst hkj
      rw [draws_above_self]
      rfl

/-- A walk that returns nothing has its `U32` accumulator at or below the draw at the
end. -/
theorem walk_none_le (tbl : List CountEntry) (ctx : List Nat) (r cum : Nat)
    (hc : cum % U32_MOD ≤ r) (hw : sample_walk tbl ctx r cum = none) :
    (cum + ctxSum tbl ctx) % U32_MOD ≤ r := by
  induction tbl generalizing cum with
  | nil => simpa [ctxSum, sumBy] using hc
  | cons e es ih =>
    unfold sample_walk at hw
    by_cases hctx : e.context = ctx
    · rw [if_pos hctx] at hw
      by_cases hr : r < (cum + e.count) % U32_MOD
      · rw [if_pos hr] at hw; simp at hw
      · rw [if_neg hr] at hw
        have := ih ((cum + e.count) % U32_MOD) (by rw [Nat.mod_mod]; omega) hw
        rw [ctxSum_cons, if_pos hctx]
        unfold U32_MOD at this ⊢
        omega
    · rw [if_neg hctx] at hw
      have := ih cum hc hw
      rw [ctxSum_cons, if_neg hctx, Nat.zero_add]
      exact this

/-- Under the Count/Total invariant modulo `2 ^ 32` the walk returns for every draw
below the total. -/
theorem walk_some_of_inv (m : Model) (ctx : List Nat) (T r : Nat) (hinv : TotalInv m)
    (hT : total_for m ctx = some T) (hr : r < T) :
    ∃ c, sample_walk m.count_table ctx r 0 = some c := by
  cases hw : sample_walk m.count_table ctx r 0 with
  | some c => exact ⟨c, rfl⟩
  | none =>
    exfalso
    have h1 := walk_none_le m.count_table ctx r 0 (by simp) hw
    rw [Nat.zero_add, ← hinv ctx T hT] at h1
    omega

theorem draws_all_succ (m : Model) (j : Nat) :
    draws_all m (j + 1) = draws_all m j + (if 0 < order_total m j then 1 else 0) := by
  unfold draws_all
  rw [List.range_succ, List.filter_append, List.length_append]
  by_cases hp : 0 < order_total m j
  · simp [List.filter_cons, hp]
  · simp [List.filter_cons, hp]

/-- When no order below `n` is taken the scan ends at the fallback draw, having read
one random value for each order whose context has a non-zero total. -/
theorem sample_orders_none (esc : Nat → Nat → Nat → Bool) (m : Model) (rnd : Nat → Nat)
    (n pos : Nat) (hno : ∀ j, j < n → ¬ takes esc m rnd pos n j) :
    sample_orders esc m rnd n pos = sample_orders esc m rnd 0 (pos + draws_all m n) := by
  induction n generalizing pos with
  | zero => rfl
  | succ j ih =>
    have hj := hno j (Nat.lt_succ_self j)
    have hd0 := draws_above_self m j
    rw [draws_all_succ]
    by_cases hp : 0 < order_total m j
    · have he : j > 0 ∧ esc j (order_total m j) (rnd pos) = true := by
        unfold takes at hj
        rw [hd0, Nat.add_zero] at hj
        by_contra hc
        exact hj ⟨hp, hc⟩
      rw [sample_orders_escape esc m rnd j pos hp he, if_pos hp, ih (pos + 1)]
      · rw [Nat.add_assoc, Nat.add_comm 1]
      · intro i hi ht
        apply hno i (by omega)
        unfold takes at ht ⊢
        rw [draws_above_succ m j i hi, if_pos hp]
        rw [Nat.add_assoc, Nat.add_comm 1] at ht
        exact ht
    · have hz : order_total m j = 0 := by omega
      rw [sample_orders_skip esc m rnd j pos (order_total_zero m j hz), if_neg hp, ih pos]
      · rfl
      · intro i hi ht
        apply hno i (by omega)
        unfold takes at ht ⊢
        rw [draws_above_succ m j i hi, if_neg hp, Nat.add_zero]
        exact ht

/-! ## Frame and growth -/

theorem sumBy_bump_frame (p : List Nat → Nat → Bool) (tbl : List CountEntry) (i : Nat)
    (e : CountEntry) (hget : tbl.get? i = some e) (hp : p e.context e.next_char = false) :
    sumBy p (bump_count tbl i) = sumBy p tbl := by
  induction tbl generalizing i with
  | nil => simp at hget
  | cons a as ih =>
    cases i with
    | zero =>
      simp at hget
      subst hget
      simp only [bump_count, sumBy_cons, hp]
      simp
    | succ j =>
      simp at hget
      simp only [bump_count, sumBy_cons]
      rw [ih j (by simpa using hget)]

/-- One "Update count" block leaves unchanged every sum that does not select the
recorded pair. -/
theorem sumBy_update_count_frame (p : List Nat → Nat → Bool) (tbl : List CountEntry)
    (ctx : List Nat) (ch : Nat) (hit : Option Nat) (hp : p ctx ch = false) :
    sumBy p (update_count tbl ctx ch hit) = sumBy p tbl := by
  unfold update_count
  cases hf : HASH_FIND_count tbl ctx ch hit with
  | none =>
    simp only [HASH_ADD]
    rw [sumBy_append, sumBy_cons, sumBy_nil]
    simp [hp]
  | some i =>
    simp only
    obtain ⟨e, hget, hc, hn⟩ := find_count_some tbl ctx ch hit i hf
    exact sumBy_bump_frame p tbl i e hget (by rw [hc, hn]; exact hp)

theorem sumBy_fold_frame (p : List Nat → Nat → Bool) (ch : Nat) (pick : Pick)
    (cx : Nat → List Nat) (ks : List Nat) (tbl : List CountEntry)
    (hp : ∀ k ∈ ks, p (cx k) ch = false) :
    sumBy p (ks.foldl (fun t k => update_count t (cx k) ch (pick k)) tbl) = sumBy p tbl := by
  induction ks generalizing tbl with
  | nil => rfl
  | cons k ks ih =>
    rw [List.foldl_cons, ih _ (fun j hj => hp j (List.mem_cons_of_mem _ hj)),
      sumBy_update_count_frame p tbl (cx k) ch (pick k) (hp k (List.mem_cons_self _ _))]

theorem get_bump (tbl : List CountEntry) (j i : Nat) (e : CountEntry)
    (h : tbl.get? i = some e) :
    ∃ e2, (bump_count tbl j).get? i = some e2 ∧ e2.context = e.context ∧
      e2.next_char = e.next_char ∧
      (e2.count = e.count ∨ (i = j ∧ e2.count = (e.count + 1) % U32_MOD)) := by
  induction tbl generalizing i j with
  | nil => simp at h
  | cons a as ih =>
    cases j with
    | zero =>
      cases i with
      | zero =>
        simp at h
        subst h
        exact ⟨{ a with count := (a.count + 1) % U32_MOD }, by simp [bump_count], rfl, rfl,
          Or.inr ⟨rfl, rfl⟩⟩
      | succ i2 =>
        exact ⟨e, by simpa [bump_count] using h, rfl, rfl, Or.inl rfl⟩
    | succ j2 =>
      cases i with
      | zero =>
        simp at h
        subst h
        exact ⟨_, by simp [bump_count], rfl, rfl, Or.inl rfl⟩
      | succ i2 =>
        obtain ⟨e2, h1, h2, h3, h4⟩ := ih j2 i2 (by simpa using h)
        refine ⟨e2, by simpa [bump_count] using h1, h2, h3, ?_⟩
        rcases h4 with h4 | ⟨h4, h5⟩
        · left; exact h4
        · right; exact ⟨by rw [h4], h5⟩

/-- An entry keeps its position, context and `next_char` through an "Update count"
block; its count is unchanged or, when it carries the recorded pair, incremented. -/
theorem get_update_count (tbl : List CountEntry) (ctx : List Nat) (ch : Nat)
    (hit : Option Nat) (i : Nat) (e : CountEntry) (h : tbl.get? i = some e) :
    ∃ e2, (update_count tbl ctx ch hit).get? i = some e2 ∧ e2.context = e.context ∧
      e2.next_char = e.next_char ∧
      (e2.count = e.count ∨
        (e.context = ctx ∧ e.next_char = ch ∧ e2.count = (e.count + 1) % U32_MOD)) := by
  unfold update_count
  cases hf : HASH_FIND_count tbl ctx ch hit with
  | none =>
    simp only [HASH_ADD]
    have hlt : i < tbl.length := by
      rcases Nat.lt_or_ge i tbl.length with h1 | h1
      · exact h1
      · rw [List.get?_eq_none.mpr h1] at h; simp at h
    exact ⟨e, by
      rw [List.get?_eq_getElem?, List.getElem?_append_left hlt, ← List.get?_eq_getElem?]
      exact h, rfl, rfl, Or.inl rfl⟩
  | some j =>
    simp only
    obtain ⟨ej, hget, hc, hn⟩ := find_count_some tbl ctx ch hit j hf
    obtain ⟨e2, h1, h2, h3, h4⟩ := get_bump tbl j i e h
    refine ⟨e2, h1, h2, h3, ?_⟩
    rcases h4 with h4 | ⟨h4, h5⟩
    · left; exact h4
    · right
      subst h4
      rw [h] at hget
      have : e = ej := by simpa using hget
      subst this
      exact ⟨hc, hn, h5⟩

theorem get_fold_count (ch : Nat) (pick : Pick) (cx : Nat → List Nat) (ks : List Nat)
    (tbl : List CountEntry) (i : Nat) (e : CountEntry) (h : tbl.get? i = some e) :
    ∃ e2, (ks.foldl (fun t k => update_count t (cx k) ch (pick k)) tbl).get? i = some e2 ∧
      e2.context = e.context ∧ e2.next_char = e.next_char := by
  induction ks generalizing tbl e with
  | nil => exact ⟨e, h, rfl, rfl⟩
  | cons k ks ih =>
    obtain ⟨e1, h1, h2, h3, _⟩ := get_update_count tbl (cx k) ch (pick k) i e h
    obtain ⟨e2, h5, h6, h7⟩ := ih _ e1 h1
    exact ⟨e2, h5, h6.trans h2, h7.trans h3⟩

theorem get_fold_count_nodup (ch : Nat) (pick : Pick) (cx : Nat → List Nat) (ks : List Nat)
    (tbl : List CountEntry) (i : Nat) (e : CountEntry) (hnd : (ks.map cx).Nodup)
    (h : tbl.get? i = some e) :
    ∃ e2, (ks.foldl (fun t k => update_count t (cx k) ch (pick k)) tbl).get? i = some e2 ∧
      e2.context = e.context ∧ e2.next_char = e.next_char ∧
      (e2.count = e.count ∨
        (e.context ∈ ks.map cx ∧ e.next_char = ch ∧
          e2.count = (e.count + 1) % U32_MOD)) := by
  induction ks generalizing tbl e with
  | nil => exact ⟨e, h, rfl, rfl, Or.inl rfl⟩
  | cons k ks ih =>
    rw [List.map_cons, List.nodup_cons] at hnd
    obtain ⟨e1, h1, h2, h3, h4⟩ := get_update_count tbl (cx k) ch (pick k) i e h
    obtain ⟨e2, h5, h6, h7, h8⟩ := ih _ e1 hnd.2 h1
    refine ⟨e2, h5, h6.trans h2, h7.trans h3, ?_⟩
    rcases h4 with h4 | ⟨h4, h4b, h4c⟩
    · rcases h8 with h8 | ⟨h8, h8b, h8c⟩
      · left; rw [h8, h4]
      · right
        exact ⟨by rw [List.map_cons, ← h2]; exact List.mem_cons_of_mem _ h8,
          by rw [← h3]; exact h8b, by rw [h8c, h4]⟩
    · rcases h8 with h8 | ⟨h8, _, _⟩
      · right
        exact ⟨by rw [List.map_cons, h4]; exact List.mem_cons_self _ _, h4b,
          by rw [h8, h4c]⟩
      · exfalso
        rw [h2, h4] at h8
        exact hnd.1 h8

theorem get_update_total (tbl : List TotalEntry) (ctx : List Nat) (i : Nat)
    (t : TotalEntry) (h : tbl.get? i = some t) :
    ∃ t2, (update_total tbl ctx).get? i = some t2 ∧ t2.context = t.context := by
  induction tbl generalizing i with
  | nil => simp at h
  | cons a as ih =>
    rw [update_total_cons]
    by_cases ha : a.context = ctx
    · rw [if_pos ha]
      cases i with
      | zero =>
        simp at h
        subst h
        exact ⟨{ a with total := (a.total + 1) % U32_MOD }, by simp, rfl⟩
      | succ j => exact ⟨t, by simpa using h, rfl⟩
    · rw [if_neg ha]
      cases i with
      | zero => exact ⟨t, by simpa using h, rfl⟩
      | succ j =>
        obtain ⟨t2, h1, h2⟩ := ih j (by simpa using h)
        exact ⟨t2, by simpa using h1, h2⟩

theorem get_fold_total (cx : Nat → List Nat) (ks : List Nat) (tbl : List TotalEntry)
    (i : Nat) (t : TotalEntry) (h : tbl.get? i = some t) :
    ∃ t2, (ks.foldl (fun t k => update_total t (cx k)) tbl).get? i = some t2 ∧
      t2.context = t.context := by
  induction ks generalizing tbl t with
  | nil => exact ⟨t, h, rfl⟩
  | cons k ks ih =>
    obtain ⟨t1, h1, h2⟩ := get_update_total tbl (cx k) i t h
    obtain ⟨t2, h3, h4⟩ := ih _ t1 h1
    exact ⟨t2, h3, h4.trans h2⟩

/-- No entry is removed by a sequence of actions: every entry of either table keeps
its position and its key. -/
theorem entries_stay_run (steps : List Step) (m : Model) :
    (∀ i e, m.count_table.get? i = some e →
      ∃ e2, (run m steps).count_table.get? i = some e2 ∧ e2.context = e.context ∧
        e2.next_char = e.next_char) ∧
    (∀ i t, m.total_table.get? i = some t →
      ∃ t2, (run m steps).total_table.get? i = some t2 ∧ t2.context = t.context) := by
  induction steps generalizing m with
  | nil => exact ⟨fun i e h => ⟨e, h, rfl, rfl⟩, fun i t h => ⟨t, h, rfl⟩⟩
  | cons a ss ih =>
    cases a with
    | update ch pick =>
      have hi := ih (update_model m ch pick)
      constructor
      · intro i e h
        obtain ⟨e1, h1, h2, h3⟩ := get_fold_count ch pick (get_context_str m.history)
          (List.range (MAX_ORDER + 1)) m.count_table i e h
        rw [← update_model_count_table] at h1
        obtain ⟨e2, h4, h5, h6⟩ := hi.1 i e1 h1
        exact ⟨e2, h4, h5.trans h2, h6.trans h3⟩
      · intro i t h
        obtain ⟨t1, h1, h2⟩ := get_fold_total (get_context_str m.history)
          (List.range (MAX_ORDER + 1)) m.total_table i t h
        rw [← update_model_total_table] at h1
        obtain ⟨t2, h4, h5⟩ := hi.2 i t1 h1
        exact ⟨t2, h4, h5.trans h2⟩
    | reset => exact ih (init_model m)

/-! ## Sequences of actions and their events -/

theorem fed_append (a b : List Step) : fed (a ++ b) = fed a ++ fed b := by
  induction a with
  | nil => rfl
  | cons x xs ih =>
    cases x with
    | update ch pick => rw [List.cons_append, fed, fed, ih, List.cons_append]
    | reset => rw [List.cons_append, fed, fed, ih]

theorem fed_update_steps (cs : List Nat) (picks : Nat → Pick) :
    fed (update_steps cs picks) = cs := by
  induction cs generalizing picks with
  | nil => rfl
  | cons c cs ih => rw [update_steps, fed, ih]

theorem run_append (m : Model) (a b : List Step) : run m (a ++ b) = run (run m a) b := by
  unfold run
  rw [List.foldl_append]

theorem run_cons_update (m : Model) (ch : Nat) (pick : Pick) (ss : List Step) :
    run m (Step.update ch pick :: ss) = run (update_model m ch pick) ss := rfl

theorem run_cons_reset (m : Model) (ss : List Step) :
    run m (Step.reset :: ss) = run (init_model m) ss := rfl

theorem TAgree_run (steps : List Step) (m : Model) (E : List (List Nat × Nat))
    (h : TAgree m.total_table E) :
    TAgree (run m steps).total_table (E ++ run_events m.history steps) := by
  induction steps generalizing m E with
  | nil => simpa [run, run_events] using h
  | cons a ss ih =>
    cases a with
    | update ch pick =>
      rw [run_cons_update, run_events, ← List.append_assoc]
      have h2 := ih (update_model m ch pick) _ (TAgree_update_model m ch pick E h)
      rw [update_model_slide] at h2
      exact h2
    | reset =>
      rw [run_cons_reset, run_events]
      exact ih (init_model m) E h

/-- Counts stay exact along a sequence of actions on non-NUL characters as long as no
context reaches `2 ^ 32` events. -/
theorem CAgree_run (steps : List Step) (m : Model) (E : List (List Nat × Nat)) (n : Nat)
    (hl : m.history.length = MAX_ORDER) (hnz : ∀ b ∈ m.history, b ≠ 0)
    (hcs : ∀ c ∈ fed steps, c ≠ 0) (hA : CAgree m.count_table E)
    (hB : ∀ ctx, seen E ctx ≤ n) (hn : n + (fed steps).length < U32_MOD) :
    CAgree (run m steps).count_table (E ++ run_events m.history steps) ∧
      ∀ ctx, seen (E ++ run_events m.history steps) ctx ≤ n + (fed steps).length := by
  induction steps generalizing m E n with
  | nil => simpa [run, run_events, fed] using ⟨hA, hB⟩
  | cons a ss ih =>
    cases a with
    | update c pick =>
      rw [run_cons_update, run_events, ← List.append_assoc]
      rw [fed, List.length_cons] at hn
      have hnd := contexts_nodup m.history hl hnz
      have h1 : CAgree (update_model m c pick).count_table
          (E ++ (contexts m.history).map (fun ctx => (ctx, c))) := by
        intro p
        rw [sumBy_update_model p m c pick hl hnz, hA p, hits_append]
        intro e he _ _
        have h3 := count_le_sumBy (fun x _ => decide (x = e.context)) m.count_table e he
          (by simp)
        rw [hA] at h3
        have h4 : hits (fun x _ => decide (x = e.context)) E = seen E e.context := rfl
        have h5 := hB e.context
        omega
      have h2 : ∀ ctx, seen (E ++ (contexts m.history).map (fun ctx => (ctx, c))) ctx
          ≤ n + 1 := by
        intro ctx
        rw [seen_append]
        have := seen_map_le_one (contexts m.history) c ctx hnd
        have := hB ctx
        omega
      have hc0 : c ≠ 0 := hcs c (by rw [fed]; exact List.mem_cons_self _ _)
      have h6 := ih (update_model m c pick) _ (n + 1)
        (by rw [update_model_slide]; exact slide_length _ _ hl)
        (by rw [update_model_slide]; exact slide_nonzero _ _ hl hnz hc0)
        (fun x hx => hcs x (by rw [fed]; exact List.mem_cons_of_mem _ hx)) h1 h2 (by omega)
      rw [update_model_slide] at h6
      have e1 : n + 1 + (fed ss).length = n + (fed (Step.update c pick :: ss)).length := by
        rw [fed, List.length_cons]; omega
      rw [e1] at h6
      exact h6
    | reset =>
      rw [run_cons_reset, run_events]
      exact ih (init_model m) E n rfl init_nonzero hcs hA hB hn

/-- Every call on a non-NUL history records the empty context exactly once. -/
theorem seen_nil_run_events (steps : List Step) (h : List Nat) (hl : h.length = MAX_ORDER)
    (hnz : ∀ b ∈ h, b ≠ 0) (hcs : ∀ c ∈ fed steps, c ≠ 0) :
    seen (run_events h steps) [] = (fed steps).length := by
  induction steps generalizing h with
  | nil => rfl
  | cons a ss ih =>
    cases a with
    | update c pick =>
      rw [run_events, seen_append,
        seen_map_of_mem _ c [] (contexts_nodup h hl hnz) (nil_mem_contexts h),
        ih (slide h c) (slide_length h c hl)
          (slide_nonzero h c hl hnz (hcs c (by rw [fed]; exact List.mem_cons_self _ _)))
          (fun x hx => hcs x (by rw [fed]; exact List.mem_cons_of_mem _ hx)), fed,
        List.length_cons]
      omega
    | reset =>
      rw [run_events, fed]
      exact ih _ rfl init_nonzero hcs

/-- Totals after a sequence of actions from the initial model: the number of events
of the context, modulo `2 ^ 32`. -/
theorem total_run (steps : List Step) (ctx : List Nat) :
    total_for (run (init_model empty_model) steps) ctx =
      if seen (run_events [32, 32, 32, 32] steps) ctx = 0 then none
      else some (seen (run_events [32, 32, 32, 32] steps) ctx % U32_MOD) := by
  have h := TAgree_run steps (init_model empty_model) [] TAgree_nil ctx
  rw [List.nil_append, init_history] at h
  exact h

/-- Sums of counts after fewer than `2 ^ 32` calls on non-NUL characters from the
initial model: the number of events selected. -/
theorem counts_run (steps : List Step) (hcs : ∀ c ∈ fed steps, c ≠ 0)
    (hlen : (fed steps).length < U32_MOD) (p : List Nat → Nat → Bool) :
    sumBy p (run (init_model empty_model) steps).count_table =
      hits p (run_events [32, 32, 32, 32] steps) := by
  have h := (CAgree_run steps (init_model empty_model) [] 0 rfl init_nonzero hcs
    CAgree_nil (fun _ => Nat.le_refl _) (by omega)).1 p
  rw [List.nil_append, init_history] at h
  exact h

theorem seen_le_run (steps : List Step) (hcs : ∀ c ∈ fed steps, c ≠ 0)
    (hlen : (fed steps).length < U32_MOD) (ctx : List Nat) :
    seen (run_events [32, 32, 32, 32] steps) ctx ≤ (fed steps).length := by
  have h := (CAgree_run steps (init_model empty_model) [] 0 rfl init_nonzero hcs
    CAgree_nil (fun _ => Nat.le_refl _) (by omega)).2 ctx
  rw [List.nil_append, init_history, Nat.zero_add] at h
  exact h

/-- The total of "" after `n` calls `update_model('a')` from the initial model is
`n` modulo `2 ^ 32`. -/
theorem total_nil_replicate (n : Nat) (picks : Nat → Pick) (hn : 0 < n) :
    total_for (run (init_model empty_model) (update_steps (List.replicate n 97) picks)) []
      = some (n % U32_MOD) := by
  have hs : seen (run_events [32, 32, 32, 32] (update_steps (List.replicate n 97) picks)) []
      = n := by
    rw [seen_nil_run_events (update_steps (List.replicate n 97) picks) [32, 32, 32, 32] rfl
      (by intro b hb; simp at hb; omega)
      (by
        rw [fed_update_steps]
        intro c hc; rw [List.eq_of_mem_replicate hc]; omega),
      fed_update_steps, List.length_replicate]
  rw [total_run, hs, if_neg (by omega)]

theorem Good_count_le (n : Nat) (m : Model) (hg : Good n m) (e : CountEntry)
    (he : e ∈ m.count_table) : e.count ≤ n := by
  obtain ⟨_, _, E, _, hC, hB, _⟩ := hg
  have h3 := count_le_sumBy (fun x _ => decide (x = e.context)) m.count_table e he (by simp)
  rw [hC] at h3
  have h4 : hits (fun x _ => decide (x = e.context)) E = seen E e.context := rfl
  have h5 := hB e.context
  omega

theorem Good_total_le (n : Nat) (m : Model) (hg : Good n m) (ctx : List Nat) (t : Nat)
    (ht : total_for m ctx = some t) : t ≤ n := by
  obtain ⟨_, _, E, hT, _, hB, _⟩ := hg
  have h1 : total_for m ctx = tot m.total_table ctx := rfl
  rw [h1, hT ctx] at ht
  have h5 := hB ctx
  split at ht
  · simp at ht
  · have e1 : seen E ctx % U32_MOD = t := by simpa using ht
    have := Nat.mod_le (seen E ctx) U32_MOD
    omega

/-- In a state accounted for by fewer than `2 ^ 32 - 1` events per context, one
`update_model` call on a non-NUL character keeps every entry in place with a count
at least as large, and every total at least as large. -/
theorem Mono_update (n : Nat) (m : Model) (ch : Nat) (pick : Pick) (hg : Good n m)
    (hn : n + 1 < U32_MOD) :
    (∀ i e, m.count_table.get? i = some e →
      ∃ e2, (update_model m ch pick).count_table.get? i = some e2 ∧
        e2.context = e.context ∧ e2.next_char = e.next_char ∧ e.count ≤ e2.count) ∧
    (∀ ctx t, total_for m ctx = some t →
      ∃ t2, total_for (update_model m ch pick) ctx = some t2 ∧ t ≤ t2) := by
  have hnd : ((List.range (MAX_ORDER + 1)).map (get_context_str m.history)).Nodup :=
    contexts_nodup m.history hg.1 hg.2.1
  constructor
  · intro i e h
    obtain ⟨e2, h1, h2, h3, h4⟩ := get_fold_count_nodup ch pick (get_context_str m.history)
      (List.range (MAX_ORDER + 1)) m.count_table i e hnd h
    rw [← update_model_count_table] at h1
    refine ⟨e2, h1, h2, h3, ?_⟩
    have hle := Good_count_le n m hg e (List.get?_mem h)
    rcases h4 with h4 | ⟨_, _, h4⟩
    · omega
    · rw [h4, Nat.mod_eq_of_lt (by omega)]; omega
  · intro ctx t ht
    have hle := Good_total_le n m hg ctx t ht
    have h1 : total_for (update_model m ch pick) ctx =
        tot (update_model m ch pick).total_table ctx := rfl
    have h2 : total_for m ctx = tot m.total_table ctx := rfl
    rw [h2] at ht
    rw [h1, update_model_total_table]
    by_cases hm : ctx ∈ (List.range (MAX_ORDER + 1)).map (get_context_str m.history)
    · rw [tot_fold_of_mem _ _ _ _ hnd hm, ht]
      simp only
      exact ⟨_, rfl, by rw [Nat.mod_eq_of_lt (by omega)]; omega⟩
    · rw [tot_fold_of_not_mem _ _ _ _ hm, ht]
      exact ⟨t, rfl, le_refl _⟩

theorem Mono_run (steps : List Step) (n : Nat) (m : Model) (hg : Good n m)
    (hcs : ∀ c ∈ fed steps, c ≠ 0) (hn : n + (fed steps).length < U32_MOD) :
    (∀ i e, m.count_table.get? i = some e →
      ∃ e2, (run m steps).count_table.get? i = some e2 ∧
        e2.context = e.context ∧ e2.next_char = e.next_char ∧ e.count ≤ e2.count) ∧
    (∀ ctx t, total_for m ctx = some t →
      ∃ t2, total_for (run m steps) ctx = some t2 ∧ t ≤ t2) := by
  induction steps generalizing n m with
  | nil => exact ⟨fun i e h => ⟨e, h, rfl, rfl, le_refl _⟩, fun ctx t h => ⟨t, h, le_refl _⟩⟩
  | cons a ss ih =>
    cases a with
    | update ch pick =>
      rw [fed, List.length_cons] at hn
      have hch : ch ≠ 0 := hcs ch (by rw [fed]; exact List.mem_cons_self _ _)
      have hm := Mono_update n m ch pick hg (by omega)
      have hi := ih (n + 1) (update_model m ch pick)
        (Good_update n m ch pick hg hch (by omega))
        (fun c hc => hcs c (by rw [fed]; exact List.mem_cons_of_mem _ hc)) (by omega)
      rw [run_cons_update]
      constructor
      · intro i e h
        obtain ⟨e1, h1, h2, h3, h4⟩ := hm.1 i e h
        obtain ⟨e2, h5, h6, h7, h8⟩ := hi.1 i e1 h1
        exact ⟨e2, h5, h6.trans h2, h7.trans h3, by omega⟩
      · intro ctx t h
        obtain ⟨t1, h1, h2⟩ := hm.2 ctx t h
        obtain ⟨t2, h3, h4⟩ := hi.2 ctx t1 h1
        exact ⟨t2, h3, by omega⟩
    | reset =>
      rw [run_cons_reset]
      exact ih n (init_model m) (Good_reset n m hg) hcs hn

theorem get_context_str_mem_contexts (h : List Nat) (k : Nat) (hk : k ≤ MAX_ORDER) :
    get_context_str h k ∈ contexts h :=
  List.mem_map.mpr ⟨k, List.mem_range.mpr (by omega), rfl⟩

/-! ## Backoff consistency -/

theorem tail_mem_contexts (h : List Nat) (hl : h.length = MAX_ORDER) (hnz : ∀ b ∈ h, b ≠ 0)
    (ctx : List Nat) (hm : ctx ∈ contexts h) : ctx.tail ∈ contexts h := by
  obtain ⟨a, b, c, d, rfl⟩ := list_len_four h hl
  rw [contexts_four a b c d (hnz a (by simp)) (hnz b (by simp)) (hnz c (by simp))
    (hnz d (by simp))] at hm ⊢
  simp only [List.mem_cons, List.mem_singleton, List.not_mem_nil, or_false] at hm
  rcases hm with rfl | rfl | rfl | rfl | rfl <;> simp

/-- One call records the context with its first character removed whenever it
records the context. -/
theorem seen_block_tail (h : List Nat) (hl : h.length = MAX_ORDER) (hnz : ∀ b ∈ h, b ≠ 0)
    (c : Nat) (ctx : List Nat) :
    seen ((contexts h).map (fun x => (x, c))) ctx ≤
      seen ((contexts h).map (fun x => (x, c))) ctx.tail := by
  have hnd := contexts_nodup h hl hnz
  by_cases hm : ctx ∈ contexts h
  · rw [seen_map_of_mem _ c ctx hnd hm,
      seen_map_of_mem _ c ctx.tail hnd (tail_mem_contexts h hl hnz ctx hm)]
  · rw [seen_map_of_not_mem _ c ctx hm]
    exact Nat.zero_le _

theorem hits_block_tail (h : List Nat) (hl : h.length = MAX_ORDER) (hnz : ∀ b ∈ h, b ≠ 0)
    (c c2 : Nat) (ctx : List Nat) :
    hits (fun x y => decide (x = ctx) && decide (y = c2)) ((contexts h).map (fun x => (x, c))) ≤
      hits (fun x y => decide (x = ctx.tail) && decide (y = c2))
        ((contexts h).map (fun x => (x, c))) := by
  by_cases hc : c = c2
  · subst hc
    rw [hits_key_map, hits_key_map]
    exact seen_block_tail h hl hnz c ctx
  · rw [hits_key_zero _ ctx c2 (by
      intro ev hev
      obtain ⟨x, _, rfl⟩ := List.mem_map.mp hev
      exact hc)]
    exact Nat.zero_le _

theorem seen_tail_run_events (steps : List Step) (h : List Nat) (hl : h.length = MAX_ORDER)
    (hnz : ∀ b ∈ h, b ≠ 0) (hcs : ∀ c ∈ fed steps, c ≠ 0) (ctx : List Nat) :
    seen (run_events h steps) ctx ≤ seen (run_events h steps) ctx.tail := by
  induction steps generalizing h with
  | nil => exact Nat.le_refl _
  | cons a ss ih =>
    cases a with
    | update c pick =>
      rw [run_events, seen_append, seen_append]
      have h1 := seen_block_tail h hl hnz c ctx
      have h2 := ih (slide h c) (slide_length h c hl)
        (slide_nonzero h c hl hnz (hcs c (by rw [fed]; exact List.mem_cons_self _ _)))
        (fun x hx => hcs x (by rw [fed]; exact List.mem_cons_of_mem _ hx))
      omega
    | reset =>
      rw [run_events]
      exact ih _ rfl init_nonzero hcs

theorem hits_tail_run_events (steps : List Step) (h : List Nat) (hl : h.length = MAX_ORDER)
    (hnz : ∀ b ∈ h, b ≠ 0) (hcs : ∀ c ∈ fed steps, c ≠ 0) (ctx : List Nat) (c2 : Nat) :
    hits (fun x y => decide (x = ctx) && decide (y = c2)) (run_events h steps) ≤
      hits (fun x y => decide (x = ctx.tail) && decide (y = c2)) (run_events h steps) := by
  induction steps generalizing h with
  | nil => exact Nat.le_refl _
  | cons a ss ih =>
    cases a with
    | update c pick =>
      rw [run_events, hits_append, hits_append]
      have h1 := hits_block_tail h hl hnz c c2 ctx
      have h2 := ih (slide h c) (slide_length h c hl)
        (slide_nonzero h c hl hnz (hcs c (by rw [fed]; exact List.mem_cons_self _ _)))
        (fun x hx => hcs x (by rw [fed]; exact List.mem_cons_of_mem _ hx))
      omega
    | reset =>
      rw [run_events]
      exact ih _ rfl init_nonzero hcs

theorem seen_drop_run_events (steps : List Step) (hcs : ∀ c ∈ fed steps, c ≠ 0)
    (ctx : List Nat) (j : Nat) :
    seen (run_events [32, 32, 32, 32] steps) ctx ≤
      seen (run_events [32, 32, 32, 32] steps) (ctx.drop j) := by
  induction j with
  | zero => exact Nat.le_refl _
  | succ j ih =>
    have h := seen_tail_run_events steps [32, 32, 32, 32] rfl init_nonzero hcs (ctx.drop j)
    rw [List.tail_drop] at h
    omega

/-- Events of the context "a" in a sequence of calls `update_model('a')` that starts
with a history ending in 'a': one per call. -/
theorem seen_a_replicate (n : Nat) (h : List Nat) (picks : Nat → Pick)
    (hl : h.length = MAX_ORDER) (hnz : ∀ b ∈ h, b ≠ 0) (hlast : h.drop 3 = [97]) :
    seen (run_events h (update_steps (List.replicate n 97) picks)) [97] = n := by
  induction n generalizing h picks with
  | zero => rfl
  | succ n ih =>
    rw [List.replicate_succ, update_steps, run_events, seen_append,
      seen_map_of_mem _ 97 [97] (contexts_nodup h hl hnz)
        (by rw [← hlast]; exact drop_mem_contexts h hl hnz 1 (by decide)),
      ih (slide h 97) _ (slide_length h 97 hl) (slide_nonzero h 97 hl hnz (by decide))
        (by
          obtain ⟨a, b, c, d, rfl⟩ := list_len_four h hl
          rfl)]
    omega

/-- The total of "a" after `n + 1` calls `update_model('a')` from the initial model is
`n` modulo `2 ^ 32`. -/
theorem total_a_replicate (n : Nat) (picks : Nat → Pick) (hn : 0 < n) :
    total_for (run (init_model empty_model)
        (update_steps (List.replicate (n + 1) 97) picks)) [97] = some (n % U32_MOD) := by
  have hs : seen (run_events [32, 32, 32, 32]
      (update_steps (List.replicate (n + 1) 97) picks)) [97] = n := by
    rw [List.replicate_succ, update_steps, run_events, seen_append,
      seen_map_of_not_mem _ 97 [97] (by decide)]
    have e : slide [32, 32, 32, 32] 97 = [32, 32, 32, 97] := rfl
    rw [e, seen_a_replicate n [32, 32, 32, 97] _ rfl (by decide) rfl]
    omega
  rw [total_run, hs, if_neg (by omega)]

/-! ## Event accounting -/

theorem sumT_cons (p : List Nat → Bool) (t : TotalEntry) (ts : List TotalEntry) :
    sumT p (t :: ts) = (if p t.context = true then t.total else 0) + sumT p ts := by
  unfold sumT
  by_cases h : p t.context = true
  · simp [List.filter_cons, h]
  · simp [List.filter_cons, h]

theorem tot_cons (t : TotalEntry) (ts : List TotalEntry) (ctx : List Nat) :
    tot (t :: ts) ctx = if t.context = ctx then some t.total else tot ts ctx := by
  unfold tot HASH_FIND_STR
  by_cases h : t.context = ctx
  · simp [List.find?_cons, h]
  · simp [List.find?_cons, h]

/-- The "Update total" block adds one to the sum of the totals selected by `p` when
`p` selects the context, provided the total found is not `2 ^ 32 - 1`. -/
theorem sumT_update_total (p : List Nat → Bool) (tbl : List TotalEntry) (ctx : List Nat)
    (hb : ∀ t, tot tbl ctx = some t → t + 1 < U32_MOD) :
    sumT p (update_total tbl ctx) = sumT p tbl + (if p ctx = true then 1 else 0) := by
  induction tbl with
  | nil =>
    rw [update_total_nil, sumT_cons]
    exact Nat.add_comm _ _
  | cons t ts ih =>
    rw [update_total_cons]
    by_cases h : t.context = ctx
    · have h1 := hb t.total (by rw [tot_cons, if_pos h])
      rw [if_pos h, sumT_cons, sumT_cons]
      simp only [h]
      rw [Nat.mod_eq_of_lt h1]
      by_cases hp : p ctx = true
      · rw [if_pos hp, if_pos hp, if_pos hp]; omega
      · rw [if_neg hp, if_neg hp, if_neg hp]; omega
    · rw [if_neg h, sumT_cons, sumT_cons, ih (by
        intro x hx
        exact hb x (by rw [tot_cons, if_neg h]; exact hx))]
      omega

theorem sumT_fold (p : List Nat → Bool) (cx : Nat → List Nat) (ks : List Nat)
    (tbl : List TotalEntry) (hnd : (ks.map cx).Nodup)
    (hb : ∀ ctx ∈ ks.map cx, ∀ t, tot tbl ctx = some t → t + 1 < U32_MOD) :
    sumT p (ks.foldl (fun t k => update_total t (cx k)) tbl) =
      sumT p tbl + (ks.map cx).countP p := by
  induction ks generalizing tbl with
  | nil => rfl
  | cons k ks ih =>
    rw [List.map_cons, List.nodup_cons] at hnd
    rw [List.foldl_cons, ih _ hnd.2 (by
      intro ctx hctx t ht
      have hne : ctx ≠ cx k := fun e => hnd.1 (e ▸ hctx)
      rw [tot_update_total, if_neg hne] at ht
      exact hb ctx (by rw [List.map_cons]; exact List.mem_cons_of_mem _ hctx) t ht),
      sumT_update_total p tbl (cx k) (hb (cx k) (by rw [List.map_cons]; exact List.mem_cons_self _ _)),
      List.map_cons, List.countP_cons]
    omega

theorem countP_length_contexts (h : List Nat) (hl : h.length = MAX_ORDER)
    (hnz : ∀ b ∈ h, b ≠ 0) (k : Nat) (hk : k ≤ MAX_ORDER) :
    (contexts h).countP (fun x => decide (x.length = k)) = 1 := by
  obtain ⟨a, b, c, d, rfl⟩ := list_len_four h hl
  rw [contexts_four a b c d (hnz a (by simp)) (hnz b (by simp)) (hnz c (by simp))
    (hnz d (by simp))]
  have hk4 : k ≤ 4 := hk
  interval_cases k <;> rfl

/-- One call adds one to the sum of the totals of the contexts of each length
`k ≤ MAX_ORDER`, in a state accounted for by fewer than `2 ^ 32 - 1` events. -/
theorem order_sum_update (n : Nat) (m : Model) (ch : Nat) (pick : Pick) (hg : Good n m)
    (hn : n + 1 < U32_MOD) (k : Nat) (hk : k ≤ MAX_ORDER) :
    order_sum (update_model m ch pick) k = order_sum m k + 1 := by
  unfold order_sum
  rw [update_model_total_table, sumT_fold _ _ _ _ (contexts_nodup m.history hg.1 hg.2.1) (by
    intro ctx _ t ht
    have := Good_total_le n m hg ctx t ht
    omega)]
  have h := countP_length_contexts m.history hg.1 hg.2.1 k hk
  unfold contexts at h
  rw [h]

theorem order_sum_run (steps : List Step) (n : Nat) (m : Model) (hg : Good n m)
    (hcs : ∀ c ∈ fed steps, c ≠ 0) (hn : n + (fed steps).length < U32_MOD) (k : Nat)
    (hk : k ≤ MAX_ORDER) :
    order_sum (run m steps) k = order_sum m k + (fed steps).length := by
  induction steps generalizing n m with
  | nil => rfl
  | cons a ss ih =>
    cases a with
    | update ch pick =>
      rw [fed, List.length_cons] at hn ⊢
      have hch : ch ≠ 0 := hcs ch (by rw [fed]; exact List.mem_cons_self _ _)
      rw [run_cons_update, ih (n + 1) (update_model m ch pick)
        (Good_update n m ch pick hg hch (by omega))
        (fun c hc => hcs c (by rw [fed]; exact List.mem_cons_of_mem _ hc)) (by omega),
        order_sum_update n m ch pick hg (by omega) k hk]
      omega
    | reset =>
      rw [run_cons_reset, fed]
      exact ih n (init_model m) (Good_reset n m hg) hcs hn

theorem total_nil_run (steps : List Step) (hcs : ∀ c ∈ fed steps, c ≠ 0)
    (hlen : (fed steps).length < U32_MOD) :
    (total_for (run (init_model empty_model) steps) []).getD 0 = (fed steps).length := by
  rw [total_run, seen_nil_run_events steps [32, 32, 32, 32] rfl init_nonzero hcs]
  by_cases h0 : (fed steps).length = 0
  · rw [if_pos h0, h0]; rfl
  · rw [if_neg h0, Nat.mod_eq_of_lt hlen]; rfl

theorem accepted_chars_nonzero (s : List Int) : ∀ c ∈ accepted_chars s, c ≠ 0 := by
  intro c hc
  unfold accepted_chars at hc
  obtain ⟨x, hx, rfl⟩ := List.mem_map.mp hc
  have := accepted_range s x hx
  unfold toU8
  omega

/-! ## The sampler as a state transformer: frame and dependence -/

/-- The state transformer returns the character of `sample_orders` and the state it
was given with the `rand()` cursor moved to where `sample_orders` leaves it. -/
theorem sample_orders_st_eq (esc : Nat → Nat → Nat → Bool) (n : Nat) (w : World) :
    sample_orders_st esc n w =
      ((sample_orders esc w.model w.rnd n w.pos).1.char,
        { w with pos := (sample_orders esc w.model w.rnd n w.pos).2 }) := by
  induction n generalizing w with
  | zero => rfl
  | succ order ih =>
    rw [sample_orders_st, sample_orders]
    cases hf : HASH_FIND_STR w.model.total_table (get_context_str w.model.history order) with
    | none => simp only; exact ih w
    | some t =>
      simp only
      by_cases hz : t.total = 0
      · rw [if_pos hz, if_pos hz]; exact ih w
      · rw [if_neg hz, if_neg hz]
        by_cases ho : order > 0
        · simp only [ho, if_true, true_and, rand]
          by_cases he : esc order t.total (w.rnd w.pos) = true
          · rw [if_pos he, if_pos he]
            exact ih _
          · rw [if_neg he, if_neg he]
            cases hw : sample_walk w.model.count_table (get_context_str w.model.history order)
                (w.rnd (w.pos + 1) % t.total) 0 with
            | some c => rfl
            | none => exact ih _
        · simp only [ho, if_false, false_and, rand]
          cases hw : sample_walk w.model.count_table (get_context_str w.model.history order)
              (w.rnd w.pos % t.total) 0 with
          | some c => rfl
          | none => exact ih _

/-- Reading a stream `d` values further on is reading the shifted stream. -/
theorem sample_orders_shift (esc : Nat → Nat → Nat → Bool) (m : Model) (rnd : Nat → Nat)
    (d n p : Nat) :
    sample_orders esc m rnd n (p + d) =
      ((sample_orders esc m (fun i => rnd (i + d)) n p).1,
        (sample_orders esc m (fun i => rnd (i + d)) n p).2 + d) := by
  induction n generalizing p with
  | zero =>
    simp only [sample_orders]
    rw [Nat.add_right_comm]
  | succ order ih =>
    have e1 : p + d + 1 = p + 1 + d := Nat.add_right_comm p d 1
    have e2 : p + d + 1 + 1 = p + 1 + 1 + d := by omega
    rw [sample_orders, sample_orders]
    cases hf : HASH_FIND_STR m.total_table (get_context_str m.history order) with
    | none => simp only; exact ih p
    | some t =>
      simp only
      by_cases hz : t.total = 0
      · rw [if_pos hz, if_pos hz]; exact ih p
      · rw [if_neg hz, if_neg hz]
        by_cases he : order > 0 ∧ esc order t.total (rnd (p + d)) = true
        · rw [if_pos he, if_pos he, e1]; exact ih (p + 1)
        · rw [if_neg he, if_neg he]
          by_cases ho : order > 0
          · simp only [ho, if_true, e1]
            cases hw : sample_walk m.count_table (get_context_str m.history order)
                (rnd (p + 1 + d) % t.total) 0 with
            | some c => simp only; rw [← e1, e2]
            | none => simp only; rw [← e1, e2]; exact ih (p + 1 + 1)
          · simp only [ho, if_false]
            cases hw : sample_walk m.count_table (get_context_str m.history order)
                (rnd (p + d) % t.total) 0 with
            | some c => simp only; rw [e1]
            | none => simp only; rw [e1]; exact ih (p + 1)

/-- Two runs of the loop over `n` orders on the same tables and history, whose
`rand()` calls return the same `2 * n + 1` values from their cursors on, give the same
result and read the same number of values, between 1 and `2 * n + 1`. -/
theorem sample_orders_two (esc : Nat → Nat → Nat → Bool) (m : Model)
    (rnd1 rnd2 : Nat → Nat) (n p1 p2 : Nat)
    (h : ∀ i, i < 2 * n + 1 → rnd1 (p1 + i) = rnd2 (p2 + i)) :
    ∃ k, 1 ≤ k ∧ k ≤ 2 * n + 1 ∧
      (sample_orders esc m rnd1 n p1).2 = p1 + k ∧
      (sample_orders esc m rnd2 n p2).2 = p2 + k ∧
      (sample_orders esc m rnd1 n p1).1 = (sample_orders esc m rnd2 n p2).1 := by
  have hw := sample_orders_window esc m (fun i => rnd1 (i + p1)) (fun i => rnd2 (i + p2)) n 0
    (fun i hi => by
      have := h i hi
      simp only [Nat.zero_add]
      rwa [Nat.add_comm i p1, Nat.add_comm i p2])
  have s1 := sample_orders_shift esc m rnd1 p1 n 0
  have s2 := sample_orders_shift esc m rnd2 p2 n 0
  rw [Nat.zero_add] at s1 s2
  refine ⟨(sample_orders esc m (fun i => rnd1 (i + p1)) n 0).2, by omega, by omega, ?_, ?_, ?_⟩
  · rw [s1]; exact Nat.add_comm _ _
  · rw [s2, hw.1]; exact Nat.add_comm _ _
  · rw [s1, s2, hw.1]

/-! ## Rounding to binary64 and the escape probability -/

/-- C1 (as stated, refuted): after `2 ^ 32` calls `update_model('a')` from the initial
model with no lookup ever matching, the context "" has a `TotalEntry` whose total has
wrapped to 0, while the counts of its `CountEntry` records sum to `2 ^ 32`. -/
theorem C1_total_wraps :
    total_for (run (init_model empty_model)
        (update_steps (List.replicate 4294967296 97) missAll)) [] = some 0 ∧
      ctxSum (run (init_model empty_model)
        (update_steps (List.replicate 4294967296 97) missAll)).count_table [] = 4294967296 := by
  have hs : seen (evs [32, 32, 32, 32] (List.replicate 4294967296 97)) [] = 4294967296 := by
    rw [seen_nil_evs (List.replicate 4294967296 97) [32, 32, 32, 32] rfl
      (by intro b hb; simp at hb; omega)
      (by intro c hc; rw [List.eq_of_mem_replicate hc]; omega), List.length_replicate]
  rw [run_update_steps]
  constructor
  · rw [run_total, hs]
    rfl
  · have h := run_counts_miss (List.replicate 4294967296 97) (fun x _ => decide (x = []))
    exact h.trans hs

/-- C1 (amended): from the initial model, after any sequence of `update_model` calls
(and of history resets by `generate_response`): no `CountEntry` is without a
`TotalEntry` for its context; the total of every context that has a `TotalEntry` is
the sum of the counts of the `CountEntry` records of that context modulo `2 ^ 32`;
and the two are equal when the calls are fewer than `2 ^ 32` and on non-NUL
characters. -/
theorem C1_count_total_invariant (steps : List Step) :
    (∀ e ∈ (run (init_model empty_model) steps).count_table,
        (total_for (run (init_model empty_model) steps) e.context).isSome = true) ∧
      (∀ ctx t, total_for (run (init_model empty_model) steps) ctx = some t →
        t = ctxSum (run (init_model empty_model) steps).count_table ctx % U32_MOD) ∧
      ((∀ c ∈ fed steps, c ≠ 0) → (fed steps).length < U32_MOD →
        ∀ ctx t, total_for (run (init_model empty_model) steps) ctx = some t →
          t = ctxSum (run (init_model empty_model) steps).count_table ctx) := by
  refine ⟨?_, ?_, ?_⟩
  · exact NoOrphan_run steps (init_model empty_model)
      (by intro e he; simp [init_model, empty_model] at he)
  · exact Acct_total _ (Acct_run steps _ Acct_init)
  · intro hcs hlen ctx t ht
    have hg := Good_run steps 0 (init_model empty_model) Good_init hcs (by omega)
    rw [Nat.zero_add] at hg
    exact Good_total _ _ hg hlen ctx t ht

/-- C1 (amended), at an instance: the calls `update_model` on 'a', 'a', 'b', 'c' from
the initial model, no lookup matching. -/
theorem C1_count_total_invariant_witness :
    (∀ c ∈ fed (update_steps (codes "aabc") missAll), c ≠ 0) ∧
      (fed (update_steps (codes "aabc") missAll)).length < U32_MOD ∧
      ∀ ctx t, total_for (run (init_model empty_model)
          (update_steps (codes "aabc") missAll)) ctx = some t →
        t = ctxSum (run (init_model empty_model)
          (update_steps (codes "aabc") missAll)).count_table ctx :=
  ⟨by decide, by decide,
    (C1_count_total_invariant (update_steps (codes "aabc") missAll)).2.2 (by decide)
      (by decide)⟩

/-- C2 (as stated, refuted): in the state `saturated` the total of the context "" is
`2 ^ 32 - 1`; after `update_model('a')` it is 0 and not `2 ^ 32`, and when the lookup
returns the entry of ("", 'a') its accumulated count falls from `2 ^ 32 - 1` to 0. The
same happens to the total in the state reached from the initial model by
`2 ^ 32 - 1` calls `update_model('a')`. And on the zero-filled history of program
start every order yields the context "", whose accumulated count for 'a' and total
go from nothing to 5 in one call. -/
theorem C2_saturated_counter_wraps :
    (total_for saturated [] = some 4294967295 ∧
      total_for (update_model saturated 97 (missAll 0)) [] = some 0 ∧
      accCount saturated.count_table [] 97 = 4294967295 ∧
      accCount (update_model saturated 97 (fun _ => some 0)).count_table [] 97 = 0) ∧
    (total_for (run (init_model empty_model)
        (update_steps (List.replicate 4294967295 97) missAll)) [] = some 4294967295 ∧
      total_for (update_model
        (run (init_model empty_model) (update_steps (List.replicate 4294967295 97) missAll))
        97 (missAll 0)) [] = some 0) ∧
    (total_for empty_model [] = none ∧
      accCount empty_model.count_table [] 97 = 0 ∧
      total_for (update_model empty_model 97 (missAll 0)) [] = some 5 ∧
      accCount (update_model empty_model 97 (missAll 0)).count_table [] 97 = 5) := by
  rw [run_update_steps]
  refine ⟨by decide, ⟨?_, ?_⟩, by decide⟩
  · rw [run_total, seen_nil_evs (List.replicate 4294967295 97) [32, 32, 32, 32] rfl
      (by intro b hb; simp at hb; omega)
      (by intro c hc; rw [List.eq_of_mem_replicate hc]; omega), List.length_replicate]
    rfl
  · have h0 := TAgree_updates (List.replicate 4294967295 97) (init_model empty_model) missAll
      [] TAgree_nil
    have h1 := TAgree_update_model _ 97 (missAll 0) _ h0 []
    have hr : ∀ c ∈ List.replicate 4294967295 97, c ≠ 0 := by
      intro c hc; rw [List.eq_of_mem_replicate hc]; omega
    have h2 : seen (evs (init_model empty_model).history (List.replicate 4294967295 97)) []
        = 4294967295 := by
      rw [seen_nil_evs (List.replicate 4294967295 97) (init_model empty_model).history rfl
        init_nonzero hr, List.length_replicate]
    have hok := updates_history_ok (List.replicate 4294967295 97) (init_model empty_model)
      missAll rfl init_nonzero hr
    rw [List.nil_append, seen_append, h2,
      seen_map_of_mem _ 97 [] (contexts_nodup _ hok.1 hok.2) (nil_mem_contexts _)] at h1
    exact h1

/-- C2 (amended): for every state whose history holds `MAX_ORDER` non-NUL characters
and every character `ch`, provided no counter recorded for a trailing substring of
the history (a count for `ch`, or a total) is at the largest `U32` value, after
`update_model(ch)` each context made of the last `k` characters of the pre-update
history, `k` in `0..MAX_ORDER`, has its accumulated count for `ch` increased by
exactly 1 and its total increased by exactly 1 (it is 1 when there was none). -/
theorem C2_update_effect (m : Model) (ch : Nat) (pick : Pick)
    (hl : m.history.length = MAX_ORDER) (hnz : ∀ b ∈ m.history, b ≠ 0)
    (hc : ∀ e ∈ m.count_table, e.context <:+ m.history → e.next_char = ch →
      e.count + 1 < U32_MOD)
    (ht : ∀ t ∈ m.total_table, t.context <:+ m.history → t.total + 1 < U32_MOD)
    (k : Nat) (hk : k ≤ MAX_ORDER) :
    accCount (update_model m ch pick).count_table (m.history.drop (MAX_ORDER - k)) ch =
        accCount m.count_table (m.history.drop (MAX_ORDER - k)) ch + 1 ∧
      total_for (update_model m ch pick) (m.history.drop (MAX_ORDER - k)) =
        some ((total_for m (m.history.drop (MAX_ORDER - k))).getD 0 + 1) := by
  have hnd := contexts_nodup m.history hl hnz
  have hmem := drop_mem_contexts m.history hl hnz k hk
  constructor
  · unfold accCount
    rw [sumBy_update_model _ m ch pick hl hnz, hits_key_map, seen_map_of_mem _ _ _ hnd hmem]
    intro e he hctx hn
    exact hc e he (mem_contexts_suffix m.history hl hnz _ hctx) hn
  · have h1 : total_for (update_model m ch pick) (m.history.drop (MAX_ORDER - k)) =
        tot (update_model m ch pick).total_table (m.history.drop (MAX_ORDER - k)) := rfl
    have h2 : total_for m (m.history.drop (MAX_ORDER - k)) =
        tot m.total_table (m.history.drop (MAX_ORDER - k)) := rfl
    rw [h1, h2, update_model_total_table, tot_fold_of_mem _ _ _ _ hnd hmem]
    cases hq : tot m.total_table (m.history.drop (MAX_ORDER - k)) with
    | none => rfl
    | some t =>
      obtain ⟨x, hx, hxc, hxt⟩ := tot_some_mem _ _ _ hq
      have := ht x hx (hxc ▸ List.drop_suffix _ _)
      simp only [Option.getD_some]
      rw [Nat.mod_eq_of_lt (by omega)]

/-- C2 (amended), at an instance: `update_model('b')` in the state reached from the
initial model by `update_model('a')`, at order 1. -/
theorem C2_update_effect_witness :
    accCount (update_model (update_model (init_model empty_model) 97 (missAll 0)) 98
        (missAll 0)).count_table [97] 98 = 0 + 1 ∧
      total_for (update_model (update_model (init_model empty_model) 97 (missAll 0)) 98
        (missAll 0)) [97] = some (0 + 1) :=
  C2_update_effect (update_model (init_model empty_model) 97 (missAll 0)) 98 (missAll 0)
    (by decide) (by decide) (by decide) (by decide) 1 (by decide)

/-- C3: in a state where the total `T` of a context equals the sum of the counts of
its entries (with `T > 0` a `U32` value), the cumulative walk returns a character
for every draw `r < T`; for every character `c` the number of draws `r` in `[0, T)`
for which it returns `c` is the accumulated count of `(ctx, c)`; that number is the
same for every enumeration order of the table; and when `sample_character` reaches
an order with that context and does not escape, it returns the character the walk
gives for `r = rand() % T`. -/
theorem C3_proportional_sampling (m : Model) (ctx : List Nat) (T : Nat)
    (hT : total_for m ctx = some T) (hinv : T = ctxSum m.count_table ctx)
    (hpos : 0 < T) (hu : T < U32_MOD) :
    (∀ r, r < T → ∃ c, sample_walk m.count_table ctx r 0 = some c) ∧
    (∀ c, (List.range T).countP
        (fun r => decide (sample_walk m.count_table ctx r 0 = some c)) =
      accCount m.count_table ctx c) ∧
    (∀ tbl c, tbl.Perm m.count_table →
      (List.range T).countP (fun r => decide (sample_walk tbl ctx r 0 = some c)) =
        (List.range T).countP
          (fun r => decide (sample_walk m.count_table ctx r 0 = some c))) ∧
    (∀ esc rnd pos order, get_context_str m.history order = ctx →
      ¬ (order > 0 ∧ esc order T (rnd pos) = true) →
      ∃ c, sample_walk m.count_table ctx
          (rnd (if order > 0 then pos + 1 else pos) % T) 0 = some c ∧
        sample_orders esc m rnd (order + 1) pos =
          (.walk order c, (if order > 0 then pos + 1 else pos) + 1)) := by
  have hsome : ∀ r, r < T → ∃ c, sample_walk m.count_table ctx r 0 = some c := by
    intro r hr
    have := walk_some m.count_table ctx 0 r (by omega) (by omega)
    rwa [Nat.zero_add] at this
  have hcount : ∀ tbl c, ctxSum tbl ctx = T →
      (List.range T).countP (fun r => decide (sample_walk tbl ctx r 0 = some c)) =
        accCount tbl ctx c := by
    intro tbl c hs
    have := walk_count tbl ctx c 0 (by omega)
    rw [hs] at this
    rw [← this]
    apply List.countP_congr
    intro r _
    rw [Nat.zero_add]
  refine ⟨hsome, fun c => hcount _ c hinv.symm, ?_, ?_⟩
  · intro tbl c hp
    rw [hcount tbl c ((sumBy_perm _ _ _ hp).trans hinv.symm), hcount _ c hinv.symm]
    exact sumBy_perm _ _ _ hp
  · intro esc rnd pos order hctx hesc
    obtain ⟨c, hc⟩ := hsome (rnd (if order > 0 then pos + 1 else pos) % T)
      (Nat.mod_lt _ hpos)
    refine ⟨c, hc, ?_⟩
    subst hctx
    exact sample_orders_commit esc m rnd order pos T c hT hpos hesc hc

/-- C3, at an instance: the context "" of the model trained on "aabc", total 4. -/
theorem C3_proportional_sampling_witness :
    (∀ r, r < 4 → ∃ c, sample_walk
        (updates (init_model empty_model) (codes "aabc") missAll).count_table [] r 0
          = some c) ∧
    (∀ c, (List.range 4).countP (fun r => decide (sample_walk
        (updates (init_model empty_model) (codes "aabc") missAll).count_table [] r 0
          = some c)) =
      accCount (updates (init_model empty_model) (codes "aabc") missAll).count_table [] c) :=
  have h := C3_proportional_sampling (updates (init_model empty_model) (codes "aabc") missAll)
    [] 4 (by decide) (by decide) (by decide) (by decide)
  ⟨h.1, h.2.1⟩

/-- C4: with both tables empty, for every history, every escape behaviour and every
sequence of random values, `sample_character` takes the fallback draw: the index
`rand() % 59` lies within the 59 characters of the fallback string and the character
returned is a member of that string. -/
theorem C4_empty_model_fallback (esc : Nat → Nat → Nat → Bool) (h : List Nat)
    (rnd : Nat → Nat) (pos : Nat) :
    fallback.length = 59 ∧
    rnd pos % 59 < fallback.length ∧
    sample_trace esc ⟨[], [], h⟩ rnd pos =
      (.alphabet (fallback.getD (rnd pos % 59) 0), pos + 1) ∧
    sample_character esc ⟨[], [], h⟩ rnd pos ∈ fallback := by
  have hlen : fallback.length = 59 := by decide
  have hlt : rnd pos % 59 < fallback.length := by
    rw [hlen]; exact Nat.mod_lt _ (by omega)
  have htr : sample_trace esc ⟨[], [], h⟩ rnd pos =
      (.alphabet (fallback.getD (rnd pos % 59) 0), pos + 1) := by
    unfold sample_trace
    rw [sample_orders_empty, hlen]
  refine ⟨hlen, hlt, htr, ?_⟩
  unfold sample_character
  rw [htr]
  simp only [Sampled.char]
  rw [List.getD_eq_getElem _ _ hlt]
  exact List.getElem_mem _

/-- C5: `normalize_char` returns its argument when it lies in `[32, 126]`, 32 (space)
for `\n` (10) and `\t` (9), and -1 for every other integer; a result other than -1
lies in `[32, 126]` and is returned unchanged when normalized again. -/
theorem C5_normalize_char (ch : Int) :
    normalize_char ch =
      (if 32 ≤ ch ∧ ch ≤ 126 then ch else if ch = 10 ∨ ch = 9 then 32 else -1) ∧
    (normalize_char ch = -1 ∨
      (32 ≤ normalize_char ch ∧ normalize_char ch ≤ 126 ∧
        normalize_char (normalize_char ch) = normalize_char ch)) := by
  refine ⟨normalize_char_spec ch, ?_⟩
  rcases normalize_char_range ch with h | h
  · left; exact h
  · right; exact ⟨h.1, h.2, normalize_accepted ch (by omega)⟩

/-- C6: training the initial model (history all spaces) on "aabc" gives, whatever the
lookups return: context "" has accumulated counts a:2, b:1, c:1, nothing for any
other character, and total 4; context "a" has a:1; context "aa" has b:1; context
"ab" has c:1. -/
theorem C6_scenario_aabc (picks : Nat → Pick) :
    accCount (trained "aabc" picks).count_table [] 97 = 2 ∧
    accCount (trained "aabc" picks).count_table [] 98 = 1 ∧
    accCount (trained "aabc" picks).count_table [] 99 = 1 ∧
    (∀ c, accCount (trained "aabc" picks).count_table [] c =
      if c = 97 then 2 else if c = 98 then 1 else if c = 99 then 1 else 0) ∧
    total_for (trained "aabc" picks) [] = some 4 ∧
    accCount (trained "aabc" picks).count_table (codes "a") 97 = 1 ∧
    accCount (trained "aabc" picks).count_table (codes "aa") 98 = 1 ∧
    accCount (trained "aabc" picks).count_table (codes "ab") 99 = 1 := by
  have hcs : ∀ c ∈ codes "aabc", c ≠ 0 := by decide
  have hlen : (codes "aabc").length < U32_MOD := by decide
  rw [trained_eq "aabc" (codes "aabc") picks (by decide)]
  have hacc : ∀ ctx c, accCount (updates (init_model empty_model) (codes "aabc")
      picks).count_table ctx c =
      hits (fun x y => decide (x = ctx) && decide (y = c)) (evs [32, 32, 32, 32] (codes "aabc")) :=
    fun ctx c => run_counts (codes "aabc") picks hcs hlen _
  have h97 := hacc [] 97
  have h98 := hacc [] 98
  have h99 := hacc [] 99
  refine ⟨h97.trans (by decide), h98.trans (by decide), h99.trans (by decide), ?_,
    ?_, (hacc _ _).trans (by decide), (hacc _ _).trans (by decide),
    (hacc _ _).trans (by decide)⟩
  · intro c
    by_cases h1 : c = 97
    · rw [h1, if_pos rfl]; exact h97.trans (by decide)
    · by_cases h2 : c = 98
      · rw [h2]; exact h98.trans (by decide)
      · by_cases h3 : c = 99
        · rw [h3]; exact h99.trans (by decide)
        · rw [if_neg h1, if_neg h2, if_neg h3, hacc, hits_key_zero]
          intro ev hev he
          have hm := evs_snd_mem _ _ ev hev
          rw [he] at hm
          have hcodes : codes "aabc" = [97, 97, 98, 99] := by decide
          rw [hcodes] at hm
          simp at hm
          omega
  · rw [run_total]
    decide

/-- C7: after training the initial model only on "xyxyxy" the history is "xyxy",
ending in "xy"; whatever the lookups returned during training, whenever the escape
draw of the first order examined does not escape (as when escaping is disabled),
`sample_character` returns 'x' from the order-4 context for every value of the draw
`r`, at every position of the random stream, hence on every repeated call from that
state. -/
theorem C7_scenario_xyxyxy (picks : Nat → Pick) (esc : Nat → Nat → Nat → Bool)
    (rnd : Nat → Nat) (pos : Nat) (hesc : esc 4 1 (rnd pos) = false) :
    (trained "xyxyxy" picks).history = codes "xyxy" ∧
    sample_trace esc (trained "xyxyxy" picks) rnd pos = (.walk 4 120, pos + 2) ∧
    sample_character esc (trained "xyxyxy" picks) rnd pos = 120 := by
  have hcs : ∀ c ∈ codes "xyxyxy", c ≠ 0 := by decide
  have hlen : (codes "xyxyxy").length < U32_MOD := by decide
  rw [trained_eq "xyxyxy" (codes "xyxyxy") picks (by decide)]
  have hh : (updates (init_model empty_model) (codes "xyxyxy") picks).history
      = codes "xyxy" := by
    rw [updates_history]
    decide
  have hctx : get_context_str
      (updates (init_model empty_model) (codes "xyxyxy") picks).history 4 = codes "xyxy" := by
    rw [hh]; decide
  have htot : total_for (updates (init_model empty_model) (codes "xyxyxy") picks)
      (codes "xyxy") = some 1 := by
    rw [run_total]
    decide
  have hsum : ctxSum (updates (init_model empty_model) (codes "xyxyxy") picks).count_table
      (codes "xyxy") = 1 :=
    (run_counts (codes "xyxyxy") picks hcs hlen _).trans (by decide)
  have hacc : accCount (updates (init_model empty_model) (codes "xyxyxy") picks).count_table
      (codes "xyxy") 120 = 1 :=
    (run_counts (codes "xyxyxy") picks hcs hlen _).trans (by decide)
  have hw := walk_single _ _ _ hsum hacc
  have htr : sample_trace esc (updates (init_model empty_model) (codes "xyxyxy") picks)
      rnd pos = (.walk 4 120, pos + 2) := by
    unfold sample_trace
    have := sample_orders_commit esc (updates (init_model empty_model) (codes "xyxyxy") picks)
      rnd 4 pos 1 120 (by rw [hctx]; exact htot) (by decide) (by simp [hesc])
      (by rw [hctx, Nat.mod_one]; exact hw)
    simpa using this
  refine ⟨hh, htr, ?_⟩
  unfold sample_character
  rw [htr]
  rfl

/-- C7, at an instance: escaping disabled, lookups never matching, random stream
`7, 8, 9, ...`. -/
theorem C7_scenario_xyxyxy_witness :
    sample_character (fun _ _ _ => false) (trained "xyxyxy" missAll) (fun i => i + 7) 0 = 120 ∧
      sample_character (fun _ _ _ => false) (trained "xyxyxy" missAll) (fun i => i + 7) 2 = 120 :=
  ⟨(C7_scenario_xyxyxy missAll (fun _ _ _ => false) (fun i => i + 7) 0 rfl).2.2,
    (C7_scenario_xyxyxy missAll (fun _ _ _ => false) (fun i => i + 7) 2 rfl).2.2⟩

/-- C8: for every byte stream `s` and every starting state, the byte loop of
`train_model` produces the same tables and history as the same loop run on the
accepted bytes of `s` only, each replaced by its normalized character, namely the
state reached by calling `update_model` on those characters in turn; the prompt loop
of `generate_response` does the same on the bytes of the prompt string; every
character handed to `update_model` is the normalized byte, in `[32, 126]`; and a
single byte leaves the state unchanged when it is rejected (otherwise it causes one
`update_model` call). -/
theorem C8_rejected_bytes (m : Model) (s : List Int) (picks : Nat → Pick) :
    train_model m s picks = train_model m (accepted s) picks ∧
    train_model m s picks = updates m (accepted_chars s) picks ∧
    feed_prompt m s picks = feed_prompt m (accepted (prompt_str s)) picks ∧
    feed_prompt m s picks = updates m (accepted_chars (prompt_str s)) picks ∧
    (∀ c ∈ accepted s, 32 ≤ c ∧ c ≤ 126 ∧ (toU8 c : Int) = c) ∧
    (∀ b, train_model m [b] picks =
      if normalize_char b < 0 then m
      else update_model m (toU8 (normalize_char b)) (picks 0)) ∧
    (∀ b, feed_prompt m [b] picks =
      if normalize_char b < 0 then m
      else update_model m (toU8 (normalize_char b)) (picks 0)) := by
  refine ⟨?_, train_model_eq_updates s m picks, ?_, feed_prompt_eq_updates s m picks,
    ?_, ?_, ?_⟩
  · rw [train_model_eq_updates, train_model_eq_updates]
    unfold accepted_chars
    rw [accepted_idem]
  · rw [feed_prompt_eq_updates, feed_prompt_eq_updates]
    unfold accepted_chars
    rw [prompt_str_accepted, accepted_idem]
  · intro c hc
    have h := accepted_range s c hc
    refine ⟨h.1, h.2, ?_⟩
    unfold toU8
    omega
  · intro b
    simp only [train_model]
  · intro b
    simp only [feed_prompt]
    by_cases hb : b = 0
    · subst hb
      rw [if_pos rfl, if_pos (by decide)]
    · rw [if_neg hb]
      by_cases h : normalize_char b < 0
      · rw [if_neg (by omega), if_pos h]
      · rw [if_pos (by omega), if_neg h]

/-- C9: for every history of length `MAX_ORDER` and every character `ch`, after
`update_model(ch)` the history has length `MAX_ORDER` and is the old history without
its first character, followed by `ch`; and both tables are those obtained by
recording, for the orders 0 to `MAX_ORDER` in turn, the string held by the last
`order` characters of the old history. -/
theorem C9_history_slide (m : Model) (ch : Nat) (pick : Pick)
    (hl : m.history.length = MAX_ORDER) :
    (update_model m ch pick).history.length = MAX_ORDER ∧
    (update_model m ch pick).history = m.history.drop 1 ++ [ch] ∧
    (update_model m ch pick).count_table =
      (List.range (MAX_ORDER + 1)).foldl
        (fun t k => update_count t (cstr (m.history.drop (MAX_ORDER - k))) ch (pick k))
        m.count_table ∧
    (update_model m ch pick).total_table =
      (List.range (MAX_ORDER + 1)).foldl
        (fun t k => update_total t (cstr (m.history.drop (MAX_ORDER - k)))) m.total_table := by
  refine ⟨?_, update_model_history m ch pick hl, ?_, ?_⟩
  · rw [update_model_slide]; exact slide_length _ _ hl
  · rw [update_model_count_table]
    apply foldl_congr_mem
    intro k hk t
    rw [get_context_str_eq m.history hl k (by have := List.mem_range.mp hk; omega)]
  · rw [update_model_total_table]
    apply foldl_congr_mem
    intro k hk t
    rw [get_context_str_eq m.history hl k (by have := List.mem_range.mp hk; omega)]

/-- C9, at an instance: `update_model('c')` on the history "  ab". -/
theorem C9_history_slide_witness :
    (codes "  ab").length = MAX_ORDER ∧
      (update_model ⟨[], [], codes "  ab"⟩ 99 (missAll 0)).history = codes " abc" ∧
      (update_model ⟨[], [], codes "  ab"⟩ 99 (missAll 0)).total_table =
        [⟨[], 1⟩, ⟨codes "b", 1⟩, ⟨codes "ab", 1⟩, ⟨codes " ab", 1⟩, ⟨codes "  ab", 1⟩] :=
  have h := C9_history_slide ⟨[], [], codes "  ab"⟩ 99 (missAll 0) (by decide)
  ⟨by decide, h.2.1.trans (by decide), h.2.2.2.trans (by decide)⟩

/-- C10 (as stated, refuted): in the state reached from the initial model by `2 ^ 32`
calls `update_model('a')`, the total of the order-0 context "" has wrapped to 0; with
the history "bbbb" no longer context has been seen, every order is passed over and
`sample_character` returns from the fallback draw (here 'e', for `rand() = 0`),
whether escaping is disabled or always taken. -/
theorem C10_fallback_after_wrap :
    sample_trace (fun _ _ _ => false)
        { run (init_model empty_model) (update_steps (List.replicate 4294967296 97) missAll)
          with history := codes "bbbb" } (fun _ => 0) 0 = (.alphabet 101, 1) ∧
      sample_trace (fun _ _ _ => true)
        { run (init_model empty_model) (update_steps (List.replicate 4294967296 97) missAll)
          with history := codes "bbbb" } (fun _ => 0) 0 = (.alphabet 101, 1) := by
  have hr : ∀ c ∈ List.replicate 4294967296 97, c ≠ 0 := by
    intro c hc; rw [List.eq_of_mem_replicate hc]; omega
  have hi : ∀ b ∈ [32, 32, 32, 32], b ≠ 0 := by
    intro b hb; simp at hb; omega
  rw [run_update_steps]
  have h0 : total_for (updates (init_model empty_model) (List.replicate 4294967296 97)
      missAll) [] = some 0 := by
    rw [run_total, seen_nil_evs (List.replicate 4294967296 97) [32, 32, 32, 32] rfl hi hr,
      List.length_replicate]
    rfl
  have hb : ∀ ctx, 98 ∈ ctx → total_for (updates (init_model empty_model)
      (List.replicate 4294967296 97) missAll) ctx = none := by
    intro ctx hctx
    rw [run_total, seen_zero_of_char (List.replicate 4294967296 97) [32, 32, 32, 32] rfl hi hr
      ctx 98 hctx (by simp)
      (by intro hm; have := List.eq_of_mem_replicate hm; omega)]
    rfl
  exact ⟨(sample_trace_bbbb _ _ _ 0 h0 hb).trans (by decide),
    (sample_trace_bbbb _ _ _ 0 h0 hb).trans (by decide)⟩

/-- C10 (amended): in every state reached from the initial model by at least one and
fewer than `2 ^ 32` calls of `update_model` on non-NUL characters (and any history
resets by `generate_response`), for every history, every escape behaviour and every
sequence of random values, `sample_character` does not reach the fallback draw: it
returns, from some order `k <= MAX_ORDER`, the `next_char` of a `CountEntry` whose
context is the context of order `k` of the current history, a trailing substring of
it when the history holds `MAX_ORDER` non-NUL characters. -/
theorem C10_no_fallback_once_trained (steps : List Step)
    (hne : fed steps ≠ []) (hcs : ∀ c ∈ fed steps, c ≠ 0)
    (hlen : (fed steps).length < U32_MOD)
    (h : List Nat) (esc : Nat → Nat → Nat → Bool) (rnd : Nat → Nat) (pos : Nat) :
    ∃ k e, k ≤ MAX_ORDER ∧
      e ∈ (run (init_model empty_model) steps).count_table ∧
      (sample_trace esc { run (init_model empty_model) steps with history := h } rnd pos).1
        = .walk k e.next_char ∧
      sample_character esc { run (init_model empty_model) steps with history := h }
        rnd pos = e.next_char ∧
      e.context = get_context_str h k ∧
      (h.length = MAX_ORDER → (∀ b ∈ h, b ≠ 0) → e.context <:+ h) := by
  have hg := Good_run steps 0 (init_model empty_model) Good_init hcs (by omega)
  rw [Nat.zero_add] at hg
  have hpos : 0 < (fed steps).length := List.length_pos.mpr hne
  have hT0 : total_for (run (init_model empty_model) steps) [] = some (fed steps).length :=
    Good_total_nil _ _ hg hlen hpos
  have hT : total_for { run (init_model empty_model) steps with history := h } []
      = some (fed steps).length := hT0
  have hsum : (fed steps).length = ctxSum (run (init_model empty_model) steps).count_table [] :=
    Good_total _ _ hg hlen [] _ hT0
  obtain ⟨k, c, hk, htr, e, hmem, hc, hctx⟩ := sample_orders_walk esc
    { run (init_model empty_model) steps with history := h } rnd (fed steps).length hT hpos
    hsum hlen (MAX_ORDER + 1) pos (by decide)
  refine ⟨k, e, by omega, hmem, ?_, ?_, hctx, ?_⟩
  · unfold sample_trace
    rw [hc]
    exact htr
  · unfold sample_character sample_trace
    rw [htr, hc]
    rfl
  · intro hl hnz
    rw [hctx]
    exact mem_contexts_suffix h hl hnz _ (List.mem_map.mpr ⟨k, List.mem_range.mpr hk, rfl⟩)

/-- C10 (amended), at an instance: after `update_model` on 'a', 'a', 'b', 'c' from the
initial model, sampled on the history "zzzz" with escaping always taken. -/
theorem C10_no_fallback_once_trained_witness :
    ∃ k e, k ≤ MAX_ORDER ∧
      e ∈ (run (init_model empty_model) (update_steps (codes "aabc") missAll)).count_table ∧
      sample_character (fun _ _ _ => true)
        { run (init_model empty_model) (update_steps (codes "aabc") missAll) with
          history := codes "zzzz" } (fun i => i) 0 = e.next_char :=
  have ⟨k, e, hk, he, _, hc, _⟩ := C10_no_fallback_once_trained
    (update_steps (codes "aabc") missAll)
    (by decide) (by decide) (by decide) (codes "zzzz") (fun _ _ _ => true) (fun i => i) 0
  ⟨k, e, hk, he, hc⟩

/-- C11: in every state the program passes through from `init_model` (bytes fed
through `normalize_char` and `update_model` by `train_model` and the prompt loop,
history resets, sampled characters fed back through `update_model`), every character
of the history lies in `[32, 126]`, every character returned by `sample_character`
lies in `[32, 126]` for every escape behaviour and random sequence, and the sampling
loop of `generate_response` started there never takes the `continue` of its range
check and ends in such a state again. -/
theorem C11_output_range (m : Model) (h : Reach m) :
    (∀ b ∈ m.history, 32 ≤ b ∧ b ≤ 126) ∧
    (∀ esc rnd pos, 32 ≤ sample_character esc m rnd pos ∧
      sample_character esc m rnd pos ≤ 126) ∧
    (∀ esc rnd picks fuel pos,
      (gen_loop esc rnd picks fuel (gen_start m pos)).1.skipped = 0 ∧
        Reach (gen_loop esc rnd picks fuel (gen_start m pos)).1.model) ∧
    (∀ esc rnd picks1 picks2 prompt pos,
      (generate_response esc rnd picks1 picks2 m prompt pos).1.skipped = 0 ∧
        Reach (generate_response esc rnd picks1 picks2 m prompt pos).1.model) := by
  have hi := Reach_InRange m h
  refine ⟨hi.2.1, fun esc rnd pos => sample_in_range esc m rnd pos hi, ?_, ?_⟩
  · intro esc rnd picks fuel pos
    exact ⟨(gen_loop_in_range esc rnd picks fuel (gen_start m pos) hi).1,
      Reach_gen_loop esc rnd picks fuel (gen_start m pos) h⟩
  · intro esc rnd picks1 picks2 prompt pos
    have hp : Reach (feed_prompt (init_model m) prompt picks1) :=
      Reach_feed_prompt prompt _ picks1 (Reach.reset m h)
    unfold generate_response
    exact ⟨(gen_loop_in_range esc rnd picks2 500 _ (Reach_InRange _ hp)).1,
      Reach_gen_loop esc rnd picks2 500 _ hp⟩

/-- C11, at an instance: the model trained on "hello. ", sampled with escaping always
taken on the random stream `0, 1, 2, ...`. -/
theorem C11_output_range_witness :
    32 ≤ sample_character (fun _ _ _ => true) (trained "hello. " missAll) (fun i => i) 0 ∧
      sample_character (fun _ _ _ => true) (trained "hello. " missAll) (fun i => i) 0 ≤ 126 :=
  (C11_output_range (trained "hello. " missAll)
    (Reach_train_model _ _ _ Reach.init)).2.1 (fun _ _ _ => true) (fun i => i) 0

/-- C12: `sample_character`, run as a transformer of the program state (the three
globals and the state of `rand()`), in two states with the same history, the same
count table and the same total table (entries in the same order) whose `rand()` calls
return the same values (the next `2 * (MAX_ORDER + 1) + 1` suffice, wherever the two
streams stand and whatever they hold elsewhere), returns the same character after the
same number of `rand()` calls, between 1 and `2 * (MAX_ORDER + 1) + 1`; and the state
it leaves has the history, the count table and the total table of the state it started
in, only the `rand()` cursor having moved. The character is the one the function
`sample_character` of the other properties gives. -/
theorem C12_sampler_deterministic (esc : Nat → Nat → Nat → Bool) (w1 w2 : World)
    (hh : w1.model.history = w2.model.history)
    (hc : w1.model.count_table = w2.model.count_table)
    (ht : w1.model.total_table = w2.model.total_table)
    (hr : ∀ i, i < 2 * (MAX_ORDER + 1) + 1 → w1.rnd (w1.pos + i) = w2.rnd (w2.pos + i)) :
    (sample_character_st esc w1).1 = (sample_character_st esc w2).1 ∧
    (∃ k, 1 ≤ k ∧ k ≤ 2 * (MAX_ORDER + 1) + 1 ∧
      (sample_character_st esc w1).2.pos = w1.pos + k ∧
      (sample_character_st esc w2).2.pos = w2.pos + k) ∧
    ((sample_character_st esc w1).2.model.history = w1.model.history ∧
      (sample_character_st esc w1).2.model.count_table = w1.model.count_table ∧
      (sample_character_st esc w1).2.model.total_table = w1.model.total_table ∧
      (sample_character_st esc w1).2.rnd = w1.rnd) ∧
    (sample_character_st esc w1).1 = sample_character esc w1.model w1.rnd w1.pos := by
  have hm : w1.model = w2.model := by
    cases h1 : w1.model; cases h2 : w2.model
    rw [h1, h2] at hh hc ht
    simp only at hh hc ht
    rw [hh, hc, ht]
  obtain ⟨k, hk1, hk2, hp1, hp2, he⟩ :=
    sample_orders_two esc w1.model w1.rnd w2.rnd (MAX_ORDER + 1) w1.pos w2.pos hr
  unfold sample_character_st
  rw [sample_orders_st_eq esc (MAX_ORDER + 1) w1, sample_orders_st_eq esc (MAX_ORDER + 1) w2]
  refine ⟨?_, ⟨k, hk1, hk2, hp1, ?_⟩, ⟨rfl, rfl, rfl, rfl⟩, rfl⟩
  · simp only
    rw [he, hm]
  · simp only
    rw [← hm]; exact hp2

/-- C12, at an instance: the model trained on "aabc" in two program states, one at
the start of the stream `0, 1, 2, ...`, the other five calls into a stream that holds
99 before its cursor, the same values `0, 1, ..., 10` from it on, and 0 afterwards. -/
theorem C12_sampler_deterministic_witness :
    (sample_character_st (fun _ _ v => decide (v < 3))
        ⟨trained "aabc" missAll, fun i => i, 0⟩).1 =
      (sample_character_st (fun _ _ v => decide (v < 3))
        ⟨trained "aabc" missAll, fun i => if i < 5 then 99 else if i < 16 then i - 5 else 0,
          5⟩).1 :=
  (C12_sampler_deterministic (fun _ _ v => decide (v < 3))
    ⟨trained "aabc" missAll, fun i => i, 0⟩
    ⟨trained "aabc" missAll, fun i => if i < 5 then 99 else if i < 16 then i - 5 else 0, 5⟩
    rfl rfl rfl (by decide)).1

/-- C13: `sample_character` scans the orders from `MAX_ORDER` down to 0 and takes the
first (longest) order `k` whose context has a `TotalEntry` with total `> 0` and, when
`k > 0`, whose escape draw is not below `p_escape`: it makes the walk there, with one
random value read for each order above `k` whose context has a non-zero total and none
for the others, and returns what the walk gives (the scan going on below `k` if the
walk gave nothing, which does not happen under the Count/Total invariant modulo
`2 ^ 32`); when no order is taken it ends at the fallback draw; order 0 is taken
whenever its context has a non-zero total, whatever the random values; and an order
whose context has no `TotalEntry`, or the total 0, is passed over without reading a
random value. -/
theorem C13_order_selection (esc : Nat → Nat → Nat → Bool) (m : Model) (rnd : Nat → Nat)
    (pos : Nat) :
    (∀ k, k ≤ MAX_ORDER → takes esc m rnd pos (MAX_ORDER + 1) k →
      (∀ j, k < j → j ≤ MAX_ORDER → ¬ takes esc m rnd pos (MAX_ORDER + 1) j) →
      (sample_trace esc m rnd pos =
        match sample_walk m.count_table (get_context_str m.history k)
            (rnd (if k > 0 then pos + draws_above m (MAX_ORDER + 1) k + 1
              else pos + draws_above m (MAX_ORDER + 1) k) % order_total m k) 0 with
        | some c => (.walk k c,
            (if k > 0 then pos + draws_above m (MAX_ORDER + 1) k + 1
              else pos + draws_above m (MAX_ORDER + 1) k) + 1)
        | none => sample_orders esc m rnd k
            ((if k > 0 then pos + draws_above m (MAX_ORDER + 1) k + 1
              else pos + draws_above m (MAX_ORDER + 1) k) + 1)) ∧
      (TotalInv m → ∃ c, sample_trace esc m rnd pos =
        (.walk k c, (if k > 0 then pos + draws_above m (MAX_ORDER + 1) k + 1
              else pos + draws_above m (MAX_ORDER + 1) k) + 1))) ∧
    ((∀ k, k ≤ MAX_ORDER → ¬ takes esc m rnd pos (MAX_ORDER + 1) k) →
      sample_trace esc m rnd pos =
        (.alphabet (fallback.getD
          (rnd (pos + draws_all m (MAX_ORDER + 1)) % fallback.length) 0),
          pos + draws_all m (MAX_ORDER + 1) + 1)) ∧
    (takes esc m rnd pos (MAX_ORDER + 1) 0 ↔ 0 < order_total m 0) ∧
    (∀ order q, order_total m order = 0 →
      sample_orders esc m rnd (order + 1) q = sample_orders esc m rnd order q) := by
  refine ⟨?_, ?_, ?_, ?_⟩
  · intro k hk htk hno
    have h1 : sample_trace esc m rnd pos =
        sample_orders esc m rnd (k + 1) (pos + draws_above m (MAX_ORDER + 1) k) :=
      sample_orders_first esc m rnd (MAX_ORDER + 1) pos k (by omega)
        (fun j hj1 hj2 => hno j hj1 (by omega))
    have h2 := sample_orders_take esc m rnd k (pos + draws_above m (MAX_ORDER + 1) k)
      htk.1 htk.2
    have h3 : sample_trace esc m rnd pos =
        match sample_walk m.count_table (get_context_str m.history k)
            (rnd (if k > 0 then pos + draws_above m (MAX_ORDER + 1) k + 1
              else pos + draws_above m (MAX_ORDER + 1) k) % order_total m k) 0 with
        | some c => (.walk k c,
            (if k > 0 then pos + draws_above m (MAX_ORDER + 1) k + 1
              else pos + draws_above m (MAX_ORDER + 1) k) + 1)
        | none => sample_orders esc m rnd k
            ((if k > 0 then pos + draws_above m (MAX_ORDER + 1) k + 1
              else pos + draws_above m (MAX_ORDER + 1) k) + 1) := h1.trans h2
    refine ⟨h3, ?_⟩
    intro hinv
    obtain ⟨c, hc⟩ := walk_some_of_inv m (get_context_str m.history k) (order_total m k)
      (rnd (if k > 0 then pos + draws_above m (MAX_ORDER + 1) k + 1
        else pos + draws_above m (MAX_ORDER + 1) k) % order_total m k) hinv
      (order_total_pos m k htk.1) (Nat.mod_lt _ htk.1)
    refine ⟨c, ?_⟩
    rw [h3, hc]
  · intro hno
    have h1 := sample_orders_none esc m rnd (MAX_ORDER + 1) pos
      (fun j hj => hno j (by omega))
    unfold sample_trace
    rw [h1, sample_orders]
  · unfold takes
    constructor
    · intro h; exact h.1
    · intro h; exact ⟨h, fun hc => absurd hc.1 (by omega)⟩
  · intro order q hz
    exact sample_orders_skip esc m rnd order q (order_total_zero m order hz)

/-- C13, at an instance: in the model trained on "xyxyxy", when no escape draw
escapes, order 4 is taken and the result comes from its walk after one escape draw and
one value draw. -/
theorem C13_order_selection_witness :
    ∃ c, sample_trace (fun _ _ _ => false) (trained "xyxyxy" missAll) (fun i => i) 0 =
      (.walk 4 c, 2) :=
  ((C13_order_selection (fun _ _ _ => false) (trained "xyxyxy" missAll) (fun i => i) 0).1
    4 (by decide) (by unfold takes; decide) (by intro j h1 h2; exact absurd h2 (by
      unfold MAX_ORDER; omega))).2
    (by
      intro ctx T hT
      have h := Acct_total (trained "xyxyxy" missAll)
        (by
          rw [trained_eq "xyxyxy" (codes "xyxyxy") missAll (by decide), ← run_update_steps]
          exact Acct_run _ _ Acct_init) ctx T hT
      exact h)

/-- C15 (the code at a failing input): training on "aaa" calls `update_model('a')`
three times; at order 0 every call records the pair ("", 'a'). When the lookup of the
second call does not return the entry made by the first (the key bytes beyond
`next_char` were never set to those of the entry), the table holds two `CountEntry`
records for ("", 'a'), at positions 0 and 5. When it does return it, the entry has
count 2 from then on, the third call's lookup no longer matches it and adds a second
record for ("", 'a') at position 9. Either way the pairs of the table are not
distinct. -/
theorem C15_duplicate_entries :
    ((trained "aaa" missAll).count_table.get? 0 = some ⟨[], 97, 1⟩ ∧
      (trained "aaa" missAll).count_table.get? 5 = some ⟨[], 97, 1⟩ ∧
      ¬ (keys (trained "aaa" missAll).count_table).Nodup) ∧
    ((trained "aaa" hitSecond).count_table.get? 0 = some ⟨[], 97, 2⟩ ∧
      (trained "aaa" hitSecond).count_table.get? 9 = some ⟨[], 97, 1⟩ ∧
      ¬ (keys (trained "aaa" hitSecond).count_table).Nodup) := by
  decide

/-- C16 (as stated, refuted): the count of the entry ("", 'a') of the state `saturated`
falls from `2 ^ 32 - 1` to 0 when `update_model('a')` finds it; and from the initial
model, the total of "" is `2 ^ 32 - 1` after `2 ^ 32 - 1` calls `update_model('a')` and
0 after one call more. -/
theorem C16_counter_decreases :
    (saturated.count_table.get? 0 = some ⟨[], 97, 4294967295⟩ ∧
      (update_model saturated 97 (fun _ => some 0)).count_table.get? 0 = some ⟨[], 97, 0⟩) ∧
    (total_for (run (init_model empty_model)
        (update_steps (List.replicate 4294967295 97) missAll)) [] = some 4294967295 ∧
      total_for (run (init_model empty_model)
        (update_steps (List.replicate 4294967296 97) missAll)) [] = some 0) := by
  refine ⟨by decide, ?_, ?_⟩
  · rw [total_nil_replicate 4294967295 missAll (by omega)]; rfl
  · rw [total_nil_replicate 4294967296 missAll (by omega)]; rfl

/-- C16 (amended): for every state and character `ch`, `update_model(ch)` leaves
unchanged the accumulated count of every (context, next character) pair other than
the pairs (context of order `k` of the pre-update history, `ch`), `k` in
`0..MAX_ORDER`, and the total of every context that is not one of those contexts,
which are the last `k` characters of the history when it holds `MAX_ORDER` non-NUL
characters; no entry of either table is removed by any sequence of updates, each
keeping its position and key; and along a sequence of fewer than `2 ^ 32` updates on
non-NUL characters from the initial model no count and no total decreases. -/
theorem C16_frame_and_growth (m : Model) (ch : Nat) (pick : Pick) (steps1 steps2 : List Step) :
    (∀ ctx c, ¬ (ctx ∈ contexts m.history ∧ c = ch) →
      accCount (update_model m ch pick).count_table ctx c = accCount m.count_table ctx c) ∧
    (∀ ctx, ctx ∉ contexts m.history →
      total_for (update_model m ch pick) ctx = total_for m ctx) ∧
    (m.history.length = MAX_ORDER → (∀ b ∈ m.history, b ≠ 0) →
      contexts m.history =
        (List.range (MAX_ORDER + 1)).map (fun k => m.history.drop (MAX_ORDER - k))) ∧
    ((∀ i e, m.count_table.get? i = some e →
        ∃ e2, (run m steps2).count_table.get? i = some e2 ∧ e2.context = e.context ∧
          e2.next_char = e.next_char) ∧
      (∀ i t, m.total_table.get? i = some t →
        ∃ t2, (run m steps2).total_table.get? i = some t2 ∧ t2.context = t.context)) ∧
    ((∀ c ∈ fed (steps1 ++ steps2), c ≠ 0) → (fed (steps1 ++ steps2)).length < U32_MOD →
      (∀ i e, (run (init_model empty_model) steps1).count_table.get? i = some e →
        ∃ e2, (run (init_model empty_model) (steps1 ++ steps2)).count_table.get? i = some e2 ∧
          e2.context = e.context ∧ e2.next_char = e.next_char ∧ e.count ≤ e2.count) ∧
      (∀ ctx t, total_for (run (init_model empty_model) steps1) ctx = some t →
        ∃ t2, total_for (run (init_model empty_model) (steps1 ++ steps2)) ctx = some t2 ∧
          t ≤ t2)) := by
  refine ⟨?_, ?_, ?_, entries_stay_run steps2 m, ?_⟩
  · intro ctx c hne
    unfold accCount
    rw [update_model_count_table]
    apply sumBy_fold_frame
    intro k hk
    have hk2 : k ≤ MAX_ORDER := by have := List.mem_range.mp hk; omega
    by_cases hc : ch = c
    · have : get_context_str m.history k ≠ ctx := by
        intro he
        exact hne ⟨he ▸ get_context_str_mem_contexts m.history k hk2, hc.symm⟩
      simp [this]
    · simp [hc]
  · intro ctx hne
    have h1 : total_for (update_model m ch pick) ctx =
        tot (update_model m ch pick).total_table ctx := rfl
    rw [h1, update_model_total_table, tot_fold_of_not_mem _ _ _ _ hne]
    rfl
  · exact contexts_eq_drop m.history
  · intro hcs hlen
    rw [fed_append] at hcs hlen
    rw [List.length_append] at hlen
    have hg := Good_run steps1 0 (init_model empty_model) Good_init
      (fun c hc => hcs c (List.mem_append_left _ hc)) (by omega)
    rw [run_append]
    exact Mono_run steps2 _ _ hg (fun c hc => hcs c (List.mem_append_right _ hc)) (by omega)

/-- C16 (amended), at an instance: between the calls on "ab" and the calls on "ab",
a history reset, then "a", the total of "" does not decrease. -/
theorem C16_frame_and_growth_witness :
    ∃ t2, total_for (run (init_model empty_model)
        (update_steps (codes "ab") missAll ++ (Step.reset :: update_steps (codes "a") missAll)))
        [] = some t2 ∧ 2 ≤ t2 :=
  ((C16_frame_and_growth (init_model empty_model) 97 (missAll 0)
    (update_steps (codes "ab") missAll) (Step.reset :: update_steps (codes "a") missAll)).2.2.2.2
    (by decide) (by decide)).2 [] 2 (by decide)

/-- C17 (as stated, refuted): after `2 ^ 32` calls `update_model('a')` from the initial
model the total of the context "a" is `2 ^ 32 - 1` and the total of the shortened
context "" is 0. -/
theorem C17_shorter_total_smaller :
    total_for (run (init_model empty_model)
        (update_steps (List.replicate 4294967296 97) missAll)) [97] = some 4294967295 ∧
    total_for (run (init_model empty_model)
        (update_steps (List.replicate 4294967296 97) missAll)) ([97] : List Nat).tail
      = some 0 := by
  refine ⟨?_, ?_⟩
  · rw [total_a_replicate 4294967295 missAll (by omega)]; rfl
  · rw [List.tail_cons, total_nil_replicate 4294967296 missAll (by omega)]; rfl

/-- C17 (amended): in every state reached from the initial model by `update_model` calls
on non-NUL characters and history resets, for every context `ctx` and character `c`:
while fewer than `2 ^ 32` calls have been made, the accumulated count of (`ctx` with
its first character removed, `c`) is at least that of (`ctx`, `c`), and when `ctx` has
a total the shortened context has one at least as large; and after any number of calls,
when `ctx` has a total, so has `ctx` with its first `j` characters removed, for
every `j`. -/
theorem C17_backoff_consistency (steps : List Step) (hcs : ∀ c ∈ fed steps, c ≠ 0)
    (ctx : List Nat) (c : Nat) :
    ((fed steps).length < U32_MOD →
      accCount (run (init_model empty_model) steps).count_table ctx c ≤
        accCount (run (init_model empty_model) steps).count_table ctx.tail c ∧
      ∀ t, total_for (run (init_model empty_model) steps) ctx = some t →
        ∃ t2, total_for (run (init_model empty_model) steps) ctx.tail = some t2 ∧ t ≤ t2) ∧
    ∀ j, (total_for (run (init_model empty_model) steps) ctx).isSome = true →
      (total_for (run (init_model empty_model) steps) (ctx.drop j)).isSome = true := by
  constructor
  · intro hlen
    constructor
    · unfold accCount
      rw [counts_run steps hcs hlen, counts_run steps hcs hlen]
      exact hits_tail_run_events steps [32, 32, 32, 32] rfl init_nonzero hcs ctx c
    · intro t ht
      have h1 := seen_tail_run_events steps [32, 32, 32, 32] rfl init_nonzero hcs ctx
      have h2 := seen_le_run steps hcs hlen ctx
      have h3 := seen_le_run steps hcs hlen ctx.tail
      rw [total_run] at ht ⊢
      split at ht
      · simp at ht
      · rename_i hne
        have e1 : seen (run_events [32, 32, 32, 32] steps) ctx % U32_MOD = t := by
          simpa using ht
        rw [Nat.mod_eq_of_lt (by omega)] at e1
        rw [if_neg (by omega)]
        exact ⟨_, rfl, by rw [Nat.mod_eq_of_lt (by omega)]; omega⟩
  · intro j hs
    have h1 := seen_drop_run_events steps hcs ctx j
    rw [total_run] at hs ⊢
    split at hs
    · simp at hs
    · rw [if_neg (by omega)]
      rfl

/-- C17 (amended), at an instance: after training on "abab" the accumulated count of
("b", 'a') is at least that of ("ab", 'a'). -/
theorem C17_backoff_consistency_witness :
    accCount (run (init_model empty_model) (update_steps (codes "abab") missAll)).count_table
        [97, 98] 97 ≤
      accCount (run (init_model empty_model) (update_steps (codes "abab") missAll)).count_table
        ([97, 98] : List Nat).tail 97 :=
  ((C17_backoff_consistency (update_steps (codes "abab") missAll) (by decide) [97, 98] 97).1
    (by decide)).1

/-- C18 (as stated, refuted): after `2 ^ 32` calls `update_model('a')` from the initial
model the total of the order-0 context "" is 0, not the number of calls. -/
theorem C18_order0_total_wraps :
    (fed (update_steps (List.replicate 4294967296 97) missAll)).length = 4294967296 ∧
    total_for (run (init_model empty_model)
        (update_steps (List.replicate 4294967296 97) missAll)) [] = some 0 := by
  refine ⟨?_, ?_⟩
  · rw [fed_update_steps, List.length_replicate]
  · rw [total_nil_replicate 4294967296 missAll (by omega)]; rfl

/-- C18 (amended): after `n < 2 ^ 32` calls of `update_model` on non-NUL characters
from the initial model, whatever history resets occur in between, the total of the
order-0 context "" is `n` (no entry when `n = 0`), and for every order `k` in
`0..MAX_ORDER` the sum of the totals of all contexts of length `k` is `n`; and after
`train_model` on an input with fewer than `2 ^ 32` accepted bytes the order-0 total
is the number of accepted bytes. -/
theorem C18_event_accounting (steps : List Step) (s : List Int) (picks : Nat → Pick) :
    ((∀ c ∈ fed steps, c ≠ 0) → (fed steps).length < U32_MOD →
      (total_for (run (init_model empty_model) steps) []).getD 0 = (fed steps).length ∧
      ∀ k, k ≤ MAX_ORDER →
        order_sum (run (init_model empty_model) steps) k = (fed steps).length) ∧
    ((accepted_chars s).length < U32_MOD →
      (total_for (train_model (init_model empty_model) s picks) []).getD 0 =
        (accepted_chars s).length) := by
  constructor
  · intro hcs hlen
    refine ⟨total_nil_run steps hcs hlen, ?_⟩
    intro k hk
    have h := order_sum_run steps 0 (init_model empty_model) Good_init hcs (by omega) k hk
    rw [h]
    have h0 : order_sum (init_model empty_model) k = 0 := rfl
    omega
  · intro hlen
    have h := total_nil_run (update_steps (accepted_chars s) picks)
      (by rw [fed_update_steps]; exact accepted_chars_nonzero s)
      (by rw [fed_update_steps]; exact hlen)
    rw [fed_update_steps, run_update_steps, ← train_model_eq_updates] at h
    exact h

/-- C18 (amended), at an instance: after the calls on "ab", a history reset and the
call on "a", the totals of the contexts of length 2 sum to 3. -/
theorem C18_event_accounting_witness :
    order_sum (run (init_model empty_model)
      (update_steps (codes "ab") missAll ++ (Step.reset :: update_steps (codes "a") missAll)))
      2 = 3 :=
  ((C18_event_accounting
    (update_steps (codes "ab") missAll ++ (Step.reset :: update_steps (codes "a") missAll))
    [] missAll).1 (by decide) (by decide)).2 2 (by decide)

/-- C19: for every prompt, model state, escape behaviour and sequence of random values,
the sampling loop of `generate_response` runs at most 500 loop bodies and prints at
most 201 sampled characters; the printed characters are exactly those handed to
`update_model`, one call each, in the order sampled (the final model is the model
after the prompt updated with them in turn); every loop body either prints a
character or is skipped by the range check; and the loop never ends because
`generated < 300` fails. -/
theorem C19_generation_bound (esc : Nat → Nat → Nat → Bool) (rnd : Nat → Nat)
    (picks1 picks2 : Nat → Pick) (m : Model) (prompt : List Int) (pos : Nat) :
    (generate_response esc rnd picks1 picks2 m prompt pos).1.iters ≤ 500 ∧
    (generate_response esc rnd picks1 picks2 m prompt pos).1.generated ≤ 201 ∧
    (generate_response esc rnd picks1 picks2 m prompt pos).1.sampled.length =
      (generate_response esc rnd picks1 picks2 m prompt pos).1.generated ∧
    (generate_response esc rnd picks1 picks2 m prompt pos).1.iters =
      (generate_response esc rnd picks1 picks2 m prompt pos).1.generated +
        (generate_response esc rnd picks1 picks2 m prompt pos).1.skipped ∧
    (generate_response esc rnd picks1 picks2 m prompt pos).1.model =
      updates (feed_prompt (init_model m) prompt picks1)
        (generate_response esc rnd picks1 picks2 m prompt pos).1.sampled picks2 ∧
    (generate_response esc rnd picks1 picks2 m prompt pos).2 ≠ Stop.generated := by
  obtain ⟨h1, h2, h3, _, cs, h5, h6, h7, h8⟩ := gen_loop_spec esc rnd picks2 500
    (gen_start (feed_prompt (init_model m) prompt picks1) pos) rfl (Nat.zero_le _)
  unfold generate_response
  simp only [gen_start, List.nil_append, Nat.zero_add] at h3 h5 h6 h7 h8 ⊢
  refine ⟨h3, h1, ?_, ?_, ?_, h2⟩
  · rw [h5, h6]
  · omega
  · rw [h8, h5]

end TinySLM
